import Mathlib

/-!
# Verification of the dotx installation planner

A shallow embedding of the planner/plan modules of the `dotx` repository
(`src/dotx/plan.py`, `src/dotx/install.py`, `src/dotx/uninstall.py`,
`src/dotx/commands/install_cmd.py`, `src/dotx/ignore.py`).

Modelling conventions:

* A path relative to the source package root (or destination root) is a list
  of path components (`RelPath`).  The empty list models Python's `Path(".")`,
  whose `parts` tuple is empty.  Joining a path with a component mirrors
  `pathlib`: a component `"."` or `""` is collapsed (`pathChild`).
* The source package is a finite tree of named files and directories
  (`FSObj`); `os.walk` traversals become structural recursion over it.
* The destination file system is read by the planners only through
  `Path.exists`, `Path.is_file` and `Path.is_symlink`; it is modelled by three
  boolean predicates (`DestFS`).
* `IgnoreRules` is modelled by the boolean predicate interface the planner
  uses (`should_ignore`/`prune_directories` collapse to one predicate
  `ignore : RelPath → Bool` on paths relative to the package root, since both
  query the same rules on the same paths).  The constructor-arity mismatch of
  the actual calls in `plan_install_paths` is modelled separately
  (`plan_install_paths_run`).
* The always-create pattern matcher (`HierarchicalPatternMatcher` plus the
  single-pattern re-matching in `_matches_always_create_at_exact_depth`) is
  modelled by its loaded pattern list together with abstract boolean matching
  functions for "the whole spec matches" and "this single pattern matches".
* A `Plan` (Python `dict[Path, PlanNode]`) is an association list with the
  dictionary operations used by the source: lookup, insert-or-replace,
  in-place action update, delete.  The walks only ever create one entry per
  key, so the recursive replace-all forms below agree with `dict` semantics.
-/

set_option maxRecDepth 10000
set_option maxHeartbeats 1000000

namespace Dotx

/-- A path as a list of components, relative to a root; `[]` is `Path(".")`. -/
abbrev RelPath := List String

/-- `pathlib` path join with a single name: `"."` (and the empty string)
collapse, mirroring `PurePath`'s normalisation of single-dot components. -/
def pathChild (parent : RelPath) (name : String) : RelPath :=
  if name = "." ∨ name = "" then parent else parent ++ [name]

/-- The `Action` enum of `src/dotx/plan.py`. -/
inductive Action where
  | FAIL
  | NONE
  | SKIP
  | LINK
  | UNLINK
  | CREATE
  | EXISTS
deriving DecidableEq, Repr

/-- The `PlanNode` dataclass of `src/dotx/plan.py`. -/
structure PlanNode where
  action : Action
  requires_rename : Bool
  relative_source_path : RelPath
  relative_destination_path : RelPath
  is_dir : Bool
deriving DecidableEq, Repr

/-- A `Plan = dict[Path, PlanNode]`, as an association list. -/
abbrev Plan := List (RelPath × PlanNode)

namespace Plan

/-- Dictionary lookup: `plan[key]` / `key in plan`. -/
def find? : Plan → RelPath → Option PlanNode
  | [], _ => none
  | (k, v) :: rest, key => if k = key then some v else find? rest key

/-- Dictionary assignment `plan[key] = v` (replace or append). -/
def insert : Plan → RelPath → PlanNode → Plan
  | [], key, v => [(key, v)]
  | (k, w) :: rest, key, v =>
    if k = key then (k, v) :: rest else (k, w) :: insert rest key v

/-- The in-place mutation `plan[key].action = a` (no effect if absent). -/
def setAction : Plan → RelPath → Action → Plan
  | [], _, _ => []
  | (k, v) :: rest, key, a =>
    if k = key then (k, { v with action := a }) :: setAction rest key a
    else (k, v) :: setAction rest key a

/-- Dictionary deletion `del plan[key]`. -/
def eraseKey : Plan → RelPath → Plan
  | [], _ => []
  | (k, v) :: rest, key =>
    if k = key then eraseKey rest key else (k, v) :: eraseKey rest key

end Plan

/-- A file-system object of the source package: named file or directory. -/
inductive FSObj where
  | file (name : String)
  | dir (name : String) (children : List FSObj)

/-- Base name of a source object. -/
def objName : FSObj → String
  | .file n => n
  | .dir n _ => n

/-- Directory test (`Path.is_dir` inside the source tree). -/
def objIsDir : FSObj → Bool
  | .file _ => false
  | .dir _ _ => true

/-- Children of a directory object (empty for files). -/
def objChildren : FSObj → List FSObj
  | .file _ => []
  | .dir _ cs => cs

/-- The destination file system read by the planners: `Path.exists`
(follows symlinks), `Path.is_file`, `Path.is_symlink`, each applied to
`destination_root / p` for a destination-relative path `p`. -/
structure DestFS where
  existsAt : RelPath → Bool
  isFile : RelPath → Bool
  isSymlink : RelPath → Bool

/-- `child.startswith("dot-")`: the rename convention of the planner (the
prefix test is on the character sequence). -/
def requiresRenameName (name : String) : Bool :=
  "dot-".data.isPrefixOf name.data

/-- The destination base name: `"." + child[4:]` for `dot-` names, else
unchanged (plan_install_paths, src/dotx/install.py lines 285–291). -/
def destName (name : String) : String :=
  if requiresRenameName name then "." ++ String.mk (name.data.drop 4) else name

/-- The destination path of a source-relative path: fold of the per-component
renaming over `pathlib` join (a renamed `"dot-"` component collapses). -/
def destOfPath (p : RelPath) : RelPath :=
  p.foldl (fun acc n => pathChild acc (destName n)) []

/-- Last component of a path (`""` for the root, which has no components). -/
def lastName (p : RelPath) : String := p.getLastD ""

/-- One always-create pattern as seen by
`_matches_always_create_at_exact_depth`: its cleaned component list
(`pattern.strip("/").split("/")`, giving the depth) together with the
abstract boolean test "the single-pattern PathSpec built from this pattern
matches `str(path) + "/"`". -/
structure ACPattern where
  parts : List String
  singleMatch : RelPath → Bool

/-- The loaded `HierarchicalPatternMatcher`: the abstract whole-spec match
`matcher.matches(path, is_dir=True)` plus the loaded pattern list.  After
`load_patterns` the spec is always non-`None`, so the `spec is None` early
return of `_matches_always_create_at_exact_depth` is never taken. -/
structure Matcher where
  fullMatch : RelPath → Bool
  patterns : List ACPattern

/-- `_matches_always_create_at_exact_depth` (src/dotx/install.py lines
29–84): the whole spec must match, and some non-empty pattern of exactly the
path's depth must match it on its own. -/
def matchesAlwaysCreateAtExactDepth (m : Matcher) (path : RelPath) : Bool :=
  m.fullMatch path &&
    m.patterns.any (fun pat =>
      !pat.parts.isEmpty && pat.parts.length == path.length && pat.singleMatch path)

/-- The `PlanNode` built for a child during `plan_install_paths`. -/
def mkChildNode (rel destRel : RelPath) (name : String) (isDir : Bool) : PlanNode :=
  { action := .NONE
    requires_rename := requiresRenameName name
    relative_source_path := pathChild rel name
    relative_destination_path := pathChild destRel (destName name)
    is_dir := isDir }

/-- The synthetic bootstrap entry for the package root. -/
def rootNode : PlanNode :=
  { action := .EXISTS
    requires_rename := false
    relative_source_path := []
    relative_destination_path := []
    is_dir := true }

/-- The child-entry loop of one `plan_install_paths` walk step: ignored
subdirectories are pruned, then an entry is created for each non-ignored
child, subdirectories first (`child_directories + child_files`). -/
def addChildEntries (ignore : RelPath → Bool) (children : List FSObj)
    (rel destRel : RelPath) (plan : Plan) : Plan :=
  let dirs := children.filter (fun c => objIsDir c)
  let files := children.filter (fun c => !objIsDir c)
  let pruned := dirs.filter (fun c => !ignore (pathChild rel (objName c)))
  (pruned ++ files).foldl
    (fun pl c =>
      if ignore (pathChild rel (objName c)) then pl
      else pl.insert (pathChild rel (objName c))
        (mkChildNode rel destRel (objName c) (objIsDir c)))
    plan

mutual

/-- One step of the top-down `os.walk` of `plan_install_paths`
(src/dotx/install.py lines 257–301), at a visited, non-ignored directory:
add entries for the non-ignored children, then descend into the non-pruned
subdirectories in order, passing down the recorded destination path. -/
def pathsWalkObj (ignore : RelPath → Bool) (obj : FSObj) (rel destRel : RelPath)
    (plan : Plan) : Plan :=
  match obj with
  | .file _ => plan
  | .dir _ children =>
    pathsWalkDirs ignore children rel destRel
      (addChildEntries ignore children rel destRel plan)

/-- Descend into each subdirectory of the current walk step that survived
pruning (files and ignored directories are passed over). -/
def pathsWalkDirs (ignore : RelPath → Bool) (objs : List FSObj)
    (rel destRel : RelPath) (plan : Plan) : Plan :=
  match objs with
  | [] => plan
  | o :: rest =>
    pathsWalkDirs ignore rest rel destRel
      (if objIsDir o && !ignore (pathChild rel (objName o)) then
        pathsWalkObj ignore o (pathChild rel (objName o))
          (pathChild destRel (destName (objName o))) plan
      else plan)

end

/-- `plan_install_paths` (src/dotx/install.py lines 217–311) with the ignore
rules supplied through the boolean predicate interface of the spec
(`should_ignore`): bootstrap the synthetic root entry, then walk the source
tree top-down.  When the package root itself is ignored the source skips the
root's children and then raises `KeyError` at the first surviving grandchild;
every theorem below assumes the root is not ignored, and this degenerate
branch returns just the bootstrap entry. -/
def plan_install_paths (ignore : RelPath → Bool) (tree : List FSObj) : Plan :=
  let init : Plan := [([], rootNode)]
  if ignore [] then init
  else pathsWalkObj ignore (.dir "" tree) [] [] init

/-- `Path.parents` of a relative path: every strict ancestor, nearest first,
ending with the root `[]` (`Path(".").parents` is empty). -/
def parentsOf (p : RelPath) : List RelPath :=
  (List.range p.length).map (fun i => p.take (p.length - 1 - i))

/-- `mark_all_ancestors` (src/dotx/plan.py lines 202–215): walk up the
parents, skipping those without an entry, stopping at the first whose action
is `stop_mark`, marking the rest with `mark`. -/
def markAllAncestorsGo (mark stop : Action) : List RelPath → Plan → Plan
  | [], plan => plan
  | p :: rest, plan =>
    match plan.find? p with
    | none => markAllAncestorsGo mark stop rest plan
    | some node =>
      if node.action = stop then plan
      else markAllAncestorsGo mark stop rest (plan.setAction p mark)

/-- `mark_all_ancestors(child, mark, stop_mark, plan)`. -/
def mark_all_ancestors (child : RelPath) (mark stop : Action) (plan : Plan) : Plan :=
  markAllAncestorsGo mark stop (parentsOf child) plan

/-- One child of `mark_immediate_children`: overwrite its entry with `mark`
when present and currently in `allow_overwrite`. -/
def markChildStep (mark : Action) (allow : List Action) (pl : Plan)
    (cp : RelPath) : Plan :=
  match pl.find? cp with
  | some node => if node.action ∈ allow then pl.setAction cp mark else pl
  | none => pl

/-- `mark_immediate_children` (src/dotx/plan.py lines 242–261): for each
`iterdir` child of the directory, if it has an entry whose action is in
`allow_overwrite`, overwrite it with `mark`.  `childPaths` is the list of
`child.relative_to(source_package_root)` keys for the directory's children. -/
def markImmediateChildren (childPaths : List RelPath) (mark : Action)
    (allow : List Action) (plan : Plan) : Plan :=
  childPaths.foldl (markChildStep mark allow) plan

/-- The plan keys of the `iterdir` / `child_directories + child_files`
children of a directory at `rel` (directories first, as in the first pass of
`plan_install`; key order is irrelevant because keys are distinct). -/
def childPathsOf (rel : RelPath) (children : List FSObj) : List RelPath :=
  (children.filter (fun c => objIsDir c) ++ children.filter (fun c => !objIsDir c)).map
    (fun c => pathChild rel (objName c))

/-- The first pass of one `plan_install` walk step (src/dotx/install.py lines
133–149): accumulate `found_children_to_rename` over the children that have
an entry and mark `FAIL` every child whose destination exists and is a
regular file. -/
def firstPassStep (fs : DestFS) (st : Plan × Bool) (cp : RelPath) :
    Plan × Bool :=
  match st.1.find? cp with
  | none => st
  | some node =>
    let flag := st.2 || node.requires_rename
    let d := node.relative_destination_path
    if fs.existsAt d && fs.isFile d then (st.1.setAction cp .FAIL, flag)
    else (st.1, flag)

/-- The first-pass fold from an empty rename flag. -/
def firstPass (fs : DestFS) (childPaths : List RelPath) (plan : Plan) :
    Plan × Bool :=
  childPaths.foldl (firstPassStep fs) (plan, false)

/-- The second and third passes of one `plan_install` walk step
(src/dotx/install.py lines 151–211), preceded by the first pass: decide the
directory's action (root / already exists / forced rename / always-create /
link), propagate upward with `mark_all_ancestors`, then mark the immediate
children according to the decision.  Skipped entirely when the directory has
no entry (`relative_root_path not in plan`). -/
def decideDir (fs : DestFS) (m : Matcher) (isRoot : Bool) (rel : RelPath)
    (childPaths : List RelPath) (plan : Plan) : Plan :=
  match plan.find? rel with
  | none => plan
  | some node =>
    let destRel := node.relative_destination_path
    let st := firstPass fs childPaths plan
    let plan1 := st.1
    let renameFlag := st.2
    let plan2 :=
      if isRoot then plan1.setAction rel .EXISTS
      else if fs.existsAt destRel then
        mark_all_ancestors rel .EXISTS .EXISTS (plan1.setAction rel .EXISTS)
      else if renameFlag then
        mark_all_ancestors rel .CREATE .EXISTS (plan1.setAction rel .CREATE)
      else if matchesAlwaysCreateAtExactDepth m destRel then
        mark_all_ancestors rel .CREATE .EXISTS (plan1.setAction rel .CREATE)
      else plan1.setAction rel .LINK
    match plan2.find? rel with
    | none => plan2
    | some node' =>
      if node'.action = .CREATE ∨ node'.action = .EXISTS then
        markImmediateChildren childPaths .LINK [.NONE] plan2
      else if node'.action = .LINK then
        markImmediateChildren childPaths .SKIP [.NONE, .LINK] plan2
      else plan2

mutual

/-- The bottom-up `os.walk(topdown=False)` of `plan_install`, restricted to a
subtree: process every subdirectory (deepest first), then the directory
itself.  The walk visits ignored directories too; `decideDir` skips those
without an entry. -/
def installWalkObj (fs : DestFS) (m : Matcher) (obj : FSObj) (rel : RelPath)
    (plan : Plan) : Plan :=
  match obj with
  | .file _ => plan
  | .dir _ children =>
    decideDir fs m false rel (childPathsOf rel children)
      (installWalkDirs fs m children rel plan)

/-- Process the subtrees of the given sibling objects in order (files
contribute nothing: `os.walk` yields only directories). -/
def installWalkDirs (fs : DestFS) (m : Matcher) (objs : List FSObj)
    (rel : RelPath) (plan : Plan) : Plan :=
  match objs with
  | [] => plan
  | o :: rest =>
    installWalkDirs fs m rest rel
      (installWalkObj fs m o (pathChild rel (objName o)) plan)

end

/-- `plan_install` (src/dotx/install.py lines 87–214): build the initial plan
with `plan_install_paths`, walk the source tree bottom-up deciding an action
per directory (the package root last, always `EXISTS`), then delete the
synthetic root entry.  The loaded always-create matcher and the destination
file system are explicit parameters (collaborator interfaces). -/
def plan_install (ignore : RelPath → Bool) (fs : DestFS) (m : Matcher)
    (tree : List FSObj) : Plan :=
  let plan0 := plan_install_paths ignore tree
  let plan1 := installWalkDirs fs m tree [] plan0
  let plan2 := decideDir fs m true [] (childPathsOf [] tree) plan1
  plan2.eraseKey []

/-- The file-children loop of one `plan_uninstall` walk step
(src/dotx/uninstall.py lines 27–33): mark `UNLINK` every file child with an
entry whose destination path is a symlink. -/
def uninstallFileStep (fs : DestFS) (pl : Plan) (cp : RelPath) : Plan :=
  match pl.find? cp with
  | none => pl
  | some node =>
    if fs.isSymlink node.relative_destination_path then pl.setAction cp .UNLINK
    else pl

/-- The file-children fold of one `plan_uninstall` walk step. -/
def uninstallFilePass (fs : DestFS) (filePaths : List RelPath) (plan : Plan) :
    Plan :=
  filePaths.foldl (uninstallFileStep fs) plan

mutual

/-- `mark_all_descendents` (src/dotx/plan.py lines 218–239) on one `iterdir`
child: overwrite its entry when its action is in `allow`, then recurse when
it is a directory. -/
def markAllDescObj (mark : Action) (allow : List Action) (obj : FSObj)
    (rel : RelPath) (plan : Plan) : Plan :=
  let plan1 :=
    match plan.find? rel with
    | some node => if node.action ∈ allow then plan.setAction rel mark else plan
    | none => plan
  match obj with
  | .file _ => plan1
  | .dir _ children => markAllDescList mark allow children rel plan1

/-- `mark_all_descendents` over a directory's children list. -/
def markAllDescList (mark : Action) (allow : List Action) (objs : List FSObj)
    (rel : RelPath) (plan : Plan) : Plan :=
  match objs with
  | [] => plan
  | o :: rest =>
    markAllDescList mark allow rest rel
      (markAllDescObj mark allow o (pathChild rel (objName o)) plan)

end

mutual

/-- One step of the top-down `os.walk` of `plan_uninstall`
(src/dotx/uninstall.py lines 21–45) plus descent: skip the directory when it
has no entry or is already `SKIP`; otherwise mark symlinked file children
`UNLINK`, then decide the directory itself (`SKIP` when its destination does
not exist, `UNLINK` when the destination is a symlink) and, when decided,
mark every descendant `SKIP` (only those still `NONE`).  The walk then
descends into every subdirectory. -/
def uninstallWalkObj (fs : DestFS) (obj : FSObj) (rel : RelPath)
    (plan : Plan) : Plan :=
  match obj with
  | .file _ => plan
  | .dir _ children =>
    let plan1 :=
      match plan.find? rel with
      | none => plan
      | some node =>
        if node.action = .SKIP then plan
        else
          let pl := uninstallFilePass fs
            ((children.filter (fun c => !objIsDir c)).map
              (fun c => pathChild rel (objName c))) plan
          let destRel := node.relative_destination_path
          let act? : Option Action :=
            if !fs.existsAt destRel then some .SKIP
            else if fs.isSymlink destRel then some .UNLINK
            else none
          match act? with
          | none => pl
          | some a =>
            -- the source re-checks `(source_package_root / …).is_dir()`;
            -- the object being walked is a directory, so it holds
            markAllDescList .SKIP [.NONE] children rel (pl.setAction rel a)
    uninstallWalkList fs children rel plan1

/-- Descend into every subdirectory (files are not walk roots). -/
def uninstallWalkList (fs : DestFS) (objs : List FSObj) (rel : RelPath)
    (plan : Plan) : Plan :=
  match objs with
  | [] => plan
  | o :: rest =>
    uninstallWalkList fs rest rel
      (uninstallWalkObj fs o (pathChild rel (objName o)) plan)

end

/-- `plan_uninstall` (src/dotx/uninstall.py lines 18–48): the initial plan of
`plan_install_paths`, a top-down walk deciding `UNLINK`/`SKIP` per object,
then deletion of the synthetic root entry. -/
def plan_uninstall (ignore : RelPath → Bool) (fs : DestFS)
    (tree : List FSObj) : Plan :=
  let plan0 := plan_install_paths ignore tree
  let plan1 := uninstallWalkObj fs (.dir "" tree) [] plan0
  plan1.eraseKey []

/-! ## Plan extraction and execution -/

/-- `pathlib` path ordering: lexicographic on the component tuples, with
string comparison per component (`sorted(plan.values(), key=…)`). -/
def pathLeB : RelPath → RelPath → Bool
  | [], _ => true
  | _ :: _, [] => false
  | a :: as_, b :: bs => if a = b then pathLeB as_ bs else decide (a < b)

/-- Insertion step of the sort used by `extract_plan`. -/
def insertByPath (n : PlanNode) : List PlanNode → List PlanNode
  | [] => [n]
  | m :: rest =>
    if pathLeB n.relative_source_path m.relative_source_path then n :: m :: rest
    else m :: insertByPath n rest

/-- Sort plan nodes by `relative_source_path` ascending. -/
def sortByPath : List PlanNode → List PlanNode
  | [] => []
  | n :: rest => insertByPath n (sortByPath rest)

/-- `extract_plan` (src/dotx/plan.py lines 148–165): the nodes whose action
is in the given set, in ascending `relative_source_path` order. -/
def extract_plan (plan : Plan) (actions : List Action) : List PlanNode :=
  (sortByPath (plan.map (fun e => e.2))).filter (fun n => n.action ∈ actions)

/-- Find a child object by name, as the source tree walk does. -/
def objAt? : List FSObj → RelPath → Option FSObj
  | tree, [] => some (.dir "" tree)
  | tree, n :: rest =>
    match List.find? (fun o => objName o == n) tree with
    | none => none
    | some (.file nm) => if rest.isEmpty then some (.file nm) else none
    | some (.dir nm cs) =>
      if rest.isEmpty then some (.dir nm cs) else objAt? cs rest

/-- An entry of the executor's model of the destination tree: a real
directory made by `mkdir`, or a symlink made by `symlink_to` pointing at a
source-relative path. -/
inductive EntryKind where
  | realDir
  | symlinkTo (src : RelPath)
deriving DecidableEq, Repr

/-- The executor's mutable destination state (initially empty: the
destination root exists and contains nothing). -/
abbrev ExecFS := List (RelPath × EntryKind)

/-- Lookup in the destination state. -/
def lookupEntry : ExecFS → RelPath → Option EntryKind
  | [], _ => none
  | (k, v) :: rest, key => if k = key then some v else lookupEntry rest key

/-- A resolved location: still inside the destination tree, or redirected
into the source tree by a symlink. -/
inductive Loc where
  | dst (p : RelPath)
  | src (p : RelPath)
deriving DecidableEq, Repr

/-- Resolve one path component, following symlinks into the source tree. -/
def resolveStep (tree : List FSObj) (st : ExecFS) : Loc → String → Option Loc
  | .dst p, c =>
    match lookupEntry st (p ++ [c]) with
    | some .realDir => some (.dst (p ++ [c]))
    | some (.symlinkTo s) => some (.src s)
    | none => none
  | .src p, c =>
    if (objAt? tree (p ++ [c])).isSome then some (.src (p ++ [c])) else none

/-- Resolve a destination-relative path against the current state. -/
def resolveDest (tree : List FSObj) (st : ExecFS) (p : RelPath) : Option Loc :=
  p.foldl (fun acc c => acc.bind (fun l => resolveStep tree st l c)) (some (.dst []))

/-- Errors of the modelled (non-dry-run) `execute_plan`:
`alreadyExists` is `FileExistsError`, `notFound` is `FileNotFoundError`,
`badStep` is the `logging.critical`/`exit(2)` branch, and `intoSource` marks
a mutation that would land inside the source tree (never reached by the
theorems below; kept for totality). -/
inductive ExecErr where
  | alreadyExists (p : RelPath)
  | notFound (p : RelPath)
  | intoSource (p : RelPath)
  | badStep (p : RelPath)
deriving DecidableEq, Repr

/-- `execute_plan_step` (src/dotx/plan.py lines 113–131) in non-dry-run mode:
`CREATE` is `destination.mkdir()`, `LINK` is `destination.symlink_to(source)`
(the symlink records the resolved source object), `UNLINK` removes the
destination when it is a symlink and otherwise hits the fatal `exit(2)`
branch.  `mkdir` and `symlink_to` raise `FileExistsError` when the (resolved)
target path already has an entry. -/
def execStep (tree : List FSObj) (st : ExecFS) (node : PlanNode) :
    Except ExecErr ExecFS :=
  let d := node.relative_destination_path
  let parent := d.dropLast
  let name := lastName d
  match node.action with
  | .CREATE =>
    match resolveDest tree st parent with
    | none => .error (.notFound d)
    | some (.dst q) =>
      match lookupEntry st (q ++ [name]) with
      | some _ => .error (.alreadyExists d)
      | none => .ok ((q ++ [name], .realDir) :: st)
    | some (.src q) =>
      if (objAt? tree (q ++ [name])).isSome then .error (.alreadyExists d)
      else .error (.intoSource d)
  | .LINK =>
    match resolveDest tree st parent with
    | none => .error (.notFound d)
    | some (.dst q) =>
      match lookupEntry st (q ++ [name]) with
      | some _ => .error (.alreadyExists d)
      | none => .ok ((q ++ [name], .symlinkTo node.relative_source_path) :: st)
    | some (.src q) =>
      if (objAt? tree (q ++ [name])).isSome then .error (.alreadyExists d)
      else .error (.intoSource d)
  | .UNLINK =>
    match resolveDest tree st parent with
    | some (.dst q) =>
      match lookupEntry st (q ++ [name]) with
      | some (.symlinkTo _) =>
        .ok (st.filter (fun e => e.1 ≠ q ++ [name]))
      | _ => .error (.badStep d)
    | _ => .error (.badStep d)
  | _ => .error (.badStep d)

/-- `execute_plan` (src/dotx/plan.py lines 84–145) in non-dry-run mode,
against a destination root that starts empty: extract the
`CREATE`/`LINK`/`UNLINK` steps in ascending source-path order and apply them
in sequence, stopping at the first filesystem error. -/
def executePlanModel (tree : List FSObj) (plan : Plan) : Except ExecErr ExecFS :=
  (extract_plan plan [.CREATE, .LINK, .UNLINK]).foldlM (execStep tree) []

/-! ## The install command's all-or-nothing batch -/

/-- The batch logic of the `install` command
(src/dotx/commands/install_cmd.py lines 42–115): first compute a full plan
for every source package, then check every plan for `FAIL` entries, and pass
the plans to `execute_plan` only when no package has any.  The result is the
list of (package, plan) pairs that are executed. -/
def installCmdExecuted (ignore : RelPath → Bool) (fs : DestFS) (m : Matcher)
    (sources : List (List FSObj)) : List (List FSObj × Plan) :=
  let plans := sources.map (fun s => (s, plan_install ignore fs m s))
  if plans.all (fun sp => (extract_plan sp.2 [.FAIL]).isEmpty) then plans
  else []

/-! ## The broken collaborator calls of `plan_install_paths`

`plan_install_paths` (src/dotx/install.py line 237) constructs
`IgnoreRules(source_package_root)`, but `IgnoreRules.__init__`
(src/dotx/ignore.py lines 34–44) declares no parameter besides `self`, so
Python raises `TypeError` at that call, before the plan dictionary receives
any entry.  (Its later calls `should_ignore(path)` and
`prune_directories(root, dirs)` also omit the declared `relative_to`
parameter, and `plan_uninstall` additionally passes a second positional
argument to `plan_install_paths` itself.) -/

/-- Python call errors raised before a function body runs. -/
inductive PyError where
  | typeError
deriving DecidableEq, Repr

/-- Parameters of `IgnoreRules.__init__` besides `self`. -/
def IgnoreRules_init_param_count : Nat := 0

/-- Positional arguments in the call `IgnoreRules(source_package_root)`. -/
def IgnoreRules_init_call_arg_count : Nat := 1

/-- Parameters of `IgnoreRules.should_ignore` besides `self`
(`path`, `relative_to`). -/
def should_ignore_param_count : Nat := 2

/-- Positional arguments in the call `ignore_rules.should_ignore(path)`. -/
def should_ignore_call_arg_count : Nat := 1

/-- Parameters of `IgnoreRules.prune_directories` besides `self`
(`root`, `directories`, `relative_to`). -/
def prune_directories_param_count : Nat := 3

/-- Positional arguments in the call
`ignore_rules.prune_directories(current_root_path, child_directories)`. -/
def prune_directories_call_arg_count : Nat := 2

/-- CPython's check of positional arity: a mismatch raises `TypeError`. -/
def callPython (paramCount argCount : Nat) : Except PyError Unit :=
  if argCount = paramCount then .ok () else .error .typeError

/-- `plan_install_paths` as actually written: it first evaluates
`IgnoreRules(source_package_root)`, whose arity mismatch raises, and only on
success would it build the plan. -/
def plan_install_paths_run (ignore : RelPath → Bool) (tree : List FSObj) :
    Except PyError Plan := do
  let _ ← callPython IgnoreRules_init_param_count IgnoreRules_init_call_arg_count
  pure (plan_install_paths ignore tree)

/-! ## Closed-form description of the planners

The functions below give, per path, the entry the walks compute; the walk
equivalence theorems connect them to `plan_install` and `plan_uninstall`. -/

/-- Membership of the plan built by `plan_install_paths`: the path denotes an
object of the source tree none of whose ancestors (nor itself) is ignored.
The root `[]` is a member (the synthetic bootstrap entry). -/
def inPlanGo (ignore : RelPath → Bool) : List FSObj → RelPath → RelPath → Bool
  | _, _, [] => true
  | objs, rel, n :: rest =>
    match List.find? (fun o => objName o == n) objs with
    | none => false
    | some (.file _) => rest.isEmpty && !ignore (rel ++ [n])
    | some (.dir _ cs) =>
      !ignore (rel ++ [n]) &&
        (rest.isEmpty || inPlanGo ignore cs (rel ++ [n]) rest)

/-- Plan membership from the package root. -/
def inPlanB (ignore : RelPath → Bool) (tree : List FSObj) (x : RelPath) : Bool :=
  inPlanGo ignore tree [] x

/-- Whether a source path denotes a directory (`[]` is the root directory). -/
def isDirAtB (tree : List FSObj) (x : RelPath) : Bool :=
  match objAt? tree x with
  | some o => objIsDir o
  | none => false

/-- The children of a source directory. -/
def childrenAt (tree : List FSObj) (x : RelPath) : List FSObj :=
  match objAt? tree x with
  | some (.dir _ cs) => cs
  | _ => []

/-- `found_children_to_rename` of a directory: some non-ignored child (i.e.
some child with a plan entry) carries the `dot-` prefix. -/
def planChildRenameB (ignore : RelPath → Bool) (tree : List FSObj)
    (x : RelPath) : Bool :=
  (childrenAt tree x).any
    (fun c => !ignore (x ++ [objName c]) && requiresRenameName (objName c))

/-- The decision the second pass of `plan_install` takes for a non-root
directory when it is visited: already exists / forced rename / always-create
/ link. -/
def ownActB (ignore : RelPath → Bool) (fs : DestFS) (m : Matcher)
    (tree : List FSObj) (x : RelPath) : Action :=
  if fs.existsAt (destOfPath x) then .EXISTS
  else if planChildRenameB ignore tree x then .CREATE
  else if matchesAlwaysCreateAtExactDepth m (destOfPath x) then .CREATE
  else .LINK

/-- Whether the first pass run at the parent marks this entry `FAIL`: its
destination exists and is a regular file. -/
def failedByB (fs : DestFS) (x : RelPath) : Bool :=
  fs.existsAt (destOfPath x) && fs.isFile (destOfPath x)

/-- The visit decision of the parent directory (the root counts as
`EXISTS`). -/
def parentOwnB (ignore : RelPath → Bool) (fs : DestFS) (m : Matcher)
    (tree : List FSObj) (x : RelPath) : Action :=
  if x.dropLast.isEmpty then .EXISTS else ownActB ignore fs m tree x.dropLast

/-- The final action of a non-root plan entry after `plan_install`:
a conflicting regular file wins (`FAIL`); a directory keeps its visit
decision unless both it and its parent chose `LINK`, in which case the
parent's third pass downgrades it to `SKIP`; a file becomes `LINK` under a
`CREATE`/`EXISTS` parent and `SKIP` under a `LINK` parent. -/
def finalActB (ignore : RelPath → Bool) (fs : DestFS) (m : Matcher)
    (tree : List FSObj) (x : RelPath) : Action :=
  if failedByB fs x then .FAIL
  else if isDirAtB tree x then
    if ownActB ignore fs m tree x = .LINK ∧ parentOwnB ignore fs m tree x = .LINK
    then .SKIP else ownActB ignore fs m tree x
  else
    if parentOwnB ignore fs m tree x = .LINK then .SKIP else .LINK

/-- The invariant node shape every walk preserves: only `action` evolves;
the other fields are fixed by the path. -/
def baseNode (tree : List FSObj) (x : RelPath) (a : Action) : PlanNode :=
  { action := a
    requires_rename := requiresRenameName (lastName x)
    relative_source_path := x
    relative_destination_path := destOfPath x
    is_dir := isDirAtB tree x }

/-- The visit decision of `plan_uninstall` for a directory, when reached:
`SKIP` when its destination does not exist (a dangling symlink included,
since `Path.exists` follows links), `UNLINK` when the destination is a
symlink, nothing otherwise. -/
def ownUnActB (fs : DestFS) (x : RelPath) : Option Action :=
  if !fs.existsAt (destOfPath x) then some .SKIP
  else if fs.isSymlink (destOfPath x) then some .UNLINK
  else none

/-- Whether some strict ancestor of `x` (the root included) takes an
uninstall decision, which marks the whole subtree below it `SKIP` before `x`
is reached. -/
def blockedB (fs : DestFS) (x : RelPath) : Bool :=
  (parentsOf x).any (fun a => (ownUnActB fs a).isSome)

/-- The final action of a non-root plan entry after `plan_uninstall`. -/
def unFinalActB (fs : DestFS) (tree : List FSObj) (x : RelPath) : Action :=
  if isDirAtB tree x then
    if blockedB fs x then .SKIP else (ownUnActB fs x).getD .NONE
  else
    if blockedB fs x.dropLast then .SKIP
    else if fs.isSymlink (destOfPath x) then .UNLINK
    else if (ownUnActB fs x.dropLast).isSome then .SKIP
    else .NONE

/-! ## Well-formedness

A real directory listing has distinct entry names, and a real file name is
never empty, `"."` or `".."`; the destination file system can only contain a
path when it contains its parent (`Path.exists` follows symlinks, so a
resolvable `p ++ [c]` forces a resolvable `p`). -/

/-- A possible name of a file-system object. -/
def wfName (s : String) : Bool := s != "" && s != "." && s != ".."

/-- Distinct sibling names. -/
def nodupNames (objs : List FSObj) : Bool := decide (objs.map objName).Nodup

mutual

/-- Well-formed object: valid name; a directory's listing is well-formed. -/
def wfObj : FSObj → Bool
  | .file n => wfName n
  | .dir n cs => wfName n && nodupNames cs && wfObjList cs

/-- Well-formed listing: every object well-formed. -/
def wfObjList : List FSObj → Bool
  | [] => true
  | o :: rest => wfObj o && wfObjList rest

end

/-- Well-formed directory listing. -/
def wfForest (objs : List FSObj) : Bool := nodupNames objs && wfObjList objs

/-- Well-formed source package tree. -/
def wfTree (tree : List FSObj) : Bool := wfForest tree

/-- The parent-closure a real destination file system satisfies. -/
def DestFS.WFexists (fs : DestFS) : Prop :=
  ∀ p c, fs.existsAt (p ++ [c]) = true → fs.existsAt p = true

/-! ## Auxiliary notions for the walk characterisations -/

/-- Strip a prefix: `stripPre r x = some s` iff `x = r ++ s`. -/
def stripPre : RelPath → RelPath → Option RelPath
  | [], x => some x
  | _ :: _, [] => none
  | a :: as_, b :: bs => if a = b then stripPre as_ bs else none

/-- The keys strictly below `rel` that the path walk of a forest adds. -/
def underB (ignore : RelPath → Bool) (children : List FSObj) (rel : RelPath)
    (x : RelPath) : Bool :=
  match stripPre rel x with
  | some (n :: s) => inPlanGo ignore children rel (n :: s)
  | _ => false

mutual

/-- `x` lies strictly below `base`. -/
def strictUnderB (base x : RelPath) : Bool :=
  match stripPre base x with
  | some (_ :: _) => true
  | _ => false

/-- `x` equals `base` or lies below it. -/
def atUnderB (base x : RelPath) : Bool := (stripPre base x).isSome

/-- The immediate-child keys the path walk adds at a directory. -/
def childKeyB (ignore : RelPath → Bool) (children : List FSObj) (rel : RelPath)
    (x : RelPath) : Bool :=
  children.any (fun c => !ignore (rel ++ [objName c]) && x == rel ++ [objName c])

/-- The keys added below the non-ignored subdirectories of a directory. -/
def underListB (ignore : RelPath → Bool) (objs : List FSObj) (rel : RelPath)
    (x : RelPath) : Bool :=
  objs.any (fun o => objIsDir o && !ignore (rel ++ [objName o]) &&
    underB ignore (objChildren o) (rel ++ [objName o]) x)

/-- The keys `mark_all_descendents` reaches from one `iterdir` child. -/
def keyInObjTree : FSObj → RelPath → RelPath → Bool
  | .file _, rel, x => x == rel
  | .dir _ children, rel, x => x == rel || keyInListTree children rel x

/-- The keys `mark_all_descendents` reaches from a children list. -/
def keyInListTree : List FSObj → RelPath → RelPath → Bool
  | [], _, _ => false
  | o :: rest, rel, x =>
    keyInObjTree o (pathChild rel (objName o)) x || keyInListTree rest rel x

end

/-- The key set of the plan built by `plan_install_paths` (root included). -/
def planDom (ignore : RelPath → Bool) (tree : List FSObj) (x : RelPath) : Bool :=
  x.isEmpty || inPlanB ignore tree x

/-- A plan is `Shaped dom A` when its entries are exactly the `baseNode`s of
the keys in `dom`, with actions given by `A`.  Every phase of the planners
preserves this shape, changing only `A`. -/
def Shaped (tree : List FSObj) (dom : RelPath → Bool) (A : RelPath → Action)
    (p : Plan) : Prop :=
  ∀ x, p.find? x = if dom x then some (baseNode tree x (A x)) else none

/-- The action recorded for a path, if any. -/
def planActionAt (plan : Plan) (x : RelPath) : Option Action :=
  (plan.find? x).map (fun n => n.action)

/-- The per-node effect of the conflict check of the first pass. -/
def failNodeUpd (fs : DestFS) (n : PlanNode) : PlanNode :=
  if fs.existsAt n.relative_destination_path &&
      fs.isFile n.relative_destination_path then { n with action := .FAIL }
  else n

/-- The per-node effect of a guarded overwrite (`mark_immediate_children`,
`mark_all_descendents`). -/
def markNodeUpd (mark : Action) (allow : List Action) (n : PlanNode) : PlanNode :=
  if n.action ∈ allow then { n with action := mark } else n

/-- The per-node effect of the uninstall file-children loop. -/
def unlinkNodeUpd (fs : DestFS) (n : PlanNode) : PlanNode :=
  if fs.isSymlink n.relative_destination_path then { n with action := .UNLINK }
  else n

/-! ## Concrete instances used by the claim theorems -/

/-- No ignore patterns. -/
def noIgnore : RelPath → Bool := fun _ => false

/-- No always-create patterns. -/
def noMatcher : Matcher := ⟨fun _ => false, []⟩

/-- An empty destination: only the destination root itself exists. -/
def emptyDest : DestFS := ⟨fun p => p.isEmpty, fun _ => false, fun _ => false⟩

/-- A package with a rename two levels deep: `a/b/dot-x`. -/
def exTreeDeep : List FSObj := [.dir "a" [.dir "b" [.file "dot-x"]]]

/-- A package with a rename two levels deep and one three levels deep under
renamed directories: `a/b/dot-x` and `dot-c/dot-d/dot-y`. -/
def exTreeTwo : List FSObj :=
  [.dir "a" [.dir "b" [.file "dot-x"]],
   .dir "dot-c" [.dir "dot-d" [.file "dot-y"]]]

/-- A package containing `a/dot-`, whose destination name collapses. -/
def exTreeDotDash : List FSObj := [.dir "a" [.file "dot-"]]

/-- A package with one directory `d` holding a renamed file. -/
def exTreeD : List FSObj := [.dir "d" [.file "dot-x"]]

/-- A destination where `d` exists (and, per `isFileD`, may be a file). -/
def destWithD (isFileD : Bool) : DestFS :=
  ⟨fun p => p.isEmpty || p == ["d"], fun p => isFileD && p == ["d"], fun _ => false⟩

/-- A matcher whose single always-create pattern is the depth-1 literal `d`. -/
def acMatcherD : Matcher := ⟨fun p => p == ["d"], [⟨["d"], fun p => p == ["d"]⟩]⟩

/-- Scenario 6 package: `dot-config/app.conf`. -/
def exTreeConfig : List FSObj := [.dir "dot-config" [.file "app.conf"]]

/-- A matcher loaded with the single depth-1 pattern `/.config` (matching
`.config` and, as gitignore patterns do, everything below it). -/
def acMatcherConfig : Matcher :=
  ⟨fun p => p.head? == some ".config", [⟨[".config"], fun p => p == [".config"]⟩]⟩

/-- A destination where `d` is a dangling symlink: `is_symlink` holds but
`exists` (which follows the link) does not. -/
def brokenLinkDest : DestFS :=
  ⟨fun p => p.isEmpty, fun _ => false, fun p => p == ["d"]⟩

/-- A destination where `d` is a live symlink to a directory that itself
contains a symlink named `f`. -/
def liveLinkDest : DestFS :=
  ⟨fun p => p.isEmpty || p == ["d"] || p == ["d", "f"], fun _ => false,
   fun p => p == ["d"] || p == ["d", "f"]⟩

/-- Uninstall package: `d` with a file `f` and a subdirectory `sub/g`. -/
def exTreeUn : List FSObj := [.dir "d" [.file "f", .dir "sub" [.file "g"]]]

/-- A destination blocked by a regular file `SIMPLE-FILE`. -/
def conflictDest : DestFS :=
  ⟨fun p => p.isEmpty || p == ["SIMPLE-FILE"], fun p => p == ["SIMPLE-FILE"],
   fun _ => false⟩

/-- A one-file package whose installation conflicts under `conflictDest`. -/
def exTreeSimple : List FSObj := [.file "SIMPLE-FILE"]

end Dotx

/-! # Theorems -/

namespace Dotx

namespace Plan

@[simp] theorem find?_nil (key : RelPath) : find? [] key = none := rfl

theorem find?_insert_same (plan : Plan) (key : RelPath) (v : PlanNode) :
    (plan.insert key v).find? key = some v := by
  induction plan with
  | nil => simp [insert, find?]
  | cons e rest ih =>
    rcases e with ⟨k, w⟩
    by_cases h : k = key
    · simp [insert, h, find?]
    · simp [insert, h, find?, ih]

theorem find?_insert_other (plan : Plan) (key key' : RelPath) (v : PlanNode)
    (h : key' ≠ key) : (plan.insert key v).find? key' = plan.find? key' := by
  have h' : key ≠ key' := Ne.symm h
  induction plan with
  | nil => simp [insert, find?, h']
  | cons e rest ih =>
    rcases e with ⟨k, w⟩
    by_cases hk : k = key
    · subst hk
      simp [insert, find?, h']
    · by_cases hk' : k = key'
      · simp [insert, hk, find?, hk', h]
      · simp [insert, hk, find?, hk', ih]

theorem find?_setAction_same (plan : Plan) (key : RelPath) (a : Action) :
    (plan.setAction key a).find? key =
      (plan.find? key).map (fun n => { n with action := a }) := by
  induction plan with
  | nil => simp [setAction, find?]
  | cons e rest ih =>
    rcases e with ⟨k, w⟩
    by_cases h : k = key
    · simp [setAction, h, find?]
    · simp [setAction, h, find?, ih]

theorem find?_setAction_other (plan : Plan) (key key' : RelPath) (a : Action)
    (h : key' ≠ key) : (plan.setAction key a).find? key' = plan.find? key' := by
  induction plan with
  | nil => simp [setAction, find?]
  | cons e rest ih =>
    rcases e with ⟨k, w⟩
    by_cases hk : k = key
    · subst hk
      simp [setAction, find?, Ne.symm h, ih]
    · by_cases hk' : k = key'
      · simp [setAction, hk, find?, hk', h]
      · simp [setAction, hk, find?, hk', ih]

theorem find?_eraseKey_self (plan : Plan) (key : RelPath) :
    (plan.eraseKey key).find? key = none := by
  induction plan with
  | nil => simp [eraseKey, find?]
  | cons e rest ih =>
    rcases e with ⟨k, w⟩
    by_cases h : k = key
    · simp [eraseKey, h, ih]
    · simp [eraseKey, h, find?, ih]

theorem find?_eraseKey_other (plan : Plan) (key key' : RelPath)
    (h : key' ≠ key) : (plan.eraseKey key).find? key' = plan.find? key' := by
  induction plan with
  | nil => simp [eraseKey, find?]
  | cons e rest ih =>
    rcases e with ⟨k, w⟩
    by_cases hk : k = key
    · subst hk
      simp [eraseKey, find?, Ne.symm h, ih]
    · by_cases hk' : k = key'
      · simp [eraseKey, hk, find?, hk', h]
      · simp [eraseKey, hk, find?, hk', ih]


end Plan

/-! ## Path and name lemmas -/

theorem wfName_ne_dot {s : String} (h : wfName s = true) : s ≠ "." := by
  simp only [wfName, Bool.and_eq_true, bne_iff_ne, ne_eq] at h
  exact h.1.2

theorem wfName_ne_empty {s : String} (h : wfName s = true) : s ≠ "" := by
  simp only [wfName, Bool.and_eq_true, bne_iff_ne, ne_eq] at h
  exact h.1.1

theorem pathChild_of_wf (parent : RelPath) {n : String} (h : wfName n = true) :
    pathChild parent n = parent ++ [n] := by
  simp [pathChild, wfName_ne_dot h, wfName_ne_empty h]

theorem destOfPath_concat (xs : RelPath) (n : String) :
    destOfPath (xs ++ [n]) = pathChild (destOfPath xs) (destName n) := by
  simp [destOfPath, List.foldl_append]

theorem lastName_concat (xs : RelPath) (n : String) :
    lastName (xs ++ [n]) = n := by
  simp [lastName]

theorem stripPre_append (r s : RelPath) : stripPre r (r ++ s) = some s := by
  induction r with
  | nil => simp [stripPre]
  | cons a as_ ih => simp [stripPre, ih]

theorem stripPre_eq_some {r x s : RelPath} (h : stripPre r x = some s) :
    x = r ++ s := by
  induction r generalizing x with
  | nil => simpa [stripPre] using congrArg (fun o => o.getD []) h
  | cons a as_ ih =>
    match x with
    | [] => simp [stripPre] at h
    | b :: bs =>
      by_cases hab : a = b
      · subst hab
        simp only [stripPre, if_pos rfl] at h
        simpa using ih h
      · simp [stripPre, hab] at h

theorem mem_parentsOf {p q : RelPath} :
    q ∈ parentsOf p ↔ ∃ k, k < p.length ∧ q = p.take k := by
  constructor
  · intro h
    rcases List.mem_map.mp h with ⟨i, hi, rfl⟩
    rcases List.mem_range.mp hi with hilt
    exact ⟨p.length - 1 - i, by omega, rfl⟩
  · rintro ⟨k, hk, rfl⟩
    refine List.mem_map.mpr ⟨p.length - 1 - k, List.mem_range.mpr (by omega), ?_⟩
    congr 1
    omega

theorem parentsOf_strict {p q : RelPath} (h : q ∈ parentsOf p) :
    ∃ s, s ≠ [] ∧ p = q ++ s := by
  rcases mem_parentsOf.mp h with ⟨k, hk, rfl⟩
  refine ⟨p.drop k, ?_, (List.take_append_drop k p).symm⟩
  intro hd
  have := List.drop_eq_nil_iff.mp hd
  omega

theorem concat_mem_parentsOf {q : RelPath} {n : String} {s : RelPath} :
    q ∈ parentsOf (q ++ n :: s) := by
  refine mem_parentsOf.mpr ⟨q.length, ?_, ?_⟩
  · simp
  · simp [List.take_append]


/-! ## Characterisation of the marking folds -/

theorem find?_setAction_rename (plan : Plan) (key cp : RelPath) (a : Action) :
    ((plan.setAction key a).find? cp).map (fun n => n.requires_rename) =
      (plan.find? cp).map (fun n => n.requires_rename) := by
  by_cases h : cp = key
  · subst h
    rw [Plan.find?_setAction_same]
    cases plan.find? cp <;> simp
  · rw [Plan.find?_setAction_other _ _ _ _ h]

theorem markAllAncestorsGo_find?_other (mark stop : Action) (ps : List RelPath)
    (plan : Plan) (x : RelPath) (h : x ∉ ps) :
    (markAllAncestorsGo mark stop ps plan).find? x = plan.find? x := by
  induction ps generalizing plan with
  | nil => rfl
  | cons p rest ih =>
    have hx1 : x ≠ p := fun hh => h (by simp [hh])
    have hx2 : x ∉ rest := fun hh => h (by simp [hh])
    cases hf : plan.find? p with
    | none => simp only [markAllAncestorsGo, hf]; exact ih _ hx2
    | some node =>
      by_cases hs : node.action = stop
      · simp [markAllAncestorsGo, hf, hs]
      · simp only [markAllAncestorsGo, hf, if_neg hs]
        rw [ih _ hx2, Plan.find?_setAction_other _ _ _ _ hx1]

theorem mark_all_ancestors_find?_other (child : RelPath) (mark stop : Action)
    (plan : Plan) (x : RelPath) (h : ∀ s, s ≠ [] → child ≠ x ++ s) :
    (mark_all_ancestors child mark stop plan).find? x = plan.find? x := by
  apply markAllAncestorsGo_find?_other
  intro hmem
  rcases parentsOf_strict hmem with ⟨s, hs, hcs⟩
  exact h s hs hcs

theorem markImmediateChildren_find? (cps : List RelPath) (mark : Action)
    (allow : List Action) (plan : Plan) (x : RelPath) (hnd : cps.Nodup) :
    (markImmediateChildren cps mark allow plan).find? x =
      if x ∈ cps then (plan.find? x).map (markNodeUpd mark allow)
      else plan.find? x := by
  induction cps generalizing plan with
  | nil => simp [markImmediateChildren]
  | cons cp rest ih =>
    have hnd' : rest.Nodup := hnd.of_cons
    have hcp : cp ∉ rest := (List.nodup_cons.mp hnd).1
    have hstep : ∀ y, (markChildStep mark allow plan cp).find? y =
        if y = cp then (plan.find? y).map (markNodeUpd mark allow)
        else plan.find? y := by
      intro y
      unfold markChildStep
      cases hf : plan.find? cp with
      | none =>
        by_cases hy : y = cp
        · subst hy; simp [hf]
        · simp [hy]
      | some node =>
        by_cases hy : y = cp
        · subst hy
          by_cases ha : node.action ∈ allow
          · simp [ha, Plan.find?_setAction_same, hf, markNodeUpd]
          · simp [ha, hf, markNodeUpd]
        · by_cases ha : node.action ∈ allow
          · simp [ha, hy, Plan.find?_setAction_other _ _ _ _ hy]
          · simp [ha, hy]
    have : markImmediateChildren (cp :: rest) mark allow plan =
        markImmediateChildren rest mark allow (markChildStep mark allow plan cp) := rfl
    rw [this, ih _ hnd']
    by_cases hx : x ∈ rest
    · have hxcp : x ≠ cp := fun hh => hcp (hh ▸ hx)
      simp [hx, hstep, hxcp, List.mem_cons]
    · by_cases hxc : x = cp
      · subst hxc
        simp [hx, hstep, List.mem_cons]
      · simp [hx, hxc, hstep, List.mem_cons]

theorem uninstallFilePass_find? (fs : DestFS) (cps : List RelPath)
    (plan : Plan) (x : RelPath) (hnd : cps.Nodup) :
    (uninstallFilePass fs cps plan).find? x =
      if x ∈ cps then (plan.find? x).map (unlinkNodeUpd fs)
      else plan.find? x := by
  induction cps generalizing plan with
  | nil => simp [uninstallFilePass]
  | cons cp rest ih =>
    have hnd' : rest.Nodup := hnd.of_cons
    have hcp : cp ∉ rest := (List.nodup_cons.mp hnd).1
    have hstep : ∀ y, (uninstallFileStep fs plan cp).find? y =
        if y = cp then (plan.find? y).map (unlinkNodeUpd fs)
        else plan.find? y := by
      intro y
      unfold uninstallFileStep
      cases hf : plan.find? cp with
      | none =>
        by_cases hy : y = cp
        · subst hy; simp [hf]
        · simp [hy]
      | some node =>
        by_cases hy : y = cp
        · subst hy
          by_cases hl : fs.isSymlink node.relative_destination_path
          · simp [hl, Plan.find?_setAction_same, hf, unlinkNodeUpd]
          · simp [hl, hf, unlinkNodeUpd]
        · by_cases hl : fs.isSymlink node.relative_destination_path
          · simp [hl, hy, Plan.find?_setAction_other _ _ _ _ hy]
          · simp [hl, hy]
    have : uninstallFilePass fs (cp :: rest) plan =
        uninstallFilePass fs rest (uninstallFileStep fs plan cp) := rfl
    rw [this, ih _ hnd']
    by_cases hx : x ∈ rest
    · have hxcp : x ≠ cp := fun hh => hcp (hh ▸ hx)
      simp [hx, hstep, hxcp, List.mem_cons]
    · by_cases hxc : x = cp
      · subst hxc
        simp [hx, hstep, List.mem_cons]
      · simp [hx, hxc, hstep, List.mem_cons]

theorem firstPass_aux_find? (fs : DestFS) (cps : List RelPath) (plan : Plan)
    (b : Bool) (x : RelPath) (hnd : cps.Nodup) :
    (List.foldl (firstPassStep fs) (plan, b) cps).1.find? x =
      if x ∈ cps then (plan.find? x).map (failNodeUpd fs)
      else plan.find? x := by
  induction cps generalizing plan b with
  | nil => simp
  | cons cp rest ih =>
    have hnd' : rest.Nodup := hnd.of_cons
    have hcp : cp ∉ rest := (List.nodup_cons.mp hnd).1
    have hstep : ∀ y, (firstPassStep fs (plan, b) cp).1.find? y =
        if y = cp then (plan.find? y).map (failNodeUpd fs)
        else plan.find? y := by
      intro y
      unfold firstPassStep
      cases hf : plan.find? cp with
      | none =>
        by_cases hy : y = cp
        · subst hy; simp [hf]
        · simp [hy]
      | some node =>
        by_cases hy : y = cp
        · subst hy
          by_cases he : fs.existsAt node.relative_destination_path &&
              fs.isFile node.relative_destination_path
          · simp [he, Plan.find?_setAction_same, hf, failNodeUpd]
          · simp [he, hf, failNodeUpd]
        · by_cases he : fs.existsAt node.relative_destination_path &&
              fs.isFile node.relative_destination_path
          · simp [he, hy, Plan.find?_setAction_other _ _ _ _ hy]
          · simp [he, hy]
    have hsnd : ∀ (st : Plan × Bool), List.foldl (firstPassStep fs) st (cp :: rest) =
        List.foldl (firstPassStep fs) (firstPassStep fs st cp) rest := by
      intro st; rfl
    rw [hsnd, show firstPassStep fs (plan, b) cp =
      ((firstPassStep fs (plan, b) cp).1, (firstPassStep fs (plan, b) cp).2) from rfl,
      ih _ _ hnd']
    by_cases hx : x ∈ rest
    · have hxcp : x ≠ cp := fun hh => hcp (hh ▸ hx)
      simp [hx, hstep, hxcp, List.mem_cons]
    · by_cases hxc : x = cp
      · subst hxc
        simp [hx, hstep, List.mem_cons]
      · simp [hx, hxc, hstep, List.mem_cons]

theorem firstPass_aux_flag (fs : DestFS) (cps : List RelPath) (plan : Plan)
    (b : Bool) :
    (List.foldl (firstPassStep fs) (plan, b) cps).2 =
      (b || cps.any (fun cp =>
        ((plan.find? cp).map (fun n => n.requires_rename)).getD false)) := by
  induction cps generalizing plan b with
  | nil => simp
  | cons cp rest ih =>
    have hstep1 : ((firstPassStep fs (plan, b) cp).1.find? ·) =
        fun y => (if y = cp then (plan.find? y).map (failNodeUpd fs)
          else plan.find? y) := by
      funext y
      unfold firstPassStep
      cases hf : plan.find? cp with
      | none =>
        by_cases hy : y = cp
        · subst hy; simp [hf]
        · simp [hy]
      | some node =>
        by_cases hy : y = cp
        · subst hy
          by_cases he : fs.existsAt node.relative_destination_path &&
              fs.isFile node.relative_destination_path
          · simp [he, Plan.find?_setAction_same, hf, failNodeUpd]
          · simp [he, hf, failNodeUpd]
        · by_cases he : fs.existsAt node.relative_destination_path &&
              fs.isFile node.relative_destination_path
          · simp [he, hy, Plan.find?_setAction_other _ _ _ _ hy]
          · simp [he, hy]
    have hstep2 : (firstPassStep fs (plan, b) cp).2 =
        (b || ((plan.find? cp).map (fun n => n.requires_rename)).getD false) := by
      unfold firstPassStep
      cases hf : plan.find? cp with
      | none => simp [hf]
      | some node =>
        by_cases he : fs.existsAt node.relative_destination_path &&
            fs.isFile node.relative_destination_path
        · simp [hf, he]
        · simp [hf, he]
    have hfold : List.foldl (firstPassStep fs) (plan, b) (cp :: rest) =
        List.foldl (firstPassStep fs)
          ((firstPassStep fs (plan, b) cp).1, (firstPassStep fs (plan, b) cp).2)
          rest := rfl
    rw [hfold, ih, hstep2]
    have hfun : (fun c : RelPath =>
        (((firstPassStep fs (plan, b) cp).1.find? c).map
          (fun n => n.requires_rename)).getD false) =
        (fun c : RelPath =>
          ((plan.find? c).map (fun n => n.requires_rename)).getD false) := by
      funext c
      rw [congrFun hstep1 c]
      by_cases hc : c = cp
      · subst hc
        simp only [if_pos rfl]
        cases plan.find? c with
        | none => simp
        | some node =>
          by_cases he : fs.existsAt node.relative_destination_path &&
              fs.isFile node.relative_destination_path
          · simp [failNodeUpd, he]
          · simp [failNodeUpd, he]
      · simp [hc]
    rw [hfun]
    simp [Bool.or_assoc]


theorem markNodeUpd_idem {mark : Action} {allow : List Action}
    (hma : mark ∉ allow) (n : PlanNode) :
    markNodeUpd mark allow (markNodeUpd mark allow n) =
      markNodeUpd mark allow n := by
  unfold markNodeUpd
  by_cases ha : n.action ∈ allow
  · simp [ha, hma]
  · simp [ha]

theorem map_markNodeUpd_idem {mark : Action} {allow : List Action}
    (hma : mark ∉ allow) (v : Option PlanNode) :
    (v.map (markNodeUpd mark allow)).map (markNodeUpd mark allow) =
      v.map (markNodeUpd mark allow) := by
  cases v with
  | none => rfl
  | some n => simp [markNodeUpd_idem hma]

theorem condSet_find? (mark : Action) (allow : List Action) (rel : RelPath)
    (plan : Plan) (y : RelPath) :
    (match plan.find? rel with
      | some node =>
        if node.action ∈ allow then plan.setAction rel mark else plan
      | none => plan).find? y =
      if y = rel then (plan.find? y).map (markNodeUpd mark allow)
      else plan.find? y := by
  cases hf : plan.find? rel with
  | none =>
    by_cases hy : y = rel
    · subst hy; simp [hf]
    · simp [hy]
  | some node =>
    by_cases hy : y = rel
    · subst hy
      by_cases ha : node.action ∈ allow
      · simp [ha, Plan.find?_setAction_same, hf, markNodeUpd]
      · simp [ha, hf, markNodeUpd]
    · by_cases ha : node.action ∈ allow
      · simp [ha, hy, Plan.find?_setAction_other _ _ _ _ hy]
      · simp [ha, hy]

mutual

theorem markAllDescObj_find? (mark : Action) (allow : List Action)
    (hma : mark ∉ allow) (o : FSObj) (rel : RelPath) (plan : Plan)
    (x : RelPath) :
    (markAllDescObj mark allow o rel plan).find? x =
      if keyInObjTree o rel x then (plan.find? x).map (markNodeUpd mark allow)
      else plan.find? x := by
  cases o with
  | file nm =>
    have h := condSet_find? mark allow rel plan x
    simp only [markAllDescObj]
    rw [h]
    by_cases hx : x = rel
    · simp [keyInObjTree, hx]
    · simp [keyInObjTree, hx]
  | dir nm children =>
    have h1 := condSet_find? mark allow rel plan x
    have h2 := markAllDescList_find? mark allow hma children rel
      (match plan.find? rel with
        | some node =>
          if node.action ∈ allow then plan.setAction rel mark else plan
        | none => plan) x
    simp only [markAllDescObj]
    rw [h2, h1]
    by_cases hk : keyInListTree children rel x = true
    · by_cases hx : x = rel
      · subst hx
        simp [keyInObjTree, hk, map_markNodeUpd_idem hma]
      · simp [keyInObjTree, hk, hx]
    · by_cases hx : x = rel
      · subst hx
        simp [keyInObjTree, hk]
      · simp [keyInObjTree, hk, hx]

theorem markAllDescList_find? (mark : Action) (allow : List Action)
    (hma : mark ∉ allow) (objs : List FSObj) (rel : RelPath) (plan : Plan)
    (x : RelPath) :
    (markAllDescList mark allow objs rel plan).find? x =
      if keyInListTree objs rel x then (plan.find? x).map (markNodeUpd mark allow)
      else plan.find? x := by
  cases objs with
  | nil => simp [markAllDescList, keyInListTree]
  | cons o rest =>
    have h1 := markAllDescObj_find? mark allow hma o (pathChild rel (objName o))
      plan x
    have h2 := markAllDescList_find? mark allow hma rest rel
      (markAllDescObj mark allow o (pathChild rel (objName o)) plan) x
    simp only [markAllDescList]
    rw [h2, h1]
    by_cases hk1 : keyInObjTree o (pathChild rel (objName o)) x = true
    · by_cases hk2 : keyInListTree rest rel x = true
      · simp [keyInListTree, hk1, hk2, map_markNodeUpd_idem hma]
      · simp [keyInListTree, hk1, hk2]
    · by_cases hk2 : keyInListTree rest rel x = true
      · simp [keyInListTree, hk1, hk2]
      · simp [keyInListTree, hk1, hk2]

end

/-! ## Tree lookup and well-formedness lemmas -/

theorem wfObjList_mem {objs : List FSObj} {o : FSObj}
    (h : wfObjList objs = true) (hm : o ∈ objs) : wfObj o = true := by
  induction objs with
  | nil => cases hm
  | cons p rest ih =>
    have h' : wfObj p = true ∧ wfObjList rest = true := by
      simpa [wfObjList, Bool.and_eq_true] using h
    rcases List.mem_cons.mp hm with rfl | hmem
    · exact h'.1
    · exact ih h'.2 hmem

theorem wfForest_names {objs : List FSObj} (h : wfForest objs = true) :
    (objs.map objName).Nodup := by
  have h' := h
  simp only [wfForest, nodupNames, Bool.and_eq_true, decide_eq_true_eq] at h'
  exact h'.1

theorem wfForest_list {objs : List FSObj} (h : wfForest objs = true) :
    wfObjList objs = true := by
  have h' := h
  simp only [wfForest, Bool.and_eq_true] at h'
  exact h'.2

theorem wfObj_dir {nm : String} {cs : List FSObj}
    (h : wfObj (.dir nm cs) = true) : wfName nm = true ∧ wfForest cs = true := by
  have h' := h
  simp only [wfObj, Bool.and_eq_true] at h'
  exact ⟨h'.1.1, by simp [wfForest, Bool.and_eq_true, h'.1.2, h'.2]⟩

theorem wfObj_name {o : FSObj} (h : wfObj o = true) :
    wfName (objName o) = true := by
  cases o with
  | file n => simpa [wfObj, objName] using h
  | dir n cs => exact (by
      simp only [wfObj, Bool.and_eq_true] at h
      simpa [objName] using h.1.1)

theorem find?_name_of_mem {objs : List FSObj} {c : FSObj}
    (hnd : (objs.map objName).Nodup) (hc : c ∈ objs) :
    List.find? (fun o => objName o == objName c) objs = some c := by
  induction objs with
  | nil => cases hc
  | cons o rest ih =>
    have hnd' : (rest.map objName).Nodup := by
      simpa using hnd.of_cons
    rcases List.mem_cons.mp hc with rfl | hmem
    · exact List.find?_cons_of_pos _ (by simp)
    · have hx : (∀ x ∈ rest, ¬objName x = objName o) ∧
          (rest.map objName).Nodup := by simpa using hnd
      have hne : (objName o == objName c) = false := by
        apply beq_eq_false_iff_ne.mpr
        intro hh
        exact hx.1 c hmem hh.symm
      rw [List.find?_cons_of_neg _ (by simp [hne]), ih hnd' hmem]

theorem objAt?_append {tree : List FSObj} {rel : RelPath} {nm : String}
    {children : List FSObj} (s : RelPath) (hs : s ≠ [])
    (h : objAt? tree rel = some (.dir nm children)) :
    objAt? tree (rel ++ s) = objAt? children s := by
  induction rel generalizing tree with
  | nil =>
    have h' : FSObj.dir "" tree = FSObj.dir nm children := by
      simpa [objAt?] using h
    have htc : tree = children := by injection h'
    subst htc
    simp
  | cons r rt ih =>
    match s, hs with
    | q :: qs, _ =>
    cases hf : List.find? (fun o => objName o == r) tree with
    | none => simp [objAt?, hf] at h
    | some o =>
      cases o with
      | file fn =>
        by_cases hrt : rt.isEmpty
        · simp [objAt?, hf, hrt] at h
        · simp [objAt?, hf, hrt] at h
      | dir dn cs =>
        by_cases hrt : rt = []
        · subst hrt
          have : FSObj.dir dn cs = FSObj.dir nm children := by
            simpa [objAt?, hf] using h
          have hcs : cs = children := by
            injection this with h1 h2
          subst hcs
          simp [objAt?, hf]
        · have hne : (rt.isEmpty) = false := by
            simpa using hrt
          have h' : objAt? cs rt = some (.dir nm children) := by
            simpa [objAt?, hf, hne] using h
          have hcons : (r :: rt) ++ q :: qs = r :: (rt ++ q :: qs) := rfl
          rw [hcons]
          have hrtne : (rt ++ q :: qs).isEmpty = false := by
            simp
          simp only [objAt?, hf, hrtne]
          exact ih h'

theorem wfForest_objAt? {tree : List FSObj} {x : RelPath} {nm : String}
    {cs : List FSObj} (hwf : wfForest tree = true)
    (h : objAt? tree x = some (.dir nm cs)) : wfForest cs = true := by
  induction x generalizing tree with
  | nil =>
    have h' : FSObj.dir "" tree = FSObj.dir nm cs := by
      simpa [objAt?] using h
    have htc : tree = cs := by injection h'
    subst htc
    exact hwf
  | cons r rt ih =>
    cases hf : List.find? (fun o => objName o == r) tree with
    | none => simp [objAt?, hf] at h
    | some o =>
      have hmem : o ∈ tree := List.mem_of_find?_eq_some hf
      have hwo : wfObj o = true := wfObjList_mem (wfForest_list hwf) hmem
      cases o with
      | file fn =>
        by_cases hrt : rt.isEmpty
        · simp [objAt?, hf, hrt] at h
        · simp [objAt?, hf, hrt] at h
      | dir dn cs' =>
        have hwf' : wfForest cs' = true := (wfObj_dir hwo).2
        by_cases hrt : rt = []
        · subst hrt
          have : FSObj.dir dn cs' = FSObj.dir nm cs := by
            simpa [objAt?, hf] using h
          have hcs : cs' = cs := by injection this with h1 h2
          subst hcs
          exact hwf'
        · have hne : (rt.isEmpty) = false := by simpa using hrt
          have h' : objAt? cs' rt = some (.dir nm cs) := by
            simpa [objAt?, hf, hne] using h
          exact ih hwf' h'


/-! ## The path planner walk -/

theorem stripPre_append_left (r t u : RelPath) :
    stripPre (r ++ t) (r ++ u) = stripPre t u := by
  induction r with
  | nil => rfl
  | cons a as_ ih => simpa [stripPre] using ih

theorem objAt?_child {tree : List FSObj} {rel : RelPath} {nm : String}
    {cs : List FSObj} {c : FSObj} (hobj : objAt? tree rel = some (.dir nm cs))
    (hnd : (cs.map objName).Nodup) (hc : c ∈ cs) :
    objAt? tree (rel ++ [objName c]) = some c := by
  rw [objAt?_append [objName c] (by simp) hobj]
  cases c with
  | file n => simp [objAt?, find?_name_of_mem hnd hc]
  | dir n cs' => simp [objAt?, find?_name_of_mem hnd hc]

theorem requiresRename_empty : requiresRenameName "" = false := by decide

theorem rootNode_eq (tree : List FSObj) :
    rootNode = baseNode tree [] .EXISTS := by
  simp [rootNode, baseNode, lastName, requiresRename_empty, destOfPath,
    isDirAtB, objAt?, objIsDir]

theorem mkChildNode_eq {tree : List FSObj} {rel : RelPath} {nm : String}
    {cs : List FSObj} {c : FSObj} (hobj : objAt? tree rel = some (.dir nm cs))
    (hnd : (cs.map objName).Nodup) (hc : c ∈ cs)
    (hwfn : wfName (objName c) = true) :
    mkChildNode rel (destOfPath rel) (objName c) (objIsDir c) =
      baseNode tree (rel ++ [objName c]) .NONE := by
  have hat := objAt?_child hobj hnd hc
  simp [mkChildNode, baseNode, lastName_concat, pathChild_of_wf _ hwfn,
    destOfPath_concat, isDirAtB, hat]

theorem addChildEntries_fold_find? (ignore : RelPath → Bool)
    (rel destRel : RelPath) (L : List FSObj) (plan : Plan) (x : RelPath)
    (hkeys : (L.map (fun c => pathChild rel (objName c))).Nodup) :
    ((L.foldl
      (fun pl c =>
        if ignore (pathChild rel (objName c)) then pl
        else pl.insert (pathChild rel (objName c))
          (mkChildNode rel destRel (objName c) (objIsDir c)))
      plan)).find? x =
      match L.find? (fun c => pathChild rel (objName c) == x) with
      | some c =>
        if ignore (pathChild rel (objName c)) then plan.find? x
        else some (mkChildNode rel destRel (objName c) (objIsDir c))
      | none => plan.find? x := by
  induction L generalizing plan with
  | nil => simp
  | cons c rest ih =>
    have hx12 : (∀ y ∈ rest,
        ¬pathChild rel (objName y) = pathChild rel (objName c)) ∧
        (rest.map (fun c => pathChild rel (objName c))).Nodup := by
      simpa using hkeys
    have hnd' : (rest.map (fun c => pathChild rel (objName c))).Nodup := hx12.2
    have hnotin : pathChild rel (objName c) ∉
        rest.map (fun c' => pathChild rel (objName c')) := by
      intro hmem
      rcases List.mem_map.mp hmem with ⟨y, hy, hyeq⟩
      exact hx12.1 y hy hyeq
    have hstep : ∀ (pl : Plan),
        ((if ignore (pathChild rel (objName c)) then pl
          else pl.insert (pathChild rel (objName c))
            (mkChildNode rel destRel (objName c) (objIsDir c))).find? x) =
        (if pathChild rel (objName c) = x ∧ ¬ignore (pathChild rel (objName c))
          then some (mkChildNode rel destRel (objName c) (objIsDir c))
          else pl.find? x) := by
      intro pl
      by_cases hig : ignore (pathChild rel (objName c))
      · simp [hig]
      · by_cases hx : pathChild rel (objName c) = x
        · subst hx
          simp [hig, Plan.find?_insert_same]
        · simp [hig, hx, Plan.find?_insert_other _ _ _ _ (fun hh => hx hh.symm)]
    have hfold : (List.foldl
        (fun pl c =>
          if ignore (pathChild rel (objName c)) then pl
          else pl.insert (pathChild rel (objName c))
            (mkChildNode rel destRel (objName c) (objIsDir c)))
        plan (c :: rest)) = (List.foldl _
          (if ignore (pathChild rel (objName c)) then plan
            else plan.insert (pathChild rel (objName c))
              (mkChildNode rel destRel (objName c) (objIsDir c))) rest) := rfl
    rw [hfold, ih _ hnd']
    by_cases hcx : pathChild rel (objName c) = x
    · rw [List.find?_cons_of_pos _ (by simp [hcx])]
      cases hfr : List.find? (fun c' => pathChild rel (objName c') == x) rest with
      | none =>
        rw [hstep]
        cases hig2 : ignore x <;> simp [hcx, hig2]
      | some c' =>
        exfalso
        have hmem := List.mem_of_find?_eq_some hfr
        have heq := List.find?_some hfr
        have : pathChild rel (objName c') = x := by simpa using heq
        exact hnotin (by
          rw [hcx]
          exact this ▸ List.mem_map_of_mem _ hmem)
    · rw [List.find?_cons_of_neg _ (by simp [hcx])]
      cases hfr : List.find? (fun c' => pathChild rel (objName c') == x) rest with
      | none => rw [hstep]; simp [hcx]
      | some c' => rw [hstep]; simp [hcx]


theorem concat_inj_last {rel : RelPath} {a b : String}
    (h : rel ++ [a] = rel ++ [b]) : a = b := by
  have := List.append_cancel_left h
  simpa using this

theorem find?_name_unique {cs : List FSObj} {n : String} {c c' : FSObj}
    (hnd : (cs.map objName).Nodup)
    (hf : List.find? (fun o => objName o == n) cs = some c) (hc' : c' ∈ cs)
    (hn : objName c' = n) : c' = c := by
  have h2 := find?_name_of_mem hnd hc'
  rw [hn] at h2
  have := h2.symm.trans hf
  injection this

theorem wfName_of_mem {cs : List FSObj} {c : FSObj}
    (hwf : wfForest cs = true) (hc : c ∈ cs) : wfName (objName c) = true :=
  wfObj_name (wfObjList_mem (wfForest_list hwf) hc)

theorem any_eq_single {α : Type _} {l : List α} {p : α → Bool} {c : α}
    (hc : c ∈ l) (h : ∀ o ∈ l, o ≠ c → p o = false) : l.any p = p c := by
  cases hpc : p c with
  | false =>
    simp only [List.any_eq_false]
    intro o ho
    by_cases hoc : o = c
    · rw [hoc, hpc]
      simp
    · simp [h o ho hoc]
  | true => exact List.any_eq_true.mpr ⟨c, hc, hpc⟩

theorem underB_not_under (ignore : RelPath → Bool) (cs : List FSObj)
    (rel x : RelPath) (h : ∀ t : RelPath, t ≠ [] → x ≠ rel ++ t) :
    underB ignore cs rel x = false := by
  simp only [underB]
  cases hsp : stripPre rel x with
  | none => rfl
  | some s =>
    cases s with
    | nil => rfl
    | cons m s2 => exact absurd (stripPre_eq_some hsp) (h (m :: s2) (by simp))

theorem underB_decompose (ignore : RelPath → Bool) (cs : List FSObj)
    (rel x : RelPath) (hnd : (cs.map objName).Nodup) :
    underB ignore cs rel x =
      (childKeyB ignore cs rel x || underListB ignore cs rel x) := by
  cases hsp : stripPre rel x with
  | none =>
    have hnx : ∀ t : RelPath, x ≠ rel ++ t := by
      intro t ht
      rw [ht, stripPre_append] at hsp
      cases hsp
    have h1 : childKeyB ignore cs rel x = false := by
      simp only [childKeyB, List.any_eq_false]
      intro c _
      simp only [Bool.and_eq_true, beq_iff_eq, not_and]
      intro _ hx2
      exact hnx [objName c] hx2
    have h2 : underListB ignore cs rel x = false := by
      simp only [underListB, List.any_eq_false]
      intro o _
      have hu : underB ignore (objChildren o) (rel ++ [objName o]) x = false := by
        apply underB_not_under
        intro t _ hxt
        exact hnx ([objName o] ++ t) (by simpa using hxt)
      simp [hu]
    simp [underB, hsp, h1, h2]
  | some s =>
    have hx : x = rel ++ s := stripPre_eq_some hsp
    cases s with
    | nil =>
      have h1 : childKeyB ignore cs rel x = false := by
        simp only [childKeyB, List.any_eq_false]
        intro c _
        simp only [Bool.and_eq_true, beq_iff_eq, not_and]
        intro _ hx2
        rw [hx] at hx2
        simpa using congrArg List.length hx2
      have h2 : underListB ignore cs rel x = false := by
        simp only [underListB, List.any_eq_false]
        intro o _
        have hu : underB ignore (objChildren o) (rel ++ [objName o]) x = false := by
          apply underB_not_under
          intro t ht hxt
          rw [hx] at hxt
          have := congrArg List.length hxt
          simp at this
        simp [hu]
      simp [underB, hsp, h1, h2]
    | cons n s' =>
      subst hx
      rw [show underB ignore cs rel (rel ++ n :: s') =
        inPlanGo ignore cs rel (n :: s') from by simp [underB, stripPre_append]]
      cases hf : List.find? (fun o => objName o == n) cs with
      | none =>
        have hnone : ∀ o ∈ cs, objName o ≠ n := by
          intro o ho
          have := List.find?_eq_none.mp hf o ho
          simpa using this
        have h1 : childKeyB ignore cs rel (rel ++ n :: s') = false := by
          simp only [childKeyB, List.any_eq_false]
          intro c hc
          simp only [Bool.and_eq_true, beq_iff_eq, not_and]
          intro _ hx2
          have := List.append_cancel_left hx2
          cases this
          exact hnone c hc rfl
        have h2 : underListB ignore cs rel (rel ++ n :: s') = false := by
          simp only [underListB, List.any_eq_false]
          intro o ho
          have hu : underB ignore (objChildren o) (rel ++ [objName o])
              (rel ++ n :: s') = false := by
            apply underB_not_under
            intro t _ hxt
            have : n :: s' = objName o :: t := by
              have := hxt
              rw [List.append_assoc] at this
              exact List.append_cancel_left this
            cases this
            exact hnone o ho rfl
          simp [hu]
        simp [inPlanGo, hf, h1, h2]
      | some c =>
        have hcn : objName c = n := by
          have := List.find?_some hf
          simpa using this
        have hc : c ∈ cs := List.mem_of_find?_eq_some hf
        have hothers : ∀ o ∈ cs, o ≠ c → objName o ≠ n := by
          intro o ho hoc hon
          exact hoc (find?_name_unique hnd hf ho hon)
        have hckey : childKeyB ignore cs rel (rel ++ n :: s') =
            (!ignore (rel ++ [objName c]) &&
              ((rel ++ n :: s' : RelPath) == rel ++ [objName c])) := by
          apply any_eq_single hc
          intro o ho hoc
          apply Bool.and_eq_false_iff.mpr
          right
          apply beq_eq_false_iff_ne.mpr
          intro hx2
          have := List.append_cancel_left hx2
          cases this
          exact hothers o ho hoc rfl
        have hulist : underListB ignore cs rel (rel ++ n :: s') =
            (objIsDir c && !ignore (rel ++ [objName c]) &&
              underB ignore (objChildren c) (rel ++ [objName c])
                (rel ++ n :: s')) := by
          apply any_eq_single hc
          intro o ho hoc
          have hu : underB ignore (objChildren o) (rel ++ [objName o])
              (rel ++ n :: s') = false := by
            apply underB_not_under
            intro t _ hxt
            have : n :: s' = objName o :: t := by
              have := hxt
              rw [List.append_assoc] at this
              exact List.append_cancel_left this
            cases this
            exact hothers o ho hoc rfl
          simp [hu]
        rw [hckey, hulist, hcn]
        have heqkey : ((rel ++ n :: s' : RelPath) == rel ++ [n]) =
            s'.isEmpty := by
          cases s' with
          | nil => simp
          | cons m s2 =>
            simp only [List.isEmpty_cons]
            apply beq_eq_false_iff_ne.mpr
            intro hx2
            have := List.append_cancel_left hx2
            simpa using congrArg List.length this
        have hund : underB ignore (objChildren c) (rel ++ [n])
            (rel ++ n :: s') =
            (!s'.isEmpty && inPlanGo ignore (objChildren c) (rel ++ [n]) s') := by
          simp only [underB]
          have h1 : rel ++ n :: s' = (rel ++ [n]) ++ s' := by simp
          rw [h1, stripPre_append]
          cases s' with
          | nil => simp
          | cons m s2 => simp
        rw [heqkey, hund]
        cases c with
        | file fn =>
          simp only [inPlanGo, hf, objIsDir, objChildren]
          cases s' with
          | nil => simp
          | cons m s2 => simp [inPlanGo]
        | dir dn dcs =>
          simp only [inPlanGo, hf, objIsDir, objChildren]
          cases s' with
          | nil => simp
          | cons m s2 =>
            simp only [List.isEmpty_cons]
            cases hig : ignore (rel ++ [n]) <;>
              cases hgo : inPlanGo ignore dcs (rel ++ [n]) (m :: s2) <;>
                simp [hig, hgo]


theorem name_unique_mem {cs : List FSObj} (hnd : (cs.map objName).Nodup)
    {c c' : FSObj} (hc : c ∈ cs) (hc' : c' ∈ cs)
    (hn : objName c = objName c') : c = c' := by
  have h1 := find?_name_of_mem hnd hc
  have h2 := find?_name_of_mem hnd hc'
  rw [hn] at h1
  have := h1.symm.trans h2
  injection this

theorem addChildEntries_shaped (ignore : RelPath → Bool) (tree : List FSObj)
    (dom : RelPath → Bool) (A : RelPath → Action) {rel : RelPath} {nm : String}
    {children : List FSObj} (plan : Plan)
    (hobj : objAt? tree rel = some (.dir nm children))
    (hwf : wfForest children = true)
    (hshape : Shaped tree dom A plan)
    (hfresh : ∀ s, s ≠ [] → dom (rel ++ s) = false) :
    Shaped tree (fun x => dom x || childKeyB ignore children rel x)
      (fun x => if childKeyB ignore children rel x then Action.NONE else A x)
      (addChildEntries ignore children rel (destOfPath rel) plan) := by
  have hnd := wfForest_names hwf
  have hwfn : ∀ c ∈ children, wfName (objName c) = true :=
    fun c hc => wfName_of_mem hwf hc
  set L := (children.filter (fun c => objIsDir c)).filter
      (fun c => !ignore (pathChild rel (objName c))) ++
      children.filter (fun c => !objIsDir c) with hL
  have hsubL : ∀ c ∈ L, c ∈ children := by
    intro c hc
    rcases List.mem_append.mp hc with h | h
    · exact List.mem_of_mem_filter (List.mem_of_mem_filter h)
    · exact List.mem_of_mem_filter h
  have hnamesL : (L.map objName).Nodup := by
    have hperm := (List.filter_append_perm (fun c => objIsDir c) children).map objName
    have hsub : List.Sublist L (children.filter (fun c => objIsDir c) ++
        children.filter (fun c => !objIsDir c)) :=
      List.Sublist.append (List.filter_sublist _) (List.Sublist.refl _)
    exact List.Nodup.sublist (hsub.map objName) (hperm.nodup_iff.mpr hnd)
  have hkeys : (L.map (fun c => pathChild rel (objName c))).Nodup := by
    have : L.map (fun c => pathChild rel (objName c)) =
        (L.map objName).map (fun n => pathChild rel n) := by
      simp [List.map_map]
    rw [this]
    apply List.Nodup.map_on ?_ hnamesL
    intro a ha b hb hab
    rcases List.mem_map.mp ha with ⟨ca, hca, rfl⟩
    rcases List.mem_map.mp hb with ⟨cb, hcb, rfl⟩
    have hwa := hwfn ca (hsubL ca hca)
    have hwb := hwfn cb (hsubL cb hcb)
    rw [pathChild_of_wf _ hwa, pathChild_of_wf _ hwb] at hab
    exact concat_inj_last hab
  intro x
  have hunfold : addChildEntries ignore children rel (destOfPath rel) plan =
      L.foldl (fun pl c =>
        if ignore (pathChild rel (objName c)) then pl
        else pl.insert (pathChild rel (objName c))
          (mkChildNode rel (destOfPath rel) (objName c) (objIsDir c))) plan := by
    simp [addChildEntries, hL]
  rw [hunfold, addChildEntries_fold_find? ignore rel (destOfPath rel) L plan x hkeys]
  cases hfr : List.find? (fun c => pathChild rel (objName c) == x) L with
  | some c =>
    have hcL := List.mem_of_find?_eq_some hfr
    have hcch := hsubL c hcL
    have hcw := hwfn c hcch
    have hx : x = rel ++ [objName c] := by
      have := List.find?_some hfr
      have h2 : pathChild rel (objName c) = x := by simpa using this
      rw [← h2, pathChild_of_wf _ hcw]
    have hdomx : dom x = false := hx ▸ hfresh [objName c] (by simp)
    show (if ignore (pathChild rel (objName c)) = true then plan.find? x
        else some (mkChildNode rel (destOfPath rel) (objName c) (objIsDir c))) =
      if (dom x || childKeyB ignore children rel x) = true then
        some (baseNode tree x
          (if childKeyB ignore children rel x = true then Action.NONE else A x))
      else none
    rw [pathChild_of_wf _ hcw]
    by_cases hig : ignore (rel ++ [objName c])
    · have hck : childKeyB ignore children rel x = false := by
        simp only [childKeyB, List.any_eq_false]
        intro c' hc'
        simp only [Bool.and_eq_true, beq_iff_eq, not_and]
        intro hni hxe
        have hnc : objName c' = objName c :=
          concat_inj_last (hxe.symm.trans hx)
        have hcc : c' = c := name_unique_mem hnd hc' hcch hnc
        subst hcc
        simp [hig] at hni
      simp [hig, hdomx, hck, hshape x]
    · have hck : childKeyB ignore children rel x = true := by
        simp only [childKeyB, List.any_eq_true]
        exact ⟨c, hcch, by simp [hig, hx]⟩
      rw [hx] at hck hdomx
      simp [hig, hdomx, hck, hx, mkChildNode_eq hobj hnd hcch hcw]
  | none =>
    show plan.find? x =
      if (dom x || childKeyB ignore children rel x) = true then
        some (baseNode tree x
          (if childKeyB ignore children rel x = true then Action.NONE else A x))
      else none
    have hck : childKeyB ignore children rel x = false := by
      cases hckv : childKeyB ignore children rel x with
      | false => rfl
      | true =>
        exfalso
        rcases List.any_eq_true.mp hckv with ⟨c', hc', hcond⟩
        simp only [Bool.and_eq_true, beq_iff_eq, Bool.not_eq_true'] at hcond
        have hig : ignore (rel ++ [objName c']) = false := hcond.1
        have hxe : x = rel ++ [objName c'] := hcond.2
        have hcw := hwfn c' hc'
        have hmemL : c' ∈ L := by
          rw [hL]
          by_cases hdir : objIsDir c'
          · apply List.mem_append.mpr
            left
            apply List.mem_filter.mpr
            refine ⟨List.mem_filter.mpr ⟨hc', by simp [hdir]⟩, ?_⟩
            simp [pathChild_of_wf _ hcw, hig]
          · apply List.mem_append.mpr
            right
            exact List.mem_filter.mpr ⟨hc', by simp [hdir]⟩
        have := List.find?_eq_none.mp hfr c' hmemL
        apply this
        simp [pathChild_of_wf _ hcw, hxe]
    simp only [hck, Bool.or_false]
    simpa [hck] using hshape x


theorem wfObj_children {o : FSObj} (h : wfObj o = true) :
    wfForest (objChildren o) = true := by
  cases o with
  | file n => simp [objChildren, wfForest, nodupNames, wfObjList]
  | dir n cs => exact (wfObj_dir h).2

theorem Shaped_congr {tree : List FSObj} {dom1 dom2 : RelPath → Bool}
    {A1 A2 : RelPath → Action} {p : Plan} (h : Shaped tree dom1 A1 p)
    (hdom : ∀ x, dom2 x = dom1 x)
    (hA : ∀ x, dom1 x = true → A2 x = A1 x) : Shaped tree dom2 A2 p := by
  intro x
  rw [h x, hdom x]
  by_cases hx : dom1 x = true
  · simp [hx, hA x hx]
  · simp [hx]

theorem childKeyB_deep (ignore : RelPath → Bool) (cs : List FSObj)
    (rel : RelPath) (a : String) (s : RelPath) (hs : s ≠ []) :
    childKeyB ignore cs rel ((rel ++ [a]) ++ s) = false := by
  simp only [childKeyB, List.any_eq_false]
  intro c _
  simp only [Bool.and_eq_true, beq_iff_eq, not_and]
  intro _ hx
  apply hs
  have hlen := congrArg List.length hx
  simp only [List.length_append, List.length_cons, List.length_nil] at hlen
  have hz : s.length = 0 := by omega
  exact List.length_eq_zero.mp hz

mutual

theorem pathsWalkObj_spec (ignore : RelPath → Bool) (tree : List FSObj)
    (o : FSObj) (rel : RelPath) (dom : RelPath → Bool) (A : RelPath → Action)
    (p : Plan) (hd : objIsDir o = true) (hobj : objAt? tree rel = some o)
    (hwf : wfForest (objChildren o) = true) (hshape : Shaped tree dom A p)
    (hfresh : ∀ s, s ≠ [] → dom (rel ++ s) = false) :
    Shaped tree (fun x => dom x || underB ignore (objChildren o) rel x)
      (fun x => if underB ignore (objChildren o) rel x then Action.NONE else A x)
      (pathsWalkObj ignore o rel (destOfPath rel) p) := by
  cases o with
  | file n => exact absurd hd (by simp [objIsDir])
  | dir nm cs =>
    simp only [pathsWalkObj, objChildren]
    have hnd := wfForest_names (by simpa [objChildren] using hwf)
    have hstep1 := addChildEntries_shaped ignore tree dom A p hobj
      (by simpa [objChildren] using hwf) hshape hfresh
    have hstep2 := pathsWalkDirs_spec ignore tree cs rel
      (fun x => dom x || childKeyB ignore cs rel x)
      (fun x => if childKeyB ignore cs rel x then Action.NONE else A x)
      (addChildEntries ignore cs rel (destOfPath rel) p)
      (fun c hc => objAt?_child hobj hnd hc)
      (wfForest_list (by simpa [objChildren] using hwf)) hnd hstep1
      (by
        intro c hc s hs
        have h1 : dom ((rel ++ [objName c]) ++ s) = false := by
          rw [List.append_assoc]
          exact hfresh _ (by simp)
        have h2 := childKeyB_deep ignore cs rel (objName c) s hs
        have hr : (rel ++ [objName c]) ++ s = rel ++ objName c :: s := by simp
        rw [hr] at h1 h2
        simp [h1, h2])
    apply Shaped_congr hstep2
    · intro x
      rw [underB_decompose ignore cs rel x hnd]
      simp [Bool.or_assoc]
    · intro x _
      simp only [underB_decompose ignore cs rel x hnd]
      by_cases h1 : childKeyB ignore cs rel x = true
      · simp [h1]
      · simp [h1]

theorem pathsWalkDirs_spec (ignore : RelPath → Bool) (tree : List FSObj)
    (objs : List FSObj) (rel : RelPath) (dom : RelPath → Bool)
    (A : RelPath → Action) (p : Plan)
    (hmem : ∀ o ∈ objs, objAt? tree (rel ++ [objName o]) = some o)
    (hwfl : wfObjList objs = true) (hnd : (objs.map objName).Nodup)
    (hshape : Shaped tree dom A p)
    (hker : ∀ o ∈ objs, ∀ s, s ≠ [] → dom ((rel ++ [objName o]) ++ s) = false) :
    Shaped tree (fun x => dom x || underListB ignore objs rel x)
      (fun x => if underListB ignore objs rel x then Action.NONE else A x)
      (pathsWalkDirs ignore objs rel (destOfPath rel) p) := by
  cases objs with
  | nil =>
    simp only [pathsWalkDirs]
    apply Shaped_congr hshape
    · intro x; simp [underListB]
    · intro x _; simp [underListB]
  | cons o rest =>
    have hwfo : wfObj o = true := wfObjList_mem hwfl (by simp)
    have hwfn : wfName (objName o) = true := wfObj_name hwfo
    have hwfl' : wfObjList rest = true := by
      have := hwfl
      simp only [wfObjList, Bool.and_eq_true] at this
      exact this.2
    have hnd' : (rest.map objName).Nodup := by simpa using hnd.of_cons
    have hnameo : ∀ o' ∈ rest, objName o' ≠ objName o := by
      intro o' ho' hne
      have hx : (∀ y ∈ rest, ¬objName y = objName o) ∧
          (rest.map objName).Nodup := by simpa using hnd
      exact hx.1 o' ho' hne
    simp only [pathsWalkDirs]
    by_cases hg : (objIsDir o && !ignore (pathChild rel (objName o))) = true
    · rw [if_pos hg]
      have hgd : objIsDir o = true := (Bool.and_eq_true _ _ ▸ hg).1
      have hgi : ignore (rel ++ [objName o]) = false := by
        have := (Bool.and_eq_true _ _ ▸ hg).2
        rw [pathChild_of_wf _ hwfn] at this
        simpa using this
      have hrw1 : pathChild rel (objName o) = rel ++ [objName o] :=
        pathChild_of_wf _ hwfn
      have hrw2 : pathChild (destOfPath rel) (destName (objName o)) =
          destOfPath (rel ++ [objName o]) := (destOfPath_concat rel (objName o)).symm
      rw [hrw1, hrw2]
      have hstep1 := pathsWalkObj_spec ignore tree o (rel ++ [objName o]) dom A p
        hgd (hmem o (by simp)) (wfObj_children hwfo) hshape
        (by
          intro s hs
          exact hker o (by simp) s hs)
      have hstep2 := pathsWalkDirs_spec ignore tree rest rel
        (fun x => dom x || underB ignore (objChildren o) (rel ++ [objName o]) x)
        (fun x => if underB ignore (objChildren o) (rel ++ [objName o]) x
          then Action.NONE else A x)
        (pathsWalkObj ignore o (rel ++ [objName o])
          (destOfPath (rel ++ [objName o])) p)
        (fun o' ho' => hmem o' (by simp [ho']))
        hwfl' hnd' hstep1
        (by
          intro o' ho' s hs
          have h1 : dom ((rel ++ [objName o']) ++ s) = false :=
            hker o' (by simp [ho']) s hs
          have h2 : underB ignore (objChildren o) (rel ++ [objName o])
              ((rel ++ [objName o']) ++ s) = false := by
            apply underB_not_under
            intro t _ ht
            rw [List.append_assoc, List.append_assoc] at ht
            have := List.append_cancel_left ht
            have hh : objName o' = objName o := by
              injection this
            exact hnameo o' ho' hh
          have hr : (rel ++ [objName o']) ++ s = rel ++ objName o' :: s := by simp
          rw [hr] at h1 h2
          simp [h1, h2])
      apply Shaped_congr hstep2
      · intro x
        have hcl : underListB ignore (o :: rest) rel x =
            (underB ignore (objChildren o) (rel ++ [objName o]) x ||
              underListB ignore rest rel x) := by
          simp [underListB, hgd, hgi]
        rw [hcl]
        simp [Bool.or_assoc]
      · intro x _
        have hcl : underListB ignore (o :: rest) rel x =
            (underB ignore (objChildren o) (rel ++ [objName o]) x ||
              underListB ignore rest rel x) := by
          simp [underListB, hgd, hgi]
        rw [hcl]
        by_cases h1 : underB ignore (objChildren o) (rel ++ [objName o]) x = true
        · simp [h1]
        · simp [h1]
    · rw [if_neg hg]
      have hcl : ∀ x, underListB ignore (o :: rest) rel x =
          underListB ignore rest rel x := by
        intro x
        have hg' : (objIsDir o && !ignore (rel ++ [objName o])) = false := by
          rw [pathChild_of_wf _ hwfn] at hg
          exact Bool.of_not_eq_true hg
        rcases Bool.and_eq_false_iff.mp hg' with h | h
        · simp [underListB, h]
        · simp [underListB, h]
      have hstep2 := pathsWalkDirs_spec ignore tree rest rel dom A p
        (fun o' ho' => hmem o' (by simp [ho'])) hwfl' hnd' hshape
        (fun o' ho' s hs => hker o' (by simp [ho']) s hs)
      apply Shaped_congr hstep2
      · intro x
        rw [hcl x]
      · intro x _
        rw [hcl x]

end


theorem underB_root (ignore : RelPath → Bool) (tree : List FSObj) (x : RelPath) :
    underB ignore tree [] x =
      match x with
      | [] => false
      | _ :: _ => inPlanB ignore tree x := by
  cases x with
  | nil => simp [underB, stripPre]
  | cons n s => simp [underB, stripPre, inPlanB]

/-- Characterisation of `plan_install_paths` (with the collaborator-predicate
ignore rules): the plan has exactly one entry per non-ignored source object
plus the synthetic root, every entry's fields are determined by its path, the
root's action is `EXISTS`, and every other action is `NONE`. -/
theorem plan_install_paths_spec (ignore : RelPath → Bool) (tree : List FSObj)
    (hwf : wfTree tree = true) (hroot : ignore [] = false) :
    Shaped tree (planDom ignore tree)
      (fun x => if x.isEmpty then Action.EXISTS else Action.NONE)
      (plan_install_paths ignore tree) := by
  have hinit : Shaped tree (fun x => x.isEmpty) (fun _ => Action.EXISTS)
      [([], rootNode)] := by
    intro x
    cases x with
    | nil => simp [Plan.find?, rootNode_eq tree]
    | cons a as_ => simp [Plan.find?]
  have hspec := pathsWalkObj_spec ignore tree (.dir "" tree) []
    (fun x => x.isEmpty) (fun _ => Action.EXISTS) [([], rootNode)]
    (by simp [objIsDir]) (by simp [objAt?])
    (by simpa [objChildren, wfTree] using hwf) hinit
    (by intro s hs; cases s with
        | nil => exact absurd rfl hs
        | cons a as_ => simp)
  rw [show plan_install_paths ignore tree =
    pathsWalkObj ignore (.dir "" tree) [] [] [([], rootNode)] from by
      simp [plan_install_paths, hroot]]
  rw [show ([] : RelPath) = destOfPath [] from rfl]
  apply Shaped_congr hspec
  · intro x
    simp only [objChildren, underB_root]
    cases x with
    | nil => simp [planDom]
    | cons n s => simp [planDom]
  · intro x hdom
    simp only [objChildren, underB_root]
    cases x with
    | nil => simp
    | cons n s =>
      simp only [objChildren, underB_root, List.isEmpty_cons, Bool.false_or] at hdom
      simp [hdom]


/-! ## The installation decision engine -/

theorem strictUnderB_append (base : RelPath) (s : RelPath) (hs : s ≠ []) :
    strictUnderB base (base ++ s) = true := by
  cases s with
  | nil => exact absurd rfl hs
  | cons n s' => simp [strictUnderB, stripPre_append]

theorem strictUnderB_true {base x : RelPath} (h : strictUnderB base x = true) :
    ∃ n s, x = base ++ n :: s := by
  unfold strictUnderB at h
  cases hsp : stripPre base x with
  | none => rw [hsp] at h; cases h
  | some s =>
    cases s with
    | nil => rw [hsp] at h; cases h
    | cons n s' => exact ⟨n, s', stripPre_eq_some hsp⟩

theorem strictUnderB_self (base : RelPath) : strictUnderB base base = false := by
  simp [strictUnderB, show stripPre base base = some [] from by
    simpa using stripPre_append base []]

theorem atUnderB_true {base x : RelPath} (h : atUnderB base x = true) :
    ∃ s, x = base ++ s := by
  unfold atUnderB at h
  cases hsp : stripPre base x with
  | none => rw [hsp] at h; cases h
  | some s => exact ⟨s, stripPre_eq_some hsp⟩

theorem atUnderB_append (base s : RelPath) : atUnderB base (base ++ s) = true := by
  simp [atUnderB, stripPre_append]

theorem Shaped_setAction {tree : List FSObj} {dom : RelPath → Bool}
    {A : RelPath → Action} {p : Plan} (h : Shaped tree dom A p)
    (key : RelPath) (a : Action) :
    Shaped tree dom (fun x => if x = key then a else A x)
      (p.setAction key a) := by
  intro x
  by_cases hx : x = key
  · subst hx
    rw [Plan.find?_setAction_same, h x]
    by_cases hd : dom x = true
    · simp [hd, baseNode]
    · simp [hd]
  · rw [Plan.find?_setAction_other _ _ _ _ hx, h x]
    simp [hx]

theorem Shaped_markAllAncestorsGo {tree : List FSObj} {dom : RelPath → Bool}
    {A : RelPath → Action} {p : Plan} (mark stop : Action) (ps : List RelPath)
    (h : Shaped tree dom A p) :
    ∃ A', Shaped tree dom A' (markAllAncestorsGo mark stop ps p) ∧
      ∀ x, x ∉ ps → A' x = A x := by
  induction ps generalizing A p with
  | nil => exact ⟨A, h, fun x _ => rfl⟩
  | cons q rest ih =>
    cases hf : p.find? q with
    | none =>
      rcases ih h with ⟨A', h1, h2⟩
      refine ⟨A', by simpa [markAllAncestorsGo, hf] using h1, ?_⟩
      intro x hx
      exact h2 x (fun hh => hx (by simp [hh]))
    | some node =>
      by_cases hs : node.action = stop
      · refine ⟨A, by simpa [markAllAncestorsGo, hf, hs] using h, ?_⟩
        intro x _
        rfl
      · rcases ih (Shaped_setAction h q mark) with ⟨A', h1, h2⟩
        refine ⟨A', by simpa [markAllAncestorsGo, hf, hs] using h1, ?_⟩
        intro x hx
        have hxq : x ≠ q := fun hh => hx (by simp [hh])
        have hxr : x ∉ rest := fun hh => hx (by simp [hh])
        rw [h2 x hxr]
        simp [hxq]

theorem failNodeUpd_base (fs : DestFS) (tree : List FSObj) (x : RelPath)
    (a : Action) :
    failNodeUpd fs (baseNode tree x a) =
      baseNode tree x (if failedByB fs x then Action.FAIL else a) := by
  unfold failNodeUpd failedByB baseNode
  by_cases h : fs.existsAt (destOfPath x) && fs.isFile (destOfPath x) <;> simp [h]

theorem markNodeUpd_base (mark : Action) (allow : List Action)
    (tree : List FSObj) (x : RelPath) (a : Action) :
    markNodeUpd mark allow (baseNode tree x a) =
      baseNode tree x (if a ∈ allow then mark else a) := by
  unfold markNodeUpd baseNode
  by_cases h : a ∈ allow <;> simp [h]

theorem unlinkNodeUpd_base (fs : DestFS) (tree : List FSObj) (x : RelPath)
    (a : Action) :
    unlinkNodeUpd fs (baseNode tree x a) =
      baseNode tree x
        (if fs.isSymlink (destOfPath x) then Action.UNLINK else a) := by
  unfold unlinkNodeUpd baseNode
  by_cases h : fs.isSymlink (destOfPath x) <;> simp [h]

theorem self_not_mem_parentsOf (rel : RelPath) : rel ∉ parentsOf rel := by
  intro h
  rcases parentsOf_strict h with ⟨s, hs, hrs⟩
  have := congrArg List.length hrs
  simp only [List.length_append] at this
  have : s.length = 0 := by omega
  exact hs (List.length_eq_zero.mp this)

theorem concat_not_mem_parentsOf (rel : RelPath) (n : String) (t : RelPath) :
    rel ++ n :: t ∉ parentsOf rel := by
  intro h
  rcases parentsOf_strict h with ⟨s, hs, hrs⟩
  have := congrArg List.length hrs
  simp only [List.length_append, List.length_cons] at this
  omega

theorem inPlanGo_append (ignore : RelPath → Bool) :
    ∀ (rel : RelPath) (objs : List FSObj) (base s : RelPath) (nm : String)
      (cs : List FSObj), s ≠ [] →
      inPlanGo ignore objs base rel = true →
      objAt? objs rel = some (.dir nm cs) →
      inPlanGo ignore objs base (rel ++ s) =
        inPlanGo ignore cs (base ++ rel) s := by
  intro rel
  induction rel with
  | nil =>
    intro objs base s nm cs _ _ hobj
    have h' : FSObj.dir "" objs = FSObj.dir nm cs := by
      simpa [objAt?] using hobj
    have htc : objs = cs := by injection h'
    subst htc
    simp
  | cons r rt ih =>
    intro objs base s nm cs hs hin hobj
    cases hf : List.find? (fun o => objName o == r) objs with
    | none => simp [objAt?, hf] at hobj
    | some o =>
      cases o with
      | file fn =>
        by_cases hrt : rt.isEmpty
        · simp [objAt?, hf, hrt] at hobj
        · simp [objAt?, hf, hrt] at hobj
      | dir dn dcs =>
        by_cases hrt : rt = []
        · subst hrt
          have heq : FSObj.dir dn dcs = FSObj.dir nm cs := by
            simpa [objAt?, hf] using hobj
          have htc : dcs = cs := by injection heq
          subst htc
          have hni : ignore (base ++ [r]) = false := by
            simp only [inPlanGo, hf, Bool.and_eq_true] at hin
            simpa using hin.1
          cases s with
          | nil => exact absurd rfl hs
          | cons q qs =>
            show inPlanGo ignore objs base (r :: q :: qs) = _
            simp [inPlanGo, hf, hni]
        · have hne : (rt.isEmpty) = false := by simpa using hrt
          have hobj' : objAt? dcs rt = some (.dir nm cs) := by
            simpa [objAt?, hf, hne] using hobj
          have hin' : inPlanGo ignore dcs (base ++ [r]) rt = true := by
            simp only [inPlanGo, hf, hne, Bool.and_eq_true, Bool.false_or] at hin
            exact hin.2
          have hni : ignore (base ++ [r]) = false := by
            simp only [inPlanGo, hf, Bool.and_eq_true] at hin
            simpa using hin.1
          have hrec := ih dcs (base ++ [r]) s nm cs hs hin' hobj'
          have hcons : (r :: rt) ++ s = r :: (rt ++ s) := rfl
          rw [hcons]
          show inPlanGo ignore objs base (r :: (rt ++ s)) = _
          have hrts : (rt ++ s).isEmpty = false := by
            cases s with
            | nil => exact absurd rfl hs
            | cons q qs => simp
          simp only [inPlanGo, hf, hni, hrts, Bool.not_false, Bool.true_and,
            Bool.false_or]
          rw [hrec]
          simp [List.append_assoc]
  

theorem any_congr_mem {α : Type _} {l : List α} {p q : α → Bool}
    (h : ∀ x ∈ l, p x = q x) : l.any p = l.any q := by
  induction l with
  | nil => rfl
  | cons a rest ih =>
    simp only [List.any_cons]
    rw [h a (by simp), ih (fun x hx => h x (by simp [hx]))]

theorem any_perm {α : Type _} {l1 l2 : List α} (h : l1.Perm l2) (p : α → Bool) :
    l1.any p = l2.any p := by
  cases hv : l2.any p with
  | false =>
    simp only [List.any_eq_false] at hv ⊢
    intro x hx
    exact hv x (h.mem_iff.mp hx)
  | true =>
    rcases List.any_eq_true.mp hv with ⟨x, hx, hpx⟩
    exact List.any_eq_true.mpr ⟨x, h.mem_iff.mpr hx, hpx⟩

theorem inPlanGo_false_append (ignore : RelPath → Bool) :
    ∀ (rel : RelPath) (objs : List FSObj) (base : RelPath),
      inPlanGo ignore objs base rel = false → rel ≠ [] →
      ∀ s, inPlanGo ignore objs base (rel ++ s) = false := by
  intro rel
  induction rel with
  | nil => intro _ _ _ hne _; exact absurd rfl hne
  | cons r rt ih =>
    intro objs base hin _ s
    cases hf : List.find? (fun o => objName o == r) objs with
    | none => simp [inPlanGo, hf]
    | some o =>
      cases o with
      | file fn =>
        simp only [inPlanGo, hf] at hin
        by_cases hrt : rt = []
        · subst hrt
          simp only [List.isEmpty_nil, Bool.true_and] at hin
          simp [inPlanGo, hf, hin]
        · have hnes : (rt ++ s).isEmpty = false := by
            cases rt with
            | nil => exact absurd rfl hrt
            | cons a as_ => simp
          simp [inPlanGo, hf, hnes]
      | dir dn dcs =>
        simp only [inPlanGo, hf] at hin
        by_cases hig : ignore (base ++ [r])
        · simp [inPlanGo, hf, hig]
        · simp only [hig, Bool.not_false, Bool.true_and] at hin
          by_cases hrt : rt = []
          · subst hrt
            simp at hin
          · have hne2 : rt.isEmpty = false := by simpa using hrt
            simp only [hne2, Bool.false_or] at hin
            have hnes : (rt ++ s).isEmpty = false := by
              cases rt with
              | nil => exact absurd rfl hrt
              | cons a as_ => simp
            have hih := ih dcs (base ++ [r]) hin hrt s
            simp [inPlanGo, hf, hnes, hig, hih]

theorem inPlanGo_file_append (ignore : RelPath → Bool) :
    ∀ (rel : RelPath) (objs : List FSObj) (base : RelPath) (fn : String)
      (s : RelPath), s ≠ [] → objAt? objs rel = some (.file fn) →
      inPlanGo ignore objs base (rel ++ s) = false := by
  intro rel
  induction rel with
  | nil =>
    intro objs _ fn _ _ hobj
    simp [objAt?] at hobj
  | cons r rt ih =>
    intro objs base fn s hs hobj
    cases hf : List.find? (fun o => objName o == r) objs with
    | none => simp [objAt?, hf] at hobj
    | some o =>
      cases o with
      | file fn' =>
        by_cases hrt : rt = []
        · subst hrt
          have hse : s.isEmpty = false := by simpa using hs
          simp [inPlanGo, hf, hse]
        · have hne : rt.isEmpty = false := by simpa using hrt
          simp [objAt?, hf, hne] at hobj
      | dir dn dcs =>
        by_cases hrt : rt = []
        · subst hrt
          simp [objAt?, hf] at hobj
        · have hne : rt.isEmpty = false := by simpa using hrt
          have hobj' : objAt? dcs rt = some (.file fn) := by
            simpa [objAt?, hf, hne] using hobj
          have hnes : (rt ++ s).isEmpty = false := by
            cases rt with
            | nil => exact absurd rfl hrt
            | cons a as_ => simp
          have hih := ih dcs (base ++ [r]) fn s hs hobj'
          simp [inPlanGo, hf, hnes, hih]

theorem inPlanGo_single (ignore : RelPath → Bool) {cs : List FSObj}
    {c : FSObj} (base : RelPath) (hnd : (cs.map objName).Nodup)
    (hc : c ∈ cs) :
    inPlanGo ignore cs base [objName c] = !ignore (base ++ [objName c]) := by
  have hf := find?_name_of_mem hnd hc
  cases c with
  | file fn => simp [inPlanGo, hf]
  | dir dn dcs => simp [inPlanGo, hf]

theorem planDom_child (ignore : RelPath → Bool) {tree : List FSObj}
    {rel : RelPath} {nm : String} {cs : List FSObj} {c : FSObj}
    (hdom : planDom ignore tree rel = true)
    (hobj : objAt? tree rel = some (.dir nm cs))
    (hnd : (cs.map objName).Nodup) (hc : c ∈ cs) :
    planDom ignore tree (rel ++ [objName c]) =
      !ignore (rel ++ [objName c]) := by
  cases rel with
  | nil =>
    have h' : FSObj.dir "" tree = FSObj.dir nm cs := by
      have h2 : some (FSObj.dir "" tree) = some (FSObj.dir nm cs) := hobj
      injection h2
    have htc : tree = cs := by injection h'
    subst htc
    simpa [planDom, inPlanB] using inPlanGo_single ignore [] hnd hc
  | cons r rt =>
    have hin : inPlanB ignore tree (r :: rt) = true := by
      simpa [planDom] using hdom
    have happ := inPlanGo_append ignore (r :: rt) tree [] [objName c] nm cs
      (by simp) (by simpa [inPlanB] using hin) hobj
    have hsingle := inPlanGo_single ignore (r :: rt) hnd hc
    simp only [planDom, inPlanB]
    rw [show inPlanGo ignore tree [] ((r :: rt) ++ [objName c]) =
      inPlanGo ignore cs ([] ++ r :: rt) [objName c] from happ]
    simp [hsingle]

theorem planDom_mono_false (ignore : RelPath → Bool) {tree : List FSObj}
    {x : RelPath} (h : planDom ignore tree x = false) (s : RelPath) :
    planDom ignore tree (x ++ s) = false := by
  cases x with
  | nil => simp [planDom] at h
  | cons r rt =>
    have hin : inPlanGo ignore tree [] (r :: rt) = false := by
      simpa [planDom, inPlanB] using h
    simp only [planDom, inPlanB, List.cons_append, List.isEmpty_cons,
      Bool.false_or]
    exact inPlanGo_false_append ignore (r :: rt) tree [] hin (by simp) s

theorem planDom_under_file (ignore : RelPath → Bool) {tree : List FSObj}
    {rel : RelPath} {fn : String} (hobj : objAt? tree rel = some (.file fn))
    (s : RelPath) (hs : s ≠ []) :
    planDom ignore tree (rel ++ s) = false := by
  have hne : rel ++ s ≠ [] := by
    cases s with
    | nil => exact absurd rfl hs
    | cons q qs => simp
  have h2 : (rel ++ s).isEmpty = false := by simpa using hne
  simp only [planDom, h2, Bool.false_or, inPlanB]
  exact inPlanGo_file_append ignore rel tree [] fn s hs hobj

theorem childPathsOf_mem {rel : RelPath} {children : List FSObj}
    (hwfc : wfForest children = true) (x : RelPath) :
    x ∈ childPathsOf rel children ↔ ∃ c ∈ children, x = rel ++ [objName c] := by
  unfold childPathsOf
  constructor
  · intro hx
    rcases List.mem_map.mp hx with ⟨c, hc, rfl⟩
    have hcch : c ∈ children := by
      rcases List.mem_append.mp hc with h | h
      · exact List.mem_of_mem_filter h
      · exact List.mem_of_mem_filter h
    exact ⟨c, hcch, pathChild_of_wf _ (wfName_of_mem hwfc hcch)⟩
  · rintro ⟨c, hc, rfl⟩
    apply List.mem_map.mpr
    refine ⟨c, ?_, pathChild_of_wf _ (wfName_of_mem hwfc hc)⟩
    by_cases hd : objIsDir c
    · exact List.mem_append.mpr (Or.inl (List.mem_filter.mpr ⟨hc, by simp [hd]⟩))
    · exact List.mem_append.mpr (Or.inr (List.mem_filter.mpr ⟨hc, by simp [hd]⟩))

theorem childPathsOf_nodup {rel : RelPath} {children : List FSObj}
    (hwfc : wfForest children = true) : (childPathsOf rel children).Nodup := by
  unfold childPathsOf
  have hnd := wfForest_names hwfc
  have hperm := (List.filter_append_perm (fun c => objIsDir c) children).map objName
  have hnames : ((children.filter (fun c => objIsDir c) ++
      children.filter (fun c => !objIsDir c)).map objName).Nodup :=
    hperm.nodup_iff.mpr hnd
  have hinjn := List.inj_on_of_nodup_map hnames
  apply List.Nodup.map_on ?_ (List.Nodup.of_map _ hnames)
  intro a ha b hb hab
  have hach : a ∈ children := by
    rcases List.mem_append.mp ha with h | h
    · exact List.mem_of_mem_filter h
    · exact List.mem_of_mem_filter h
  have hbch : b ∈ children := by
    rcases List.mem_append.mp hb with h | h
    · exact List.mem_of_mem_filter h
    · exact List.mem_of_mem_filter h
  rw [pathChild_of_wf _ (wfName_of_mem hwfc hach),
    pathChild_of_wf _ (wfName_of_mem hwfc hbch)] at hab
  exact hinjn ha hb (concat_inj_last hab)

theorem any_map_gen {α : Type _} {β : Type _} (l : List α) (f : α → β)
    (p : β → Bool) : (l.map f).any p = l.any (fun x => p (f x)) := by
  induction l with
  | nil => rfl
  | cons a rest ih => simp [ih]

theorem childPathsOf_perm_any {rel : RelPath} {children : List FSObj}
    (hwfc : wfForest children = true) (p : RelPath → Bool) :
    (childPathsOf rel children).any p =
      children.any (fun c => p (rel ++ [objName c])) := by
  have h1 : (childPathsOf rel children).any p =
      (children.filter (fun c => objIsDir c) ++
        children.filter (fun c => !objIsDir c)).any
          (fun c => p (pathChild rel (objName c))) := by
    unfold childPathsOf
    rw [any_map_gen]
  have h2 : (children.filter (fun c => objIsDir c) ++
      children.filter (fun c => !objIsDir c)).any
        (fun c => p (pathChild rel (objName c))) =
      (children.filter (fun c => objIsDir c) ++
        children.filter (fun c => !objIsDir c)).any
          (fun c => p (rel ++ [objName c])) := by
    apply any_congr_mem
    intro c hc
    have hcch : c ∈ children := by
      rcases List.mem_append.mp hc with h | h
      · exact List.mem_of_mem_filter h
      · exact List.mem_of_mem_filter h
    rw [pathChild_of_wf _ (wfName_of_mem hwfc hcch)]
  rw [h1, h2]
  exact any_perm (List.filter_append_perm (fun c => objIsDir c) children) _

theorem firstPass_flag_eq (ignore : RelPath → Bool) (fs : DestFS)
    {tree : List FSObj} {rel : RelPath} {nm : String}
    {children : List FSObj} {A : RelPath → Action} {p : Plan}
    (hobj : objAt? tree rel = some (.dir nm children))
    (hwfc : wfForest children = true)
    (hdom : planDom ignore tree rel = true)
    (hshape : Shaped tree (planDom ignore tree) A p) :
    (firstPass fs (childPathsOf rel children) p).2 =
      planChildRenameB ignore tree rel := by
  have hnd := wfForest_names hwfc
  unfold firstPass
  rw [firstPass_aux_flag]
  simp only [Bool.false_or]
  have h1 : ∀ cp, ((p.find? cp).map (fun n => n.requires_rename)).getD false =
      (planDom ignore tree cp && requiresRenameName (lastName cp)) := by
    intro cp
    rw [hshape cp]
    by_cases hd : planDom ignore tree cp = true
    · simp [hd, baseNode]
    · simp only [Bool.not_eq_true] at hd
      simp [hd]
  rw [any_congr_mem (fun cp _ => h1 cp)]
  rw [childPathsOf_perm_any hwfc]
  have h2 : ∀ c ∈ children, (planDom ignore tree (rel ++ [objName c]) &&
      requiresRenameName (lastName (rel ++ [objName c]))) =
      (!ignore (rel ++ [objName c]) && requiresRenameName (objName c)) := by
    intro c hc
    rw [planDom_child ignore hdom hobj hnd hc, lastName_concat]
  rw [any_congr_mem h2]
  unfold planChildRenameB childrenAt
  rw [hobj]

theorem Shaped_set_then_ancestors {tree : List FSObj} {dom : RelPath → Bool}
    {A : RelPath → Action} {p : Plan} (h : Shaped tree dom A p)
    (key : RelPath) (a mark stop : Action) :
    ∃ A', Shaped tree dom A'
        (mark_all_ancestors key mark stop (p.setAction key a)) ∧
      ∀ x, x ∉ parentsOf key → A' x = (if x = key then a else A x) := by
  rcases Shaped_markAllAncestorsGo mark stop (parentsOf key)
      (Shaped_setAction h key a) with ⟨A', h1, h2⟩
  exact ⟨A', h1, fun x hx => h2 x hx⟩

theorem ownActB_ne_none (ignore : RelPath → Bool) (fs : DestFS) (m : Matcher)
    (tree : List FSObj) (x : RelPath) :
    ownActB ignore fs m tree x ≠ Action.NONE := by
  unfold ownActB
  split_ifs <;> simp

theorem self_concat_ne (rel : RelPath) (n : String) : rel ++ [n] ≠ rel := by
  intro h
  have := congrArg List.length h
  simp at this

theorem parentsOf_not_child (rel : RelPath) (n : String)
    {x : RelPath} (hx : x ∈ parentsOf rel) : x ≠ rel ++ [n] := by
  intro h
  rcases parentsOf_strict hx with ⟨s, hs, hrs⟩
  subst h
  have := congrArg List.length hrs
  simp only [List.length_append, List.length_cons, List.length_nil] at this
  omega

theorem thirdPass_shaped (ignore : RelPath → Bool) (fs : DestFS) (m : Matcher)
    {tree : List FSObj} (isRoot : Bool) {rel : RelPath} {nm : String}
    {children : List FSObj} {A A2 : RelPath → Action} {plan2 : Plan}
    (mark : Action) (allow : List Action)
    (hobj : objAt? tree rel = some (.dir nm children))
    (hwfc : wfForest children = true)
    (hroot : isRoot = true ↔ rel = [])
    (hchild : ∀ c ∈ children, planDom ignore tree (rel ++ [objName c]) = true →
      A (rel ++ [objName c]) =
        if objIsDir c then ownActB ignore fs m tree (rel ++ [objName c])
        else Action.NONE)
    (hsh2 : Shaped tree (planDom ignore tree) A2 plan2)
    (hA2rel : A2 rel = (if isRoot then Action.EXISTS
      else ownActB ignore fs m tree rel))
    (hA2off : ∀ x, x ∉ parentsOf rel → x ≠ rel →
      A2 x = (if x ∈ childPathsOf rel children then
        (if failedByB fs x then Action.FAIL else A x) else A x))
    (hma : (mark = Action.LINK ∧ allow = [Action.NONE] ∧
        (if isRoot then Action.EXISTS else ownActB ignore fs m tree rel) ≠
          Action.LINK) ∨
      (mark = Action.SKIP ∧ allow = [Action.NONE, Action.LINK] ∧
        (if isRoot then Action.EXISTS else ownActB ignore fs m tree rel) =
          Action.LINK)) :
    ∃ A', Shaped tree (planDom ignore tree) A'
        (markImmediateChildren (childPathsOf rel children) mark allow plan2) ∧
      ∀ x, x ∉ parentsOf rel → A' x =
        (if x = rel then
          (if isRoot then Action.EXISTS else ownActB ignore fs m tree rel)
        else if children.any (fun c => x == rel ++ [objName c]) &&
            planDom ignore tree x then
          finalActB ignore fs m tree x
        else A x) := by
  have hnd := wfForest_names hwfc
  have hknodup : (childPathsOf rel children).Nodup := childPathsOf_nodup hwfc
  refine ⟨fun x => if x ∈ parentsOf rel then A2 x else
    (if x = rel then
      (if isRoot then Action.EXISTS else ownActB ignore fs m tree rel)
    else if children.any (fun c => x == rel ++ [objName c]) &&
        planDom ignore tree x then
      finalActB ignore fs m tree x
    else A x), ?_, ?_⟩
  swap
  · intro x hx
    simp only [if_neg hx]
  intro x
  rw [markImmediateChildren_find? _ _ _ _ _ hknodup]
  simp only [hsh2 x]
  by_cases hpx : x ∈ parentsOf rel
  · have hxcps : x ∉ childPathsOf rel children := by
      intro hxc
      rcases (childPathsOf_mem hwfc x).mp hxc with ⟨c, _, rfl⟩
      exact parentsOf_not_child rel (objName c) hpx rfl
    simp [hxcps, hpx]
  · by_cases hxc : x ∈ childPathsOf rel children
    · rcases (childPathsOf_mem hwfc x).mp hxc with ⟨c, hcch, rfl⟩
      have hxrel : rel ++ [objName c] ≠ rel := self_concat_ne rel (objName c)
      have hany : (children.any
          (fun cc => rel ++ [objName c] == rel ++ [objName cc])) = true :=
        List.any_eq_true.mpr ⟨c, hcch, by simp⟩
      by_cases hd : planDom ignore tree (rel ++ [objName c]) = true
      · have hAx := hchild c hcch hd
        have hA2x := hA2off _ hpx hxrel
        rw [if_pos hxc] at hA2x
        have hobjc := objAt?_child hobj hnd hcch
        have hdir : isDirAtB tree (rel ++ [objName c]) = objIsDir c := by
          simp [isDirAtB, hobjc]
        have hparc : parentOwnB ignore fs m tree (rel ++ [objName c]) =
            (if isRoot then Action.EXISTS
              else ownActB ignore fs m tree rel) := by
          unfold parentOwnB
          rw [List.dropLast_concat]
          by_cases hr : rel = []
          · rw [if_pos (hroot.mpr hr)]
            simp [hr]
          · have hirf : isRoot = false := by
              cases hirv : isRoot with
              | false => rfl
              | true => exact absurd (hroot.mp hirv) hr
            have hre : rel.isEmpty = false := by simpa using hr
            simp [hirf, hre]
        have hmain : markNodeUpd mark allow
            (baseNode tree (rel ++ [objName c]) (A2 (rel ++ [objName c]))) =
            baseNode tree (rel ++ [objName c])
              (finalActB ignore fs m tree (rel ++ [objName c])) := by
          rw [markNodeUpd_base, hA2x, hAx]
          congr 1
          unfold finalActB
          rw [hdir, hparc]
          by_cases hfb : failedByB fs (rel ++ [objName c]) = true
          · rcases hma with ⟨hm, ha, hpl⟩ | ⟨hm, ha, hpl⟩ <;>
              simp [hfb, ha]
          · simp only [Bool.not_eq_true] at hfb
            simp only [hfb, Bool.false_eq_true, if_false]
            cases hdc : objIsDir c with
            | true =>
              simp only [if_pos rfl]
              rcases hma with ⟨hm, ha, hpl⟩ | ⟨hm, ha, hpl⟩
              · have hnn := ownActB_ne_none ignore fs m tree (rel ++ [objName c])
                have hol : (ownActB ignore fs m tree (rel ++ [objName c]) ∈
                    allow) = False := by
                  simp [ha, hnn]
                simp [hol, hpl]
              · by_cases holk : ownActB ignore fs m tree (rel ++ [objName c]) =
                    Action.LINK
                · simp [ha, holk, hm, hpl]
                · have hnn := ownActB_ne_none ignore fs m tree
                    (rel ++ [objName c])
                  have hol : (ownActB ignore fs m tree (rel ++ [objName c]) ∈
                      allow) = False := by
                    simp [ha, hnn, holk]
                  simp [hol, holk, hpl]
            | false =>
              simp only [Bool.false_eq_true, if_false]
              rcases hma with ⟨hm, ha, hpl⟩ | ⟨hm, ha, hpl⟩
              · simp [ha, hm, hpl]
              · simp [ha, hm, hpl]
        simp only [if_pos hxc, hd, if_true, Option.map_some]
        simp [hpx, hxrel, hany, hd, hmain]
      · simp only [Bool.not_eq_true] at hd
        simp [hxc, hd]
    · have hany : (children.any (fun cc => x == rel ++ [objName cc])) =
          false := by
        apply List.any_eq_false.mpr
        intro c hc
        simp only [beq_iff_eq]
        intro h
        exact hxc ((childPathsOf_mem hwfc x).mpr ⟨c, hc, h⟩)
      by_cases hxr : x = rel
      · subst hxr
        simp [hxc, hpx, hA2rel]
      · have hA2x := hA2off x hpx hxr
        rw [if_neg hxc] at hA2x
        simp [hxc, hpx, hxr, hany, hA2x]

theorem decideDir_shaped (ignore : RelPath → Bool) (fs : DestFS) (m : Matcher)
    {tree : List FSObj} (isRoot : Bool) {rel : RelPath} {nm : String}
    {children : List FSObj} {A : RelPath → Action} {p : Plan}
    (hobj : objAt? tree rel = some (.dir nm children))
    (hwfc : wfForest children = true)
    (hdom : planDom ignore tree rel = true)
    (hroot : isRoot = true ↔ rel = [])
    (hchild : ∀ c ∈ children, planDom ignore tree (rel ++ [objName c]) = true →
      A (rel ++ [objName c]) =
        if objIsDir c then ownActB ignore fs m tree (rel ++ [objName c])
        else Action.NONE)
    (hshape : Shaped tree (planDom ignore tree) A p) :
    ∃ A', Shaped tree (planDom ignore tree) A'
        (decideDir fs m isRoot rel (childPathsOf rel children) p) ∧
      ∀ x, x ∉ parentsOf rel → A' x =
        (if x = rel then
          (if isRoot then Action.EXISTS else ownActB ignore fs m tree rel)
        else if children.any (fun c => x == rel ++ [objName c]) &&
            planDom ignore tree x then
          finalActB ignore fs m tree x
        else A x) := by
  have hnd := wfForest_names hwfc
  have hknodup : (childPathsOf rel children).Nodup := childPathsOf_nodup hwfc
  have hrelcps : rel ∉ childPathsOf rel children := by
    intro h
    rcases (childPathsOf_mem hwfc rel).mp h with ⟨c, _, hcc⟩
    exact self_concat_ne rel (objName c) hcc.symm
  have hfind : p.find? rel = some (baseNode tree rel (A rel)) := by
    rw [hshape rel]
    simp [hdom]
  have hplan1 : Shaped tree (planDom ignore tree)
      (fun x => if x ∈ childPathsOf rel children then
        (if failedByB fs x then Action.FAIL else A x) else A x)
      (firstPass fs (childPathsOf rel children) p).1 := by
    intro x
    unfold firstPass
    rw [firstPass_aux_find? fs _ p false x hknodup]
    by_cases hx : x ∈ childPathsOf rel children
    · rw [if_pos hx, hshape x]
      by_cases hd : planDom ignore tree x = true
      · simp [hd, hx, failNodeUpd_base]
      · simp only [Bool.not_eq_true] at hd
        simp [hd, hx]
    · rw [if_neg hx, hshape x]
      simp [hx]
  have hflag : (firstPass fs (childPathsOf rel children) p).2 =
      planChildRenameB ignore tree rel :=
    firstPass_flag_eq ignore fs hobj hwfc hdom hshape
  cases isRoot with
  | true =>
    have hsh2 := Shaped_setAction hplan1 rel Action.EXISTS
    have hfind2 : ((firstPass fs (childPathsOf rel children) p).1.setAction rel
        Action.EXISTS).find? rel = some (baseNode tree rel Action.EXISTS) := by
      rw [hsh2 rel]
      simp [hdom]
    have hth := thirdPass_shaped ignore fs m true Action.LINK [Action.NONE]
      hobj hwfc hroot hchild hsh2 (by simp [hrelcps])
      (fun x hx hxr => by simp [hxr]) (Or.inl ⟨rfl, rfl, by simp⟩)
    have heq : decideDir fs m true rel (childPathsOf rel children) p =
        markImmediateChildren (childPathsOf rel children) Action.LINK
          [Action.NONE]
          ((firstPass fs (childPathsOf rel children) p).1.setAction rel
            Action.EXISTS) := by
      simp [decideDir, hfind, hfind2, baseNode]
    rw [heq]
    exact hth
  | false =>
    by_cases hex : fs.existsAt (destOfPath rel) = true
    · have hown : ownActB ignore fs m tree rel = Action.EXISTS := by
        simp [ownActB, hex]
      rcases Shaped_set_then_ancestors hplan1 rel Action.EXISTS Action.EXISTS
        Action.EXISTS with ⟨A2, hsh2, hoff⟩
      have hA2rel : A2 rel = Action.EXISTS := by
        rw [hoff rel (self_not_mem_parentsOf rel)]
        simp
      have hfind2 : (mark_all_ancestors rel Action.EXISTS Action.EXISTS
          ((firstPass fs (childPathsOf rel children) p).1.setAction rel
            Action.EXISTS)).find? rel =
          some (baseNode tree rel Action.EXISTS) := by
        rw [hsh2 rel]
        simp [hdom, hA2rel]
      have hth := thirdPass_shaped ignore fs m false Action.LINK [Action.NONE]
        hobj hwfc hroot hchild hsh2 (by simp [hA2rel, hown])
        (fun x hx hxr => by rw [hoff x hx]; simp [hxr])
        (Or.inl ⟨rfl, rfl, by simp [hown]⟩)
      have heq : decideDir fs m false rel (childPathsOf rel children) p =
          markImmediateChildren (childPathsOf rel children) Action.LINK
            [Action.NONE]
            (mark_all_ancestors rel Action.EXISTS Action.EXISTS
              ((firstPass fs (childPathsOf rel children) p).1.setAction rel
                Action.EXISTS)) := by
        simp [decideDir, hfind, hfind2, baseNode, hex]
      rw [heq]
      exact hth
    · by_cases hrn : planChildRenameB ignore tree rel = true
      · have hown : ownActB ignore fs m tree rel = Action.CREATE := by
          simp [ownActB, hex, hrn]
        rcases Shaped_set_then_ancestors hplan1 rel Action.CREATE Action.CREATE
          Action.EXISTS with ⟨A2, hsh2, hoff⟩
        have hA2rel : A2 rel = Action.CREATE := by
          rw [hoff rel (self_not_mem_parentsOf rel)]
          simp
        have hfind2 : (mark_all_ancestors rel Action.CREATE Action.EXISTS
            ((firstPass fs (childPathsOf rel children) p).1.setAction rel
              Action.CREATE)).find? rel =
            some (baseNode tree rel Action.CREATE) := by
          rw [hsh2 rel]
          simp [hdom, hA2rel]
        have hth := thirdPass_shaped ignore fs m false Action.LINK
          [Action.NONE] hobj hwfc hroot hchild hsh2 (by simp [hA2rel, hown])
          (fun x hx hxr => by rw [hoff x hx]; simp [hxr])
          (Or.inl ⟨rfl, rfl, by simp [hown]⟩)
        have heq : decideDir fs m false rel (childPathsOf rel children) p =
            markImmediateChildren (childPathsOf rel children) Action.LINK
              [Action.NONE]
              (mark_all_ancestors rel Action.CREATE Action.EXISTS
                ((firstPass fs (childPathsOf rel children) p).1.setAction rel
                  Action.CREATE)) := by
          simp [decideDir, hfind, hfind2, baseNode, hex, hflag, hrn]
        rw [heq]
        exact hth
      · by_cases hmc : matchesAlwaysCreateAtExactDepth m (destOfPath rel) = true
        · have hown : ownActB ignore fs m tree rel = Action.CREATE := by
            simp [ownActB, hex, hrn, hmc]
          rcases Shaped_set_then_ancestors hplan1 rel Action.CREATE
            Action.CREATE Action.EXISTS with ⟨A2, hsh2, hoff⟩
          have hA2rel : A2 rel = Action.CREATE := by
            rw [hoff rel (self_not_mem_parentsOf rel)]
            simp
          have hfind2 : (mark_all_ancestors rel Action.CREATE Action.EXISTS
              ((firstPass fs (childPathsOf rel children) p).1.setAction rel
                Action.CREATE)).find? rel =
              some (baseNode tree rel Action.CREATE) := by
            rw [hsh2 rel]
            simp [hdom, hA2rel]
          have hth := thirdPass_shaped ignore fs m false Action.LINK
            [Action.NONE] hobj hwfc hroot hchild hsh2 (by simp [hA2rel, hown])
            (fun x hx hxr => by rw [hoff x hx]; simp [hxr])
            (Or.inl ⟨rfl, rfl, by simp [hown]⟩)
          have heq : decideDir fs m false rel (childPathsOf rel children) p =
              markImmediateChildren (childPathsOf rel children) Action.LINK
                [Action.NONE]
                (mark_all_ancestors rel Action.CREATE Action.EXISTS
                  ((firstPass fs (childPathsOf rel children) p).1.setAction rel
                    Action.CREATE)) := by
            simp [decideDir, hfind, hfind2, baseNode, hex, hflag, hrn, hmc]
          rw [heq]
          exact hth
        · have hown : ownActB ignore fs m tree rel = Action.LINK := by
            simp [ownActB, hex, hrn, hmc]
          have hsh2 := Shaped_setAction hplan1 rel Action.LINK
          have hfind2 : ((firstPass fs
              (childPathsOf rel children) p).1.setAction rel
              Action.LINK).find? rel =
              some (baseNode tree rel Action.LINK) := by
            rw [hsh2 rel]
            simp [hdom]
          have hth := thirdPass_shaped ignore fs m false Action.SKIP
            [Action.NONE, Action.LINK] hobj hwfc hroot hchild hsh2
            (by simp [hrelcps, hown]) (fun x hx hxr => by simp [hxr])
            (Or.inr ⟨rfl, rfl, by simp [hown]⟩)
          have heq : decideDir fs m false rel (childPathsOf rel children) p =
              markImmediateChildren (childPathsOf rel children) Action.SKIP
                [Action.NONE, Action.LINK]
                ((firstPass fs (childPathsOf rel children) p).1.setAction rel
                  Action.LINK) := by
            simp [decideDir, hfind, hfind2, baseNode, hex, hflag, hrn, hmc]
          rw [heq]
          exact hth

theorem parentsOf_length_lt {x q : RelPath} (h : x ∈ parentsOf q) :
    x.length < q.length := by
  rcases parentsOf_strict h with ⟨s, hs, hqs⟩
  have hpos : 0 < s.length := List.length_pos.mpr hs
  rw [hqs]
  simp only [List.length_append]
  omega

theorem append_not_mem_parentsOf (rel s : RelPath) (hs : s ≠ []) :
    rel ++ s ∉ parentsOf rel := by
  intro h
  have := parentsOf_length_lt h
  simp only [List.length_append] at this
  omega

theorem parentsOf_concat (q : RelPath) (n : String) :
    parentsOf (q ++ [n]) = q :: parentsOf q := by
  unfold parentsOf
  rw [List.length_append]
  simp only [List.length_cons, List.length_nil, Nat.zero_add]
  rw [List.range_succ_eq_map, List.map_cons, List.map_map]
  congr 1
  · simp [List.take_left]
  · apply List.map_congr_left
    intro i hi
    simp only [Function.comp]
    have hle : q.length + 1 - 1 - (i + 1) ≤ q.length := by omega
    rw [List.take_append_of_le_length hle]
    congr 1
    omega

theorem append_cons_ne_of_head_ne {rel : RelPath} {a b : String}
    {s t : RelPath} (hne : a ≠ b) : rel ++ a :: s ≠ rel ++ b :: t := by
  intro h
  have h2 := List.append_cancel_left h
  injection h2 with h3 _
  exact hne h3

theorem inPlanGo_head_mem {ignore : RelPath → Bool} {cs : List FSObj}
    {base : RelPath} {n : String} {t : RelPath}
    (h : inPlanGo ignore cs base (n :: t) = true) :
    ∃ c ∈ cs, objName c = n := by
  cases hf : List.find? (fun o => objName o == n) cs with
  | none => simp [inPlanGo, hf] at h
  | some o =>
    refine ⟨o, List.mem_of_find?_eq_some hf, ?_⟩
    have := List.find?_some hf
    simpa using this

theorem planDom_append_head (ignore : RelPath → Bool) {tree : List FSObj}
    {rel : RelPath} {nm : String} {cs : List FSObj} {n : String} {t : RelPath}
    (hobj : objAt? tree rel = some (.dir nm cs))
    (hdomrel : planDom ignore tree rel = true)
    (hdom : planDom ignore tree (rel ++ n :: t) = true) :
    ∃ c ∈ cs, objName c = n := by
  have hne : (rel ++ n :: t).isEmpty = false := by
    cases rel <;> simp
  have hinB : inPlanB ignore tree (rel ++ n :: t) = true := by
    simpa [planDom, hne] using hdom
  cases rel with
  | nil =>
    have h' : FSObj.dir "" tree = FSObj.dir nm cs := by
      have h2 : some (FSObj.dir "" tree) = some (FSObj.dir nm cs) := hobj
      injection h2
    have htc : tree = cs := by injection h'
    subst htc
    exact inPlanGo_head_mem (by simpa [inPlanB] using hinB)
  | cons r rt =>
    have hinrel : inPlanGo ignore tree [] (r :: rt) = true := by
      simpa [planDom, inPlanB] using hdomrel
    have happ := inPlanGo_append ignore (r :: rt) tree [] (n :: t) nm cs
      (by simp) hinrel hobj
    rw [show ((r :: rt) ++ n :: t) = ((r :: rt) ++ n :: t) from rfl] at hinB
    have : inPlanGo ignore cs ([] ++ r :: rt) (n :: t) = true := by
      rw [← happ]
      simpa [inPlanB] using hinB
    exact inPlanGo_head_mem this

mutual

theorem installWalkObj_spec (ignore : RelPath → Bool) (fs : DestFS)
    (m : Matcher) (tree : List FSObj) (c : FSObj) (rel : RelPath)
    (A : RelPath → Action) (p : Plan) (hwf : wfForest tree = true)
    (hobj : objAt? tree rel = some c) (hrelne : rel ≠ [])
    (hinit : ∀ y, planDom ignore tree y = true →
      (∃ s, s ≠ [] ∧ y = rel ++ s) → A y = Action.NONE)
    (hshape : Shaped tree (planDom ignore tree) A p) :
    ∃ A', Shaped tree (planDom ignore tree) A'
        (installWalkObj fs m c rel p) ∧
      ((∀ x, planDom ignore tree x = true → (∀ s, x ≠ rel ++ s) →
        x ∉ parentsOf rel → A' x = A x) ∧
      (planDom ignore tree rel = true →
        A' rel = (if objIsDir c then ownActB ignore fs m tree rel
          else A rel)) ∧
      (∀ y, planDom ignore tree y = true →
        (∃ s, s ≠ [] ∧ y = rel ++ s) →
        A' y = finalActB ignore fs m tree y)) := by
  cases c with
  | file fn =>
    refine ⟨A, by simpa [installWalkObj] using hshape, fun x _ _ _ => rfl,
      fun _ => by simp [objIsDir], ?_⟩
    intro y hdy hys
    rcases hys with ⟨s, hs, rfl⟩
    rw [planDom_under_file ignore hobj s hs] at hdy
    exact absurd hdy (by simp)
  | dir dn cs =>
    have hwfc : wfForest cs = true := wfForest_objAt? hwf hobj
    have hndcs := wfForest_names hwfc
    obtain ⟨A1, hsh1, hpres1, hchild1, hdesc1⟩ :=
      installWalkDirs_spec ignore fs m tree cs rel A p hwf
        (fun c' hc' => objAt?_child hobj hndcs hc')
        (fun c' hc' => wfName_of_mem hwfc hc') hndcs
        (by
          intro c' hc' y hdy hys
          rcases hys with ⟨s, hs, rfl⟩
          exact hinit _ hdy ⟨objName c' :: s, by simp, by simp⟩)
        hshape
    have hpresA1 : ∀ x, planDom ignore tree x = true →
        (∀ s, x ≠ rel ++ s) → x ∉ parentsOf rel → A1 x = A x := by
      intro x hdx hnsub hnpar
      apply hpres1 x hdx
      · intro c' hc' s h
        exact hnsub (objName c' :: s) (by simpa using h)
      · intro c' hc'
        rw [parentsOf_concat]
        intro hmem
        rcases List.mem_cons.mp hmem with h | h
        · exact hnsub [] (by simpa using h)
        · exact hnpar h
    simp only [installWalkObj]
    by_cases hdomrel : planDom ignore tree rel = true
    · have hchildD : ∀ c' ∈ cs,
          planDom ignore tree (rel ++ [objName c']) = true →
          A1 (rel ++ [objName c']) =
            if objIsDir c' then
              ownActB ignore fs m tree (rel ++ [objName c'])
            else Action.NONE := by
        intro c' hc' hd'
        rw [hchild1 c' hc' hd']
        by_cases hdc : objIsDir c' = true
        · simp [hdc]
        · have hdcf : objIsDir c' = false := by simpa using hdc
          simp only [hdcf, Bool.false_eq_true, if_false]
          exact hinit _ hd' ⟨[objName c'], by simp, rfl⟩
      have hrootiff : (false = true ↔ rel = []) := by
        constructor
        · intro h
          exact absurd h (by simp)
        · intro h
          exact absurd h hrelne
      obtain ⟨A2, hsh2, hform⟩ := decideDir_shaped ignore fs m false hobj
        hwfc hdomrel hrootiff hchildD hsh1
      refine ⟨A2, hsh2, ?_, ?_, ?_⟩
      · intro x hdx hnsub hnpar
        rw [hform x hnpar]
        have hxrel : x ≠ rel := fun h => hnsub [] (by simpa using h)
        rw [if_neg hxrel]
        have hany : (cs.any (fun c' => x == rel ++ [objName c'])) = false := by
          apply List.any_eq_false.mpr
          intro c' _
          simpa using hnsub [objName c']
        rw [if_neg (by simp [hany])]
        exact hpresA1 x hdx hnsub hnpar
      · intro _
        rw [hform rel (self_not_mem_parentsOf rel)]
        simp [objIsDir]
      · intro y hdy hys
        rcases hys with ⟨s, hs, rfl⟩
        have hynp : rel ++ s ∉ parentsOf rel := append_not_mem_parentsOf rel s hs
        rw [hform _ hynp]
        have hyrel : rel ++ s ≠ rel := by
          intro h
          have := congrArg List.length h
          simp only [List.length_append] at this
          exact hs (List.length_eq_zero.mp (by omega))
        rw [if_neg hyrel]
        cases s with
        | nil => exact absurd rfl hs
        | cons n t =>
          obtain ⟨c', hc', hnc'⟩ := planDom_append_head ignore hobj hdomrel hdy
          cases t with
          | nil =>
            have hany : (cs.any
                (fun cc => rel ++ [n] == rel ++ [objName cc])) = true :=
              List.any_eq_true.mpr ⟨c', hc', by simp [hnc']⟩
            simp [hany, hdy]
          | cons b u =>
            have hanyf : (cs.any
                (fun cc => rel ++ n :: b :: u == rel ++ [objName cc])) =
                false := by
              apply List.any_eq_false.mpr
              intro cc _
              simp only [beq_iff_eq]
              intro heq
              have h2 := List.append_cancel_left heq
              simp at h2
            have hA1y := hdesc1 c' hc' (rel ++ n :: b :: u) hdy
              ⟨b :: u, by simp, by rw [hnc']; simp⟩
            simp [hanyf, hA1y]
    · have hfindnone : (installWalkDirs fs m cs rel p).find? rel = none := by
        rw [hsh1 rel]
        simp [hdomrel]
      have heq : decideDir fs m false rel (childPathsOf rel cs)
          (installWalkDirs fs m cs rel p) = installWalkDirs fs m cs rel p := by
        simp [decideDir, hfindnone]
      rw [heq]
      refine ⟨A1, hsh1, hpresA1, fun h => absurd h hdomrel, ?_⟩
      intro y hdy hys
      rcases hys with ⟨s, hs, rfl⟩
      have hdf : planDom ignore tree rel = false := by
        simpa using hdomrel
      rw [planDom_mono_false ignore hdf s] at hdy
      exact absurd hdy (by simp)

theorem installWalkDirs_spec (ignore : RelPath → Bool) (fs : DestFS)
    (m : Matcher) (tree : List FSObj) (objs : List FSObj) (rel : RelPath)
    (A : RelPath → Action) (p : Plan) (hwf : wfForest tree = true)
    (hobjs : ∀ c ∈ objs, objAt? tree (rel ++ [objName c]) = some c)
    (hwfn : ∀ c ∈ objs, wfName (objName c) = true)
    (hnd : (objs.map objName).Nodup)
    (hinit : ∀ c ∈ objs, ∀ y, planDom ignore tree y = true →
      (∃ s, s ≠ [] ∧ y = (rel ++ [objName c]) ++ s) → A y = Action.NONE)
    (hshape : Shaped tree (planDom ignore tree) A p) :
    ∃ A', Shaped tree (planDom ignore tree) A'
        (installWalkDirs fs m objs rel p) ∧
      ((∀ x, planDom ignore tree x = true →
        (∀ c ∈ objs, ∀ s, x ≠ (rel ++ [objName c]) ++ s) →
        (∀ c ∈ objs, x ∉ parentsOf (rel ++ [objName c])) → A' x = A x) ∧
      (∀ c ∈ objs, planDom ignore tree (rel ++ [objName c]) = true →
        A' (rel ++ [objName c]) =
          (if objIsDir c then ownActB ignore fs m tree (rel ++ [objName c])
           else A (rel ++ [objName c]))) ∧
      (∀ c ∈ objs, ∀ y, planDom ignore tree y = true →
        (∃ s, s ≠ [] ∧ y = (rel ++ [objName c]) ++ s) →
        A' y = finalActB ignore fs m tree y)) := by
  cases objs with
  | nil =>
    refine ⟨A, by simpa [installWalkDirs] using hshape,
      fun x _ _ _ => rfl, ?_, ?_⟩
    · intro c hc
      exact absurd hc (List.not_mem_nil c)
    · intro c hc
      exact absurd hc (List.not_mem_nil c)
  | cons o rest =>
    have hnameo : ∀ c' ∈ rest, objName c' ≠ objName o := by
      intro c' hc' h
      have h1 : (objName o :: rest.map objName).Nodup := by simpa using hnd
      exact (List.nodup_cons.mp h1).1 (List.mem_map.mpr ⟨c', hc', h⟩)
    have hndrest : (rest.map objName).Nodup := by
      have h1 : (objName o :: rest.map objName).Nodup := by simpa using hnd
      exact (List.nodup_cons.mp h1).2
    have hpc : pathChild rel (objName o) = rel ++ [objName o] :=
      pathChild_of_wf rel (hwfn o (List.mem_cons_self o rest))
    obtain ⟨A1, hsh1, hpres1, hown1, hdesc1⟩ :=
      installWalkObj_spec ignore fs m tree o (rel ++ [objName o]) A p hwf
        (hobjs o (List.mem_cons_self o rest)) (by simp)
        (hinit o (List.mem_cons_self o rest)) hshape
    obtain ⟨A2, hsh2, hpres2, hchild2, hdesc2⟩ :=
      installWalkDirs_spec ignore fs m tree rest rel A1
        (installWalkObj fs m o (rel ++ [objName o]) p) hwf
        (fun c hc => hobjs c (List.mem_cons_of_mem o hc))
        (fun c hc => hwfn c (List.mem_cons_of_mem o hc)) hndrest
        (by
          intro c hc y hdy hys
          rcases hys with ⟨s, hs, rfl⟩
          rw [hpres1 _ hdy ?nsub ?npar]
          · exact hinit c (List.mem_cons_of_mem o hc) _ hdy ⟨s, hs, rfl⟩
          case nsub =>
            intro s' h
            have h2 : rel ++ objName c :: s = rel ++ objName o :: s' := by
              simpa using h
            exact append_cons_ne_of_head_ne (hnameo c hc) h2
          case npar =>
            intro hmem
            have hlt := parentsOf_length_lt hmem
            have hpos : 0 < s.length := List.length_pos.mpr hs
            simp only [List.length_append, List.length_cons,
              List.length_nil] at hlt
            omega)
        hsh1
    have heq : installWalkDirs fs m (o :: rest) rel p =
        installWalkDirs fs m rest rel
          (installWalkObj fs m o (rel ++ [objName o]) p) := by
      simp only [installWalkDirs]
      rw [hpc]
    rw [heq]
    refine ⟨A2, hsh2, ?_, ?_, ?_⟩
    · intro x hdx hnsub hnpar
      rw [hpres2 x hdx
        (fun c hc s h => hnsub c (List.mem_cons_of_mem o hc) s h)
        (fun c hc => hnpar c (List.mem_cons_of_mem o hc))]
      exact hpres1 x hdx
        (fun s h => hnsub o (List.mem_cons_self o rest) s h)
        (hnpar o (List.mem_cons_self o rest))
    · intro c hc hdc
      rcases List.mem_cons.mp hc with hco | hc'
      · subst hco
        have hx1 : A2 (rel ++ [objName c]) = A1 (rel ++ [objName c]) := by
          apply hpres2 _ hdc
          · intro c' hc' s h
            have h2 : rel ++ objName c :: [] = rel ++ objName c' :: s := by
              simpa using h
            exact append_cons_ne_of_head_ne
              (fun hh => hnameo c' hc' hh.symm) h2
          · intro c' hc' hmem
            have hlt := parentsOf_length_lt hmem
            simp only [List.length_append, List.length_cons,
              List.length_nil] at hlt
            omega
        rw [hx1]
        exact hown1 hdc
      · rw [hchild2 c hc' hdc]
        by_cases hdcir : objIsDir c = true
        · simp [hdcir]
        · have hdcf : objIsDir c = false := by simpa using hdcir
          simp only [hdcf, Bool.false_eq_true, if_false]
          apply hpres1 _ hdc
          · intro s h
            have h2 : rel ++ objName c :: [] = rel ++ objName o :: s := by
              simpa using h
            exact append_cons_ne_of_head_ne (hnameo c hc') h2
          · intro hmem
            have hlt := parentsOf_length_lt hmem
            simp only [List.length_append, List.length_cons,
              List.length_nil] at hlt
            omega
    · intro c hc y hdy hys
      rcases List.mem_cons.mp hc with hco | hc'
      · subst hco
        rcases hys with ⟨s, hs, rfl⟩
        have hx1 : A2 ((rel ++ [objName c]) ++ s) =
            A1 ((rel ++ [objName c]) ++ s) := by
          apply hpres2 _ hdy
          · intro c' hc' s' h
            have h2 : rel ++ objName c :: s = rel ++ objName c' :: s' := by
              simpa using h
            exact append_cons_ne_of_head_ne
              (fun hh => hnameo c' hc' hh.symm) h2
          · intro c' hc' hmem
            have hlt := parentsOf_length_lt hmem
            have hpos : 0 < s.length := List.length_pos.mpr hs
            simp only [List.length_append, List.length_cons,
              List.length_nil] at hlt
            omega
        rw [hx1]
        exact hdesc1 _ hdy ⟨s, hs, rfl⟩
      · exact hdesc2 c hc' y hdy hys

end

theorem plan_install_spec (ignore : RelPath → Bool) (fs : DestFS) (m : Matcher)
    (tree : List FSObj) (hwf : wfTree tree = true)
    (hroot : ignore [] = false) : ∀ x,
    (plan_install ignore fs m tree).find? x =
      if x ≠ [] ∧ planDom ignore tree x = true then
        some (baseNode tree x (finalActB ignore fs m tree x))
      else none := by
  have hwff : wfForest tree = true := hwf
  have hndt := wfForest_names hwff
  have hobjroot : objAt? tree [] = some (.dir "" tree) := rfl
  have hsh0 := plan_install_paths_spec ignore tree hwf hroot
  obtain ⟨A1, hsh1, hpres1, hchild1, hdesc1⟩ :=
    installWalkDirs_spec ignore fs m tree tree [] _ _ hwff
      (fun c hc => objAt?_child hobjroot hndt hc)
      (fun c hc => wfName_of_mem hwff hc) hndt
      (by
        intro c hc y hdy hys
        rcases hys with ⟨s, hs, rfl⟩
        simp)
      hsh0
  have hchildD : ∀ c ∈ tree, planDom ignore tree ([] ++ [objName c]) = true →
      A1 ([] ++ [objName c]) =
        if objIsDir c then ownActB ignore fs m tree ([] ++ [objName c])
        else Action.NONE := by
    intro c hc hd
    rw [hchild1 c hc hd]
    by_cases hdc : objIsDir c = true
    · simp [hdc]
    · have hdcf : objIsDir c = false := by simpa using hdc
      simp [hdcf]
  obtain ⟨A2, hsh2, hform⟩ := decideDir_shaped ignore fs m true hobjroot hwff
    (by simp [planDom]) (by simp) hchildD hsh1
  intro x
  unfold plan_install
  by_cases hx : x = []
  · subst hx
    rw [Plan.find?_eraseKey_self]
    simp
  · rw [Plan.find?_eraseKey_other _ _ _ hx]
    rw [hsh2 x]
    by_cases hd : planDom ignore tree x = true
    · have hxnp : x ∉ parentsOf ([] : RelPath) := by
        simp [parentsOf]
      have hA2 : A2 x = finalActB ignore fs m tree x := by
        rw [hform x hxnp]
        rw [if_neg hx]
        cases x with
        | nil => exact absurd rfl hx
        | cons n t =>
          have hd' : planDom ignore tree ([] ++ n :: t) = true := by
            simpa using hd
          obtain ⟨c, hc, hnc⟩ := planDom_append_head ignore hobjroot
            (by simp [planDom]) hd'
          cases t with
          | nil =>
            have hany : (tree.any
                (fun cc => [n] == [] ++ [objName cc])) = true :=
              List.any_eq_true.mpr ⟨c, hc, by simp [hnc]⟩
            simp [hany, hd]
            intro hall
            exact absurd hnc.symm (hall c hc)
          | cons b u =>
            have hanyf : (tree.any
                (fun cc => n :: b :: u == [] ++ [objName cc])) = false := by
              apply List.any_eq_false.mpr
              intro cc _
              simp
            have hA1y := hdesc1 c hc (n :: b :: u) hd
              ⟨b :: u, by simp, by rw [hnc]; simp⟩
            simp [hanyf, hA1y]
      simp [hd, hx, hA2]
    · have hdf : planDom ignore tree x = false := by simpa using hd
      simp [hdf]

theorem planDom_prefix (ignore : RelPath → Bool) {tree : List FSObj}
    {p q : RelPath} (h : planDom ignore tree (p ++ q) = true) :
    planDom ignore tree p = true := by
  cases hv : planDom ignore tree p with
  | true => rfl
  | false =>
    rw [planDom_mono_false ignore hv q] at h
    exact absurd h (by simp)

theorem keyInListTree_of_mem {cs : List FSObj} {rel x : RelPath} {c : FSObj}
    (hc : c ∈ cs)
    (h : keyInObjTree c (pathChild rel (objName c)) x = true) :
    keyInListTree cs rel x = true := by
  induction cs with
  | nil => exact absurd hc (List.not_mem_nil c)
  | cons o rest ih =>
    rcases List.mem_cons.mp hc with hco | hc'
    · subst hco
      simp [keyInListTree, h]
    · simp [keyInListTree, ih hc']

mutual

theorem keyInObjTree_under (o : FSObj) (rel x : RelPath)
    (hwo : wfObj o = true) (h : keyInObjTree o rel x = true) :
    ∃ s, x = rel ++ s := by
  cases o with
  | file nm =>
    refine ⟨[], ?_⟩
    have h2 : x = rel := by simpa [keyInObjTree] using h
    simp [h2]
  | dir nm cs =>
    simp only [keyInObjTree, Bool.or_eq_true, beq_iff_eq] at h
    rcases h with h | h
    · exact ⟨[], by simp [h]⟩
    · have hwl : wfObjList cs = true := by
        have := hwo
        simp only [wfObj, Bool.and_eq_true] at this
        exact this.2
      rcases keyInListTree_under cs rel x hwl h with ⟨s, hs, rfl⟩
      exact ⟨s, rfl⟩

theorem keyInListTree_under (objs : List FSObj) (rel x : RelPath)
    (hwl : wfObjList objs = true) (h : keyInListTree objs rel x = true) :
    ∃ s, s ≠ [] ∧ x = rel ++ s := by
  cases objs with
  | nil => simp [keyInListTree] at h
  | cons o rest =>
    have hw1 : wfObj o = true := by
      simp only [wfObjList, Bool.and_eq_true] at hwl
      exact hwl.1
    have hw2 : wfObjList rest = true := by
      simp only [wfObjList, Bool.and_eq_true] at hwl
      exact hwl.2
    simp only [keyInListTree, Bool.or_eq_true] at h
    rcases h with h | h
    · have hpc : pathChild rel (objName o) = rel ++ [objName o] :=
        pathChild_of_wf rel (wfObj_name hw1)
      rw [hpc] at h
      rcases keyInObjTree_under o (rel ++ [objName o]) x hw1 h with ⟨s, rfl⟩
      exact ⟨objName o :: s, by simp, by simp⟩
    · exact keyInListTree_under rest rel x hw2 h

end

theorem keyInListTree_of_dom (ignore : RelPath → Bool) {tree : List FSObj}
    (hwf : wfForest tree = true) :
    ∀ (s rel : RelPath) (nm : String) (cs : List FSObj), s ≠ [] →
      objAt? tree rel = some (.dir nm cs) →
      planDom ignore tree rel = true →
      planDom ignore tree (rel ++ s) = true →
      keyInListTree cs rel (rel ++ s) = true := by
  intro s
  induction s with
  | nil => intro _ _ _ hs _ _ _; exact absurd rfl hs
  | cons n t ih =>
    intro rel nm cs _ hobj hdomrel hdom
    have hwfc : wfForest cs = true := wfForest_objAt? hwf hobj
    have hndcs := wfForest_names hwfc
    obtain ⟨c', hc', hnc'⟩ := planDom_append_head ignore hobj hdomrel hdom
    have hpc : pathChild rel (objName c') = rel ++ [objName c'] :=
      pathChild_of_wf rel (wfName_of_mem hwfc hc')
    have hobj' : objAt? tree (rel ++ [objName c']) = some c' :=
      objAt?_child hobj hndcs hc'
    cases t with
    | nil =>
      apply keyInListTree_of_mem hc'
      rw [hpc]
      cases c' with
      | file fn => simp [keyInObjTree, objName] at hnc' ⊢; simp [hnc']
      | dir dn dcs => simp [keyInObjTree, objName] at hnc' ⊢; simp [hnc']
    | cons b u =>
      cases c' with
      | file fn =>
        exfalso
        simp only [objName] at hnc' hobj'
        subst hnc'
        have hdf := planDom_under_file ignore hobj' (b :: u) (by simp)
        rw [show (rel ++ [fn]) ++ b :: u = rel ++ fn :: b :: u from by simp]
          at hdf
        rw [hdf] at hdom
        exact absurd hdom (by simp)
      | dir dn dcs =>
        simp only [objName] at hnc' hpc hobj'
        subst hnc'
        apply keyInListTree_of_mem hc'
        simp only [objName]
        rw [hpc]
        simp only [keyInObjTree, Bool.or_eq_true]
        right
        have hdom' : planDom ignore tree ((rel ++ [dn]) ++ b :: u) = true := by
          rw [show (rel ++ [dn]) ++ b :: u = rel ++ dn :: b :: u from by simp]
          exact hdom
        have hdomrel' : planDom ignore tree (rel ++ [dn]) = true :=
          planDom_prefix ignore hdom'
        have hrec := ih (rel ++ [dn]) dn dcs (by simp) hobj' hdomrel' hdom'
        rw [show rel ++ dn :: b :: u = (rel ++ [dn]) ++ b :: u from by simp]
        exact hrec

theorem fileKeys_nodup {rel : RelPath} {cs : List FSObj}
    (hwfc : wfForest cs = true) :
    ((cs.filter (fun c => !objIsDir c)).map
      (fun c => pathChild rel (objName c))).Nodup := by
  have h1 := @childPathsOf_nodup rel cs hwfc
  unfold childPathsOf at h1
  rw [List.map_append] at h1
  exact h1.of_append_right

theorem fileKeys_mem {rel : RelPath} {cs : List FSObj}
    (hwfc : wfForest cs = true) (x : RelPath) :
    (x ∈ (cs.filter (fun c => !objIsDir c)).map
      (fun c => pathChild rel (objName c))) ↔
      ∃ c ∈ cs, objIsDir c = false ∧ x = rel ++ [objName c] := by
  constructor
  · intro hx
    rcases List.mem_map.mp hx with ⟨c, hc, rfl⟩
    have hcch : c ∈ cs := List.mem_of_mem_filter hc
    have hcf : objIsDir c = false := by
      have := (List.mem_filter.mp hc).2
      simpa using this
    exact ⟨c, hcch, hcf, pathChild_of_wf _ (wfName_of_mem hwfc hcch)⟩
  · rintro ⟨c, hc, hcf, rfl⟩
    apply List.mem_map.mpr
    exact ⟨c, List.mem_filter.mpr ⟨hc, by simp [hcf]⟩,
      pathChild_of_wf _ (wfName_of_mem hwfc hc)⟩

mutual

theorem uninstallWalkObj_skip (ignore : RelPath → Bool) (fs : DestFS)
    (tree : List FSObj) (c : FSObj) (rel : RelPath) (A : RelPath → Action)
    (p : Plan) (hwf : wfForest tree = true)
    (hobj : objAt? tree rel = some c)
    (hskip : ∀ y, planDom ignore tree y = true →
      (y = rel ∨ ∃ s, s ≠ [] ∧ y = rel ++ s) → isDirAtB tree y = true →
      A y = Action.SKIP)
    (hshape : Shaped tree (planDom ignore tree) A p) :
    uninstallWalkObj fs c rel p = p := by
  cases c with
  | file fn => rfl
  | dir dn cs =>
    have hwfc : wfForest cs = true := wfForest_objAt? hwf hobj
    have hndcs := wfForest_names hwfc
    have h1 : uninstallWalkObj fs (.dir dn cs) rel p =
        uninstallWalkList fs cs rel p := by
      by_cases hdom : planDom ignore tree rel = true
      · have hfind : p.find? rel = some (baseNode tree rel (A rel)) := by
          rw [hshape rel]
          simp [hdom]
        have hArel : A rel = Action.SKIP :=
          hskip rel hdom (Or.inl rfl) (by simp [isDirAtB, hobj, objIsDir])
        simp [uninstallWalkObj, hfind, baseNode, hArel]
      · have hfind : p.find? rel = none := by
          rw [hshape rel]
          simp [hdom]
        simp [uninstallWalkObj, hfind]
    rw [h1]
    exact uninstallWalkList_skip ignore fs tree cs rel A p hwf
      (fun c' hc' => objAt?_child hobj hndcs hc')
      (fun c' hc' => wfName_of_mem hwfc hc')
      (by
        intro c' hc' y hdy hy hdir
        apply hskip y hdy ?_ hdir
        rcases hy with rfl | ⟨s, hs, rfl⟩
        · exact Or.inr ⟨[objName c'], by simp, rfl⟩
        · exact Or.inr ⟨objName c' :: s, by simp, by simp⟩)
      hshape

theorem uninstallWalkList_skip (ignore : RelPath → Bool) (fs : DestFS)
    (tree : List FSObj) (objs : List FSObj) (rel : RelPath)
    (A : RelPath → Action) (p : Plan) (hwf : wfForest tree = true)
    (hobjs : ∀ c ∈ objs, objAt? tree (rel ++ [objName c]) = some c)
    (hwfn : ∀ c ∈ objs, wfName (objName c) = true)
    (hskip : ∀ c ∈ objs, ∀ y, planDom ignore tree y = true →
      (y = rel ++ [objName c] ∨ ∃ s, s ≠ [] ∧ y = (rel ++ [objName c]) ++ s) →
      isDirAtB tree y = true → A y = Action.SKIP)
    (hshape : Shaped tree (planDom ignore tree) A p) :
    uninstallWalkList fs objs rel p = p := by
  cases objs with
  | nil => rfl
  | cons o rest =>
    have hpc : pathChild rel (objName o) = rel ++ [objName o] :=
      pathChild_of_wf rel (hwfn o (List.mem_cons_self o rest))
    have h1 : uninstallWalkObj fs o (pathChild rel (objName o)) p = p := by
      rw [hpc]
      exact uninstallWalkObj_skip ignore fs tree o (rel ++ [objName o]) A p hwf
        (hobjs o (List.mem_cons_self o rest))
        (hskip o (List.mem_cons_self o rest)) hshape
    show uninstallWalkList fs rest rel
      (uninstallWalkObj fs o (pathChild rel (objName o)) p) = p
    rw [h1]
    exact uninstallWalkList_skip ignore fs tree rest rel A p hwf
      (fun c hc => hobjs c (List.mem_cons_of_mem o hc))
      (fun c hc => hwfn c (List.mem_cons_of_mem o hc))
      (fun c hc => hskip c (List.mem_cons_of_mem o hc)) hshape

end

theorem mem_parentsOf_append (rel s : RelPath) (hs : s ≠ []) :
    rel ∈ parentsOf (rel ++ s) := by
  unfold parentsOf
  apply List.mem_map.mpr
  have hpos : 0 < s.length := List.length_pos.mpr hs
  refine ⟨(rel ++ s).length - 1 - rel.length, ?_, ?_⟩
  · apply List.mem_range.mpr
    simp only [List.length_append]
    omega
  · have harith : (rel ++ s).length - 1 -
        ((rel ++ s).length - 1 - rel.length) = rel.length := by
      simp only [List.length_append]
      omega
    rw [harith]
    exact List.take_left rel s

theorem dropLast_append_ne_nil (rel s : RelPath) (hs : s ≠ []) :
    (rel ++ s).dropLast = rel ++ s.dropLast := by
  have hdecomp : s.dropLast ++ [s.getLast hs] = s := List.dropLast_append_getLast hs
  calc (rel ++ s).dropLast
      = ((rel ++ s.dropLast) ++ [s.getLast hs]).dropLast := by
        rw [List.append_assoc, hdecomp]
    _ = rel ++ s.dropLast := by rw [List.dropLast_concat]

theorem blockedB_concat (fs : DestFS) (rel : RelPath) (n : String) :
    blockedB fs (rel ++ [n]) =
      ((ownUnActB fs rel).isSome || blockedB fs rel) := by
  simp [blockedB, parentsOf_concat]

theorem blockedB_false_of {fs : DestFS} {rel : RelPath}
    (hunb : ∀ a ∈ parentsOf rel, (ownUnActB fs a).isSome = false) :
    blockedB fs rel = false := by
  apply List.any_eq_false.mpr
  intro a ha
  simp [hunb a ha]

theorem blockedB_true_of_mem {fs : DestFS} {x a : RelPath}
    (ha : a ∈ parentsOf x) (h : (ownUnActB fs a).isSome = true) :
    blockedB fs x = true :=
  List.any_eq_true.mpr ⟨a, ha, h⟩

theorem planDom_under_file' (ignore : RelPath → Bool) {tree : List FSObj}
    {x : RelPath} {c : FSObj} (hobj : objAt? tree x = some c)
    (hc : objIsDir c = false) (s : RelPath) (hs : s ≠ []) :
    planDom ignore tree (x ++ s) = false := by
  cases c with
  | file fn => exact planDom_under_file ignore hobj s hs
  | dir dn dcs => simp [objIsDir] at hc

mutual

theorem uninstallWalkObj_act (ignore : RelPath → Bool) (fs : DestFS)
    (tree : List FSObj) (c : FSObj) (rel : RelPath) (A : RelPath → Action)
    (p : Plan) (hwf : wfForest tree = true)
    (hobj : objAt? tree rel = some c) (hdirc : objIsDir c = true)
    (hdomrel : planDom ignore tree rel = true)
    (hArel : ¬ A rel = Action.SKIP)
    (hdesc : ∀ y, planDom ignore tree y = true →
      (∃ s, s ≠ [] ∧ y = rel ++ s) → A y = Action.NONE)
    (hunb : ∀ a ∈ parentsOf rel, (ownUnActB fs a).isSome = false)
    (hshape : Shaped tree (planDom ignore tree) A p) :
    ∃ A', Shaped tree (planDom ignore tree) A'
        (uninstallWalkObj fs c rel p) ∧
      ((∀ x, planDom ignore tree x = true → (∀ s, x ≠ rel ++ s) →
        A' x = A x) ∧
      (A' rel = (ownUnActB fs rel).getD (A rel)) ∧
      (∀ y, planDom ignore tree y = true →
        (∃ s, s ≠ [] ∧ y = rel ++ s) →
        A' y = unFinalActB fs tree y)) := by
  cases c with
  | file fn => exact absurd hdirc (by simp [objIsDir])
  | dir dn cs =>
    have hwfc : wfForest cs = true := wfForest_objAt? hwf hobj
    have hndcs := wfForest_names hwfc
    have hinj := List.inj_on_of_nodup_map hndcs
    have hfind : p.find? rel = some (baseNode tree rel (A rel)) := by
      rw [hshape rel]
      simp [hdomrel]
    have hfknd := @fileKeys_nodup rel cs hwfc
    have hdirAtKey : ∀ c' ∈ cs, isDirAtB tree (rel ++ [objName c']) =
        objIsDir c' := by
      intro c' hc'
      simp [isDirAtB, objAt?_child hobj hndcs hc']
    obtain ⟨Af, hshf, hAfrel, hAfout, hAfdir, hAffile, hAfdeep⟩ :
        ∃ Af, Shaped tree (planDom ignore tree) Af
            (uninstallFilePass fs
              ((cs.filter (fun cc => !objIsDir cc)).map
                (fun cc => pathChild rel (objName cc))) p) ∧
          (Af rel = A rel) ∧
          (∀ x, (∀ s, x ≠ rel ++ s) → Af x = A x) ∧
          (∀ c' ∈ cs, objIsDir c' = true →
            Af (rel ++ [objName c']) = A (rel ++ [objName c'])) ∧
          (∀ c' ∈ cs, objIsDir c' = false →
            Af (rel ++ [objName c']) =
              (if fs.isSymlink (destOfPath (rel ++ [objName c'])) then
                Action.UNLINK else A (rel ++ [objName c']))) ∧
          (∀ n b u, Af (rel ++ n :: b :: u) = A (rel ++ n :: b :: u)) := by
      refine ⟨fun x => if x ∈ (cs.filter (fun cc => !objIsDir cc)).map
          (fun cc => pathChild rel (objName cc)) then
          (if fs.isSymlink (destOfPath x) then Action.UNLINK else A x)
        else A x, ?_, ?_, ?_, ?_, ?_, ?_⟩
      · intro x
        rw [uninstallFilePass_find? fs _ p x hfknd]
        by_cases hx : x ∈ (cs.filter (fun cc => !objIsDir cc)).map
            (fun cc => pathChild rel (objName cc))
        · rw [if_pos hx, hshape x]
          by_cases hd : planDom ignore tree x = true
          · simp [hd, hx, unlinkNodeUpd_base]
          · simp only [Bool.not_eq_true] at hd
            simp [hd, hx]
        · rw [if_neg hx, hshape x]
          simp [hx]
      · have hx : rel ∉ (cs.filter (fun cc => !objIsDir cc)).map
            (fun cc => pathChild rel (objName cc)) := by
          intro hmem
          rcases (fileKeys_mem hwfc rel).mp hmem with ⟨cf, _, _, hxe⟩
          exact self_concat_ne rel (objName cf) hxe.symm
        simp [hx]
      · intro x hnsub
        have hx : x ∉ (cs.filter (fun cc => !objIsDir cc)).map
            (fun cc => pathChild rel (objName cc)) := by
          intro hmem
          rcases (fileKeys_mem hwfc x).mp hmem with ⟨cf, _, _, hxe⟩
          exact hnsub [objName cf] hxe
        simp [hx]
      · intro c' hc' hdc
        have hx : rel ++ [objName c'] ∉
            (cs.filter (fun cc => !objIsDir cc)).map
              (fun cc => pathChild rel (objName cc)) := by
          intro hmem
          rcases (fileKeys_mem hwfc _).mp hmem with ⟨cf, hcf, hcff, hxe⟩
          have hnn : objName cf = objName c' := concat_inj_last hxe.symm
          have := hinj hcf hc' hnn
          rw [this] at hcff
          rw [hdc] at hcff
          exact absurd hcff (by simp)
        simp [hx]
      · intro c' hc' hdc
        have hx : rel ++ [objName c'] ∈
            (cs.filter (fun cc => !objIsDir cc)).map
              (fun cc => pathChild rel (objName cc)) :=
          (fileKeys_mem hwfc _).mpr ⟨c', hc', hdc, rfl⟩
        simp [hx]
      · intro n b u
        have hx : rel ++ n :: b :: u ∉
            (cs.filter (fun cc => !objIsDir cc)).map
              (fun cc => pathChild rel (objName cc)) := by
          intro hmem
          rcases (fileKeys_mem hwfc _).mp hmem with ⟨cf, _, _, hxe⟩
          have := List.append_cancel_left hxe
          simp at this
        simp [hx]
    have hpost : ∀ a : Action, ownUnActB fs rel = some a →
        ∃ A', Shaped tree (planDom ignore tree) A'
            (uninstallWalkList fs cs rel
              (markAllDescList Action.SKIP [Action.NONE] cs rel
                ((uninstallFilePass fs
                  ((cs.filter (fun cc => !objIsDir cc)).map
                    (fun cc => pathChild rel (objName cc))) p).setAction rel
                      a))) ∧
          ((∀ x, planDom ignore tree x = true → (∀ s, x ≠ rel ++ s) →
            A' x = A x) ∧
          (A' rel = (ownUnActB fs rel).getD (A rel)) ∧
          (∀ y, planDom ignore tree y = true →
            (∃ s, s ≠ [] ∧ y = rel ++ s) →
            A' y = unFinalActB fs tree y)) := by
      intro a hact
      have hsomeb : (ownUnActB fs rel).isSome = true := by simp [hact]
      have hshs := Shaped_setAction hshf rel a
      obtain ⟨Am, hshm, hAmout, hAmrel, hAmsub⟩ :
          ∃ Am, Shaped tree (planDom ignore tree) Am
              (markAllDescList Action.SKIP [Action.NONE] cs rel
                ((uninstallFilePass fs
                  ((cs.filter (fun cc => !objIsDir cc)).map
                    (fun cc => pathChild rel (objName cc))) p).setAction rel
                      a)) ∧
            (∀ x, (∀ s, x ≠ rel ++ s) → Am x = Af x) ∧
            (Am rel = a) ∧
            (∀ y, planDom ignore tree y = true →
              (∃ s, s ≠ [] ∧ y = rel ++ s) →
              Am y = (if Af y = Action.NONE then Action.SKIP else Af y)) := by
        refine ⟨fun x => if keyInListTree cs rel x then
            (if (if x = rel then a else Af x) = Action.NONE then Action.SKIP
             else (if x = rel then a else Af x))
          else (if x = rel then a else Af x), ?_, ?_, ?_, ?_⟩
        · intro x
          rw [markAllDescList_find? Action.SKIP [Action.NONE] (by simp) cs rel
            _ x]
          simp only [hshs x]
          by_cases hk : keyInListTree cs rel x = true
          · by_cases hd : planDom ignore tree x = true
            · simp [hk, hd, markNodeUpd_base]
            · simp only [Bool.not_eq_true] at hd
              simp [hk, hd]
          · have hkf : keyInListTree cs rel x = false := by simpa using hk
            simp [hkf]
        · intro x hnsub
          have hxrel : x ≠ rel := fun h => hnsub [] (by simpa using h)
          have hk : keyInListTree cs rel x = false := by
            cases hv : keyInListTree cs rel x with
            | false => rfl
            | true =>
              rcases keyInListTree_under cs rel x (wfForest_list hwfc) hv
                with ⟨s, hs, rfl⟩
              exact absurd rfl (hnsub s)
          simp [hk, hxrel]
        · have hk : keyInListTree cs rel rel = false := by
            cases hv : keyInListTree cs rel rel with
            | false => rfl
            | true =>
              rcases keyInListTree_under cs rel rel (wfForest_list hwfc) hv
                with ⟨s, hs, heq⟩
              have := congrArg List.length heq
              simp only [List.length_append] at this
              exact absurd (List.length_eq_zero.mp (by omega)) hs
          simp [hk]
        · intro y hdy hys
          rcases hys with ⟨s, hs, rfl⟩
          have hyrel : rel ++ s ≠ rel := by
            intro h
            have := congrArg List.length h
            simp only [List.length_append] at this
            exact hs (List.length_eq_zero.mp (by omega))
          have hk : keyInListTree cs rel (rel ++ s) = true :=
            keyInListTree_of_dom ignore hwf s rel dn cs hs hobj hdomrel hdy
          simp [hk, hyrel]
      have hskipres : uninstallWalkList fs cs rel
          (markAllDescList Action.SKIP [Action.NONE] cs rel
            ((uninstallFilePass fs
              ((cs.filter (fun cc => !objIsDir cc)).map
                (fun cc => pathChild rel (objName cc))) p).setAction rel a)) =
          (markAllDescList Action.SKIP [Action.NONE] cs rel
            ((uninstallFilePass fs
              ((cs.filter (fun cc => !objIsDir cc)).map
                (fun cc => pathChild rel (objName cc))) p).setAction rel a)) := by
        apply uninstallWalkList_skip ignore fs tree cs rel Am _ hwf
          (fun c' hc' => objAt?_child hobj hndcs hc')
          (fun c' hc' => wfName_of_mem hwfc hc') ?_ hshm
        intro c' hc' y hdy hy hdir
        have hys : ∃ s, s ≠ [] ∧ y = rel ++ s := by
          rcases hy with rfl | ⟨s, hs, rfl⟩
          · exact ⟨[objName c'], by simp, rfl⟩
          · exact ⟨objName c' :: s, by simp, by simp⟩
        rw [hAmsub y hdy hys]
        have hAfy : Af y = Action.NONE := by
          rcases hy with rfl | ⟨s, hs, rfl⟩
          · have hdc : objIsDir c' = true := by
              rw [← hdirAtKey c' hc']
              exact hdir
            rw [hAfdir c' hc' hdc]
            exact hdesc _ hdy ⟨[objName c'], by simp, rfl⟩
          · cases s with
            | nil => exact absurd rfl hs
            | cons b u =>
              rw [show (rel ++ [objName c']) ++ b :: u =
                rel ++ objName c' :: b :: u from by simp]
              rw [hAfdeep]
              rw [show rel ++ objName c' :: b :: u =
                (rel ++ [objName c']) ++ b :: u from by simp]
              exact hdesc _ hdy ⟨objName c' :: b :: u, by simp, by simp⟩
        simp [hAfy]
      rw [hskipres]
      refine ⟨Am, hshm, ?_, ?_, ?_⟩
      · intro x hdx hnsub
        rw [hAmout x hnsub]
        exact hAfout x hnsub
      · rw [hAmrel]
        simp [hact]
      · intro y hdy hys
        rw [hAmsub y hdy hys]
        rcases hys with ⟨s, hs, rfl⟩
        cases s with
        | nil => exact absurd rfl hs
        | cons n t =>
          obtain ⟨c', hc', hnc'⟩ :=
            planDom_append_head ignore hobj hdomrel hdy
          subst hnc'
          cases t with
          | nil =>
            by_cases hdc : objIsDir c' = true
            · have hAfy : Af (rel ++ [objName c']) = Action.NONE := by
                rw [hAfdir c' hc' hdc]
                exact hdesc _ hdy ⟨[objName c'], by simp, rfl⟩
              rw [hAfy]
              have hyd : isDirAtB tree (rel ++ [objName c']) = true := by
                rw [hdirAtKey c' hc']
                exact hdc
              have hbl : blockedB fs (rel ++ [objName c']) = true := by
                rw [blockedB_concat]
                simp [hsomeb]
              simp [unFinalActB, hyd, hbl]
            · have hdcf : objIsDir c' = false := by simpa using hdc
              have hAfy : Af (rel ++ [objName c']) =
                  (if fs.isSymlink (destOfPath (rel ++ [objName c'])) then
                    Action.UNLINK else Action.NONE) := by
                rw [hAffile c' hc' hdcf]
                rw [hdesc _ hdy ⟨[objName c'], by simp, rfl⟩]
              rw [hAfy]
              have hyd : isDirAtB tree (rel ++ [objName c']) = false := by
                rw [hdirAtKey c' hc']
                exact hdcf
              have hbl : blockedB fs rel = false := blockedB_false_of hunb
              by_cases hsl2 : fs.isSymlink
                  (destOfPath (rel ++ [objName c'])) = true
              · simp [unFinalActB, hyd, hsl2, List.dropLast_concat, hbl]
              · have hsl2f : fs.isSymlink
                    (destOfPath (rel ++ [objName c'])) = false := by
                  simpa using hsl2
                simp [unFinalActB, hyd, hsl2f, List.dropLast_concat, hbl,
                  hsomeb]
          | cons b u =>
            have hAfy : Af (rel ++ objName c' :: b :: u) = Action.NONE := by
              rw [hAfdeep]
              exact hdesc _ hdy ⟨objName c' :: b :: u, by simp, rfl⟩
            rw [hAfy]
            by_cases hyd : isDirAtB tree (rel ++ objName c' :: b :: u) = true
            · have hbl : blockedB fs (rel ++ objName c' :: b :: u) = true :=
                blockedB_true_of_mem
                  (mem_parentsOf_append rel (objName c' :: b :: u) (by simp))
                  hsomeb
              simp [unFinalActB, hyd, hbl]
            · have hydf : isDirAtB tree (rel ++ objName c' :: b :: u) =
                  false := by simpa using hyd
              have hne2 : (objName c' :: (b :: u).dropLast :
                  List String) ≠ [] := by simp
              have hbl2 : blockedB fs
                  (rel ++ objName c' :: (b :: u).dropLast) = true :=
                blockedB_true_of_mem (mem_parentsOf_append rel _ hne2) hsomeb
              simp [unFinalActB, hydf, hbl2]
    by_cases hex : fs.existsAt (destOfPath rel) = true
    · by_cases hsl : fs.isSymlink (destOfPath rel) = true
      · have hact : ownUnActB fs rel = some Action.UNLINK := by
          simp [ownUnActB, hex, hsl]
        have heq : uninstallWalkObj fs (.dir dn cs) rel p =
            uninstallWalkList fs cs rel
              (markAllDescList Action.SKIP [Action.NONE] cs rel
                ((uninstallFilePass fs
                  ((cs.filter (fun cc => !objIsDir cc)).map
                    (fun cc => pathChild rel (objName cc))) p).setAction rel
                      Action.UNLINK)) := by
          simp [uninstallWalkObj, hfind, baseNode, hArel, hex, hsl]
        rw [heq]
        exact hpost Action.UNLINK hact
      · have hslf : fs.isSymlink (destOfPath rel) = false := by simpa using hsl
        have hact : ownUnActB fs rel = none := by
          simp [ownUnActB, hex, hslf]
        have heq : uninstallWalkObj fs (.dir dn cs) rel p =
            uninstallWalkList fs cs rel
              (uninstallFilePass fs
                ((cs.filter (fun cc => !objIsDir cc)).map
                  (fun cc => pathChild rel (objName cc))) p) := by
          simp [uninstallWalkObj, hfind, baseNode, hArel, hex, hslf]
        rw [heq]
        obtain ⟨A2, hsh2, hpresL, hdirL, hfileL⟩ :=
          uninstallWalkList_act ignore fs tree cs rel Af _ hwf
            (fun c' hc' => objAt?_child hobj hndcs hc')
            (fun c' hc' => wfName_of_mem hwfc hc')
            hndcs
            (by
              intro c' hc' hdc hdk
              constructor
              · rw [hAfdir c' hc' hdc]
                exact hdesc _ hdk ⟨[objName c'], by simp, rfl⟩
              · intro y hdy hys
                rcases hys with ⟨s, hs, rfl⟩
                cases s with
                | nil => exact absurd rfl hs
                | cons b u =>
                  rw [show (rel ++ [objName c']) ++ b :: u =
                    rel ++ objName c' :: b :: u from by simp]
                  rw [hAfdeep]
                  rw [show rel ++ objName c' :: b :: u =
                    (rel ++ [objName c']) ++ b :: u from by simp]
                  exact hdesc _ hdy ⟨objName c' :: b :: u, by simp, by simp⟩)
            (by
              intro c' hc' a' ha'
              rw [parentsOf_concat] at ha'
              rcases List.mem_cons.mp ha' with rfl | ha2
              · simp [hact]
              · exact hunb a' ha2)
            hshf
        refine ⟨A2, hsh2, ?_, ?_, ?_⟩
        · intro x hdx hnsub
          rw [hpresL x hdx (fun c' hc' s h =>
            hnsub (objName c' :: s) (by simpa using h))]
          exact hAfout x hnsub
        · have hAf2 : A2 rel = Af rel := by
            apply hpresL rel hdomrel
            intro c' hc' s h
            have := congrArg List.length h
            simp only [List.length_append, List.length_cons,
              List.length_nil] at this
            omega
          rw [hAf2, hAfrel]
          simp [hact]
        · intro y hdy hys
          rcases hys with ⟨s, hs, rfl⟩
          cases s with
          | nil => exact absurd rfl hs
          | cons n t =>
            obtain ⟨c', hc', hnc'⟩ :=
              planDom_append_head ignore hobj hdomrel hdy
            subst hnc'
            by_cases hdc : objIsDir c' = true
            · apply hdirL c' hc' hdc _ hdy
              cases t with
              | nil => exact Or.inl rfl
              | cons b u => exact Or.inr ⟨b :: u, by simp, by simp⟩
            · have hdcf : objIsDir c' = false := by simpa using hdc
              cases t with
              | cons b u =>
                exfalso
                have hdf := planDom_under_file' ignore
                  (objAt?_child hobj hndcs hc') hdcf (b :: u) (by simp)
                rw [show (rel ++ [objName c']) ++ b :: u =
                  rel ++ objName c' :: b :: u from by simp] at hdf
                rw [hdf] at hdy
                exact absurd hdy (by simp)
              | nil =>
                have hA2y : A2 (rel ++ [objName c']) =
                    Af (rel ++ [objName c']) :=
                  hfileL c' hc' hdcf _ hdy (Or.inl rfl)
                rw [hA2y]
                have hAfy : Af (rel ++ [objName c']) =
                    (if fs.isSymlink (destOfPath (rel ++ [objName c'])) then
                      Action.UNLINK else Action.NONE) := by
                  rw [hAffile c' hc' hdcf]
                  rw [hdesc _ hdy ⟨[objName c'], by simp, rfl⟩]
                rw [hAfy]
                have hyd : isDirAtB tree (rel ++ [objName c']) = false := by
                  rw [hdirAtKey c' hc']
                  exact hdcf
                have hbl : blockedB fs rel = false := blockedB_false_of hunb
                by_cases hsl2 : fs.isSymlink
                    (destOfPath (rel ++ [objName c'])) = true
                · simp [unFinalActB, hyd, hsl2, List.dropLast_concat, hbl]
                · have hsl2f : fs.isSymlink
                      (destOfPath (rel ++ [objName c'])) = false := by
                    simpa using hsl2
                  simp [unFinalActB, hyd, hsl2f, List.dropLast_concat, hbl,
                    hact]
    · have hexf : fs.existsAt (destOfPath rel) = false := by simpa using hex
      have hact : ownUnActB fs rel = some Action.SKIP := by
        simp [ownUnActB, hexf]
      have heq : uninstallWalkObj fs (.dir dn cs) rel p =
          uninstallWalkList fs cs rel
            (markAllDescList Action.SKIP [Action.NONE] cs rel
              ((uninstallFilePass fs
                ((cs.filter (fun cc => !objIsDir cc)).map
                  (fun cc => pathChild rel (objName cc))) p).setAction rel
                    Action.SKIP)) := by
        simp [uninstallWalkObj, hfind, baseNode, hArel, hexf]
      rw [heq]
      exact hpost Action.SKIP hact

theorem uninstallWalkList_act (ignore : RelPath → Bool) (fs : DestFS)
    (tree : List FSObj) (objs : List FSObj) (rel : RelPath)
    (A : RelPath → Action) (p : Plan) (hwf : wfForest tree = true)
    (hobjs : ∀ c ∈ objs, objAt? tree (rel ++ [objName c]) = some c)
    (hwfn : ∀ c ∈ objs, wfName (objName c) = true)
    (hnd : (objs.map objName).Nodup)
    (hA : ∀ c ∈ objs, objIsDir c = true →
      planDom ignore tree (rel ++ [objName c]) = true →
      A (rel ++ [objName c]) = Action.NONE ∧
      (∀ y, planDom ignore tree y = true →
        (∃ s, s ≠ [] ∧ y = (rel ++ [objName c]) ++ s) → A y = Action.NONE))
    (hunb : ∀ c ∈ objs, ∀ a ∈ parentsOf (rel ++ [objName c]),
      (ownUnActB fs a).isSome = false)
    (hshape : Shaped tree (planDom ignore tree) A p) :
    ∃ A', Shaped tree (planDom ignore tree) A'
        (uninstallWalkList fs objs rel p) ∧
      ((∀ x, planDom ignore tree x = true →
        (∀ c ∈ objs, ∀ s, x ≠ (rel ++ [objName c]) ++ s) → A' x = A x) ∧
      (∀ c ∈ objs, objIsDir c = true → ∀ y,
        planDom ignore tree y = true →
        (y = rel ++ [objName c] ∨
          ∃ s, s ≠ [] ∧ y = (rel ++ [objName c]) ++ s) →
        A' y = unFinalActB fs tree y) ∧
      (∀ c ∈ objs, objIsDir c = false → ∀ y,
        planDom ignore tree y = true →
        (y = rel ++ [objName c] ∨
          ∃ s, s ≠ [] ∧ y = (rel ++ [objName c]) ++ s) →
        A' y = A y)) := by
  cases objs with
  | nil =>
    refine ⟨A, by simpa [uninstallWalkList] using hshape,
      fun x _ _ => rfl, ?_, ?_⟩
    · intro c hc
      exact absurd hc (List.not_mem_nil c)
    · intro c hc
      exact absurd hc (List.not_mem_nil c)
  | cons o rest =>
    have hnameo : ∀ c' ∈ rest, objName c' ≠ objName o := by
      intro c' hc' h
      have h1 : (objName o :: rest.map objName).Nodup := by simpa using hnd
      exact (List.nodup_cons.mp h1).1 (List.mem_map.mpr ⟨c', hc', h⟩)
    have hndrest : (rest.map objName).Nodup := by
      have h1 : (objName o :: rest.map objName).Nodup := by simpa using hnd
      exact (List.nodup_cons.mp h1).2
    have hpc : pathChild rel (objName o) = rel ++ [objName o] :=
      pathChild_of_wf rel (hwfn o (List.mem_cons_self o rest))
    obtain ⟨A1, hsh1, hpres1, hdir1, hfile1⟩ :
        ∃ A1, Shaped tree (planDom ignore tree) A1
            (uninstallWalkObj fs o (rel ++ [objName o]) p) ∧
          ((∀ x, planDom ignore tree x = true →
            (∀ s, x ≠ (rel ++ [objName o]) ++ s) → A1 x = A x) ∧
          (objIsDir o = true → ∀ y, planDom ignore tree y = true →
            (y = rel ++ [objName o] ∨
              ∃ s, s ≠ [] ∧ y = (rel ++ [objName o]) ++ s) →
            A1 y = unFinalActB fs tree y) ∧
          (objIsDir o = false → ∀ y, planDom ignore tree y = true →
            (y = rel ++ [objName o] ∨
              ∃ s, s ≠ [] ∧ y = (rel ++ [objName o]) ++ s) →
            A1 y = A y)) := by
      by_cases hdo : objIsDir o = true
      · by_cases hdk : planDom ignore tree (rel ++ [objName o]) = true
        · obtain ⟨hA1, hA2⟩ := hA o (List.mem_cons_self o rest) hdo hdk
          obtain ⟨A1, hsh1, hpres1, hrel1, hdesc1⟩ :=
            uninstallWalkObj_act ignore fs tree o (rel ++ [objName o]) A p
              hwf (hobjs o (List.mem_cons_self o rest)) hdo hdk
              (by rw [hA1]; simp) hA2
              (hunb o (List.mem_cons_self o rest)) hshape
          refine ⟨A1, hsh1, hpres1, ?_, fun h => absurd hdo (by simp [h])⟩
          intro _ y hdy hy
          rcases hy with rfl | hy2
          · rw [hrel1, hA1]
            have hyd : isDirAtB tree (rel ++ [objName o]) = true := by
              simp [isDirAtB, hobjs o (List.mem_cons_self o rest), hdo]
            have hbl : blockedB fs (rel ++ [objName o]) = false :=
              blockedB_false_of (hunb o (List.mem_cons_self o rest))
            simp [unFinalActB, hyd, hbl]
          · exact hdesc1 y hdy hy2
        · have hskipid : uninstallWalkObj fs o (rel ++ [objName o]) p = p := by
            apply uninstallWalkObj_skip ignore fs tree o (rel ++ [objName o])
              A p hwf (hobjs o (List.mem_cons_self o rest)) ?_ hshape
            intro y hdy hy _
            exfalso
            have hdkf : planDom ignore tree (rel ++ [objName o]) = false := by
              simpa using hdk
            rcases hy with rfl | ⟨s, hs, rfl⟩
            · rw [hdy] at hdkf
              exact absurd hdkf (by simp)
            · rw [planDom_mono_false ignore hdkf s] at hdy
              exact absurd hdy (by simp)
          rw [hskipid]
          refine ⟨A, hshape, fun x _ _ => rfl, ?_,
            fun h => absurd hdo (by simp [h])⟩
          intro _ y hdy hy
          exfalso
          have hdkf : planDom ignore tree (rel ++ [objName o]) = false := by
            simpa using hdk
          rcases hy with rfl | ⟨s, hs, rfl⟩
          · rw [hdy] at hdkf
            exact absurd hdkf (by simp)
          · rw [planDom_mono_false ignore hdkf s] at hdy
            exact absurd hdy (by simp)
      · have hdof : objIsDir o = false := by simpa using hdo
        have hid : uninstallWalkObj fs o (rel ++ [objName o]) p = p := by
          cases o with
          | file fn => rfl
          | dir dn dcs => simp [objIsDir] at hdof
        rw [hid]
        exact ⟨A, hshape, fun x _ _ => rfl,
          fun h => absurd h (by simp [hdof]), fun _ y _ _ => rfl⟩
    obtain ⟨A2, hsh2, hpres2, hdir2, hfile2⟩ :=
      uninstallWalkList_act ignore fs tree rest rel A1
        (uninstallWalkObj fs o (rel ++ [objName o]) p) hwf
        (fun c hc => hobjs c (List.mem_cons_of_mem o hc))
        (fun c hc => hwfn c (List.mem_cons_of_mem o hc)) hndrest
        (by
          intro c hc hdc hdk
          obtain ⟨hv1, hv2⟩ := hA c (List.mem_cons_of_mem o hc) hdc hdk
          constructor
          · rw [← hv1]
            apply hpres1 _ hdk
            intro s h
            have h2 : rel ++ objName c :: [] = rel ++ objName o :: s := by
              simpa using h
            exact append_cons_ne_of_head_ne (hnameo c hc) h2
          · intro y hdy hys
            rcases hys with ⟨s, hs, rfl⟩
            rw [← hv2 _ hdy ⟨s, hs, rfl⟩]
            apply hpres1 _ hdy
            intro s' h
            have h2 : rel ++ objName c :: s = rel ++ objName o :: s' := by
              simpa using h
            exact append_cons_ne_of_head_ne (hnameo c hc) h2)
        (fun c hc => hunb c (List.mem_cons_of_mem o hc))
        hsh1
    have heq : uninstallWalkList fs (o :: rest) rel p =
        uninstallWalkList fs rest rel
          (uninstallWalkObj fs o (rel ++ [objName o]) p) := by
      simp only [uninstallWalkList]
      rw [hpc]
    rw [heq]
    refine ⟨A2, hsh2, ?_, ?_, ?_⟩
    · intro x hdx hnsub
      rw [hpres2 x hdx
        (fun c hc s h => hnsub c (List.mem_cons_of_mem o hc) s h)]
      exact hpres1 x hdx
        (fun s h => hnsub o (List.mem_cons_self o rest) s h)
    · intro c hc hdc y hdy hy
      rcases List.mem_cons.mp hc with hco | hc'
      · subst hco
        have hx1 : A2 y = A1 y := by
          apply hpres2 _ hdy
          intro c' hc' s' h
          rcases hy with rfl | ⟨s, hs, rfl⟩
          · have h2 : rel ++ objName c :: [] = rel ++ objName c' :: s' := by
              simpa using h
            exact append_cons_ne_of_head_ne
              (fun hh => hnameo c' hc' hh.symm) h2
          · have h2 : rel ++ objName c :: s = rel ++ objName c' :: s' := by
              simpa using h
            exact append_cons_ne_of_head_ne
              (fun hh => hnameo c' hc' hh.symm) h2
        rw [hx1]
        exact hdir1 hdc y hdy hy
      · exact hdir2 c hc' hdc y hdy hy
    · intro c hc hdc y hdy hy
      rcases List.mem_cons.mp hc with hco | hc'
      · subst hco
        have hx1 : A2 y = A1 y := by
          apply hpres2 _ hdy
          intro c' hc' s' h
          rcases hy with rfl | ⟨s, hs, rfl⟩
          · have h2 : rel ++ objName c :: [] = rel ++ objName c' :: s' := by
              simpa using h
            exact append_cons_ne_of_head_ne
              (fun hh => hnameo c' hc' hh.symm) h2
          · have h2 : rel ++ objName c :: s = rel ++ objName c' :: s' := by
              simpa using h
            exact append_cons_ne_of_head_ne
              (fun hh => hnameo c' hc' hh.symm) h2
        rw [hx1]
        exact hfile1 hdc y hdy hy
      · rw [hfile2 c hc' hdc y hdy hy]
        rcases hy with rfl | ⟨s, hs, rfl⟩
        · apply hpres1 _ hdy
          intro s' h
          have h2 : rel ++ objName c :: [] = rel ++ objName o :: s' := by
            simpa using h
          exact append_cons_ne_of_head_ne (hnameo c hc') h2
        · apply hpres1 _ hdy
          intro s' h
          have h2 : rel ++ objName c :: s = rel ++ objName o :: s' := by
            simpa using h
          exact append_cons_ne_of_head_ne (hnameo c hc') h2

end

theorem plan_uninstall_spec (ignore : RelPath → Bool) (fs : DestFS)
    (tree : List FSObj) (hwf : wfTree tree = true)
    (hroot : ignore [] = false) : ∀ x,
    (plan_uninstall ignore fs tree).find? x =
      if x ≠ [] ∧ planDom ignore tree x = true then
        some (baseNode tree x (unFinalActB fs tree x))
      else none := by
  have hwff : wfForest tree = true := hwf
  have hsh0 := plan_install_paths_spec ignore tree hwf hroot
  obtain ⟨A1, hsh1, hpres1, hrel1, hdesc1⟩ :=
    uninstallWalkObj_act ignore fs tree (.dir "" tree) [] _ _ hwff rfl
      (by simp [objIsDir]) (by simp [planDom]) (by simp)
      (by
        intro y hdy hys
        rcases hys with ⟨s, hs, rfl⟩
        simp [hs])
      (by
        intro a ha
        simp [parentsOf] at ha)
      hsh0
  intro x
  unfold plan_uninstall
  by_cases hx : x = []
  · subst hx
    rw [Plan.find?_eraseKey_self]
    simp
  · rw [Plan.find?_eraseKey_other _ _ _ hx]
    rw [hsh1 x]
    by_cases hd : planDom ignore tree x = true
    · have hA1 : A1 x = unFinalActB fs tree x :=
        hdesc1 x hd ⟨x, hx, by simp⟩
      simp [hd, hx, hA1]
    · have hdf : planDom ignore tree x = false := by simpa using hd
      simp [hdf]

theorem finalActB_ne_none (ignore : RelPath → Bool) (fs : DestFS) (m : Matcher)
    (tree : List FSObj) (x : RelPath) :
    finalActB ignore fs m tree x ≠ Action.NONE := by
  have hown := ownActB_ne_none ignore fs m tree x
  unfold finalActB
  split_ifs <;> simp [hown]

theorem finalActB_dir_own (ignore : RelPath → Bool) (fs : DestFS)
    (m : Matcher) (tree : List FSObj) (pe : RelPath)
    (h1 : isDirAtB tree pe = true)
    (hnf : finalActB ignore fs m tree pe ≠ Action.FAIL)
    (hns : finalActB ignore fs m tree pe ≠ Action.SKIP) :
    ownActB ignore fs m tree pe = finalActB ignore fs m tree pe := by
  unfold finalActB at hnf hns ⊢
  by_cases hf : failedByB fs pe = true
  · simp [hf] at hnf
  · have hff : failedByB fs pe = false := by simpa using hf
    by_cases hc : ownActB ignore fs m tree pe = Action.LINK ∧
        parentOwnB ignore fs m tree pe = Action.LINK
    · simp [hff, h1, hc] at hns
    · simp [hff, h1, hc]

theorem finalActB_file {ignore : RelPath → Bool} {fs : DestFS} {m : Matcher}
    {tree : List FSObj} {y : RelPath} (hfile : isDirAtB tree y = false) :
    finalActB ignore fs m tree y =
      (if failedByB fs y then Action.FAIL
       else if parentOwnB ignore fs m tree y = Action.LINK then Action.SKIP
       else Action.LINK) := by
  unfold finalActB
  simp [hfile]

theorem parentOwnB_concat (ignore : RelPath → Bool) (fs : DestFS) (m : Matcher)
    (tree : List FSObj) {pe : RelPath} (x : String) (hpe : pe ≠ []) :
    parentOwnB ignore fs m tree (pe ++ [x]) = ownActB ignore fs m tree pe := by
  unfold parentOwnB
  rw [List.dropLast_concat]
  have hne : pe.isEmpty = false := by simpa using hpe
  simp [hne]

/-- C1: the spec claims every `Create`/`Exists` entry of a `plan_install`
plan has all immediate children in `{Link, Fail}` and every `Link` entry has
all immediate children `Skip`.  That holds for file children (and no entry is
ever left `NONE`), but a directory child keeps its own decision, which the
counterexample shows can be `CREATE` under a `LINK` parent. -/
theorem C1_install_child_decisions (ignore : RelPath → Bool) (fs : DestFS)
    (m : Matcher) (tree : List FSObj) (hwf : wfTree tree = true)
    (hig : ignore [] = false) :
    (∀ x n, (plan_install ignore fs m tree).find? x = some n →
      n.action ≠ Action.NONE) ∧
    (∀ pe nE x nx, (plan_install ignore fs m tree).find? pe = some nE →
      (plan_install ignore fs m tree).find? (pe ++ [x]) = some nx →
      nE.is_dir = true → nx.is_dir = false →
      ((nE.action = Action.CREATE ∨ nE.action = Action.EXISTS →
        nx.action = Action.LINK ∨ nx.action = Action.FAIL) ∧
      (nE.action = Action.LINK →
        nx.action = Action.SKIP ∨ nx.action = Action.FAIL))) := by
  have hspec := plan_install_spec ignore fs m tree hwf hig
  constructor
  · intro x n hfind
    rw [hspec x] at hfind
    by_cases hc : x ≠ [] ∧ planDom ignore tree x = true
    · rw [if_pos hc] at hfind
      have hn : n = baseNode tree x (finalActB ignore fs m tree x) := by
        injection hfind with h
        exact h.symm
      rw [hn]
      simp only [baseNode]
      exact finalActB_ne_none ignore fs m tree x
    · rw [if_neg hc] at hfind
      exact absurd hfind (by simp)
  · intro pe nE x nx hfE hfx hdE hdx
    rw [hspec pe] at hfE
    rw [hspec (pe ++ [x])] at hfx
    by_cases hcE : pe ≠ [] ∧ planDom ignore tree pe = true
    case neg =>
      rw [if_neg hcE] at hfE
      exact absurd hfE (by simp)
    by_cases hcx : pe ++ [x] ≠ [] ∧ planDom ignore tree (pe ++ [x]) = true
    case neg =>
      rw [if_neg hcx] at hfx
      exact absurd hfx (by simp)
    rw [if_pos hcE] at hfE
    rw [if_pos hcx] at hfx
    have hnE : nE = baseNode tree pe (finalActB ignore fs m tree pe) := by
      injection hfE with h
      exact h.symm
    have hnx : nx = baseNode tree (pe ++ [x])
        (finalActB ignore fs m tree (pe ++ [x])) := by
      injection hfx with h
      exact h.symm
    subst hnE
    subst hnx
    simp only [baseNode] at hdE hdx ⊢
    have hpar := parentOwnB_concat ignore fs m tree x hcE.1
    rw [finalActB_file hdx, hpar]
    constructor
    · intro hCE
      have hown := finalActB_dir_own ignore fs m tree pe hdE
        (by rcases hCE with h | h <;> simp [h])
        (by rcases hCE with h | h <;> simp [h])
      by_cases hfb : failedByB fs (pe ++ [x]) = true
      · simp [hfb]
      · have hnl : ownActB ignore fs m tree pe ≠ Action.LINK := by
          rw [hown]
          rcases hCE with h | h <;> simp [h]
        have hfbf : failedByB fs (pe ++ [x]) = false := by simpa using hfb
        simp [hfbf, hnl]
    · intro hL
      have hown := finalActB_dir_own ignore fs m tree pe hdE (by simp [hL])
        (by simp [hL])
      by_cases hfb : failedByB fs (pe ++ [x]) = true
      · simp [hfb]
      · have hl2 : ownActB ignore fs m tree pe = Action.LINK := by
          rw [hown, hL]
        have hfbf : failedByB fs (pe ++ [x]) = false := by simpa using hfb
        simp [hfbf, hl2]

theorem C1_witness : ∃ n,
    (plan_install noIgnore emptyDest noMatcher exTreeDeep).find?
      ["a", "b", "dot-x"] = some n ∧ n.action ≠ Action.NONE := by
  refine ⟨_, rfl, ?_⟩
  exact (C1_install_child_decisions noIgnore emptyDest noMatcher exTreeDeep
    (by decide) rfl).1 ["a", "b", "dot-x"] _ rfl

theorem C1_counterexample :
    planActionAt (plan_install noIgnore emptyDest noMatcher exTreeDeep)
      ["a"] = some Action.LINK ∧
    planActionAt (plan_install noIgnore emptyDest noMatcher exTreeDeep)
      ["a", "b"] = some Action.CREATE ∧
    Action.CREATE ≠ Action.SKIP := ⟨rfl, rfl, by decide⟩

/-- C2: the spec claims a non-root directory with a `requires_rename` child
ends as `Create` and all its strict ancestors below the first `Exists` are
force-upgraded to `Create`.  In the code each directory's second pass
unconditionally reassigns the action chosen by `mark_all_ancestors`, so in
`a/b/dot-x` the directory `a/b` is `CREATE` but its ancestor `a` — with no
`EXISTS` in between — ends `LINK`, not `CREATE`. -/
theorem C2_deep_rename_ancestor :
    planChildRenameB noIgnore exTreeDeep ["a", "b"] = true ∧
    planActionAt (plan_install noIgnore emptyDest noMatcher exTreeDeep)
      ["a", "b"] = some Action.CREATE ∧
    planActionAt (plan_install noIgnore emptyDest noMatcher exTreeDeep)
      ["a"] = some Action.LINK ∧
    Action.LINK ≠ Action.CREATE ∧ Action.LINK ≠ Action.EXISTS :=
  ⟨rfl, rfl, rfl, by decide, by decide⟩

/-- C3: the spec claims a `FAIL`-free plan executes without "already exists"
errors.  The deep-rename plan for `a/b/dot-x` has no `FAIL` entry, yet
executing it symlinks `a` and then `mkdir a/b` resolves through that symlink
into the source tree and raises `FileExistsError`. -/
theorem C3_failfree_still_conflicts :
    extract_plan (plan_install noIgnore emptyDest noMatcher exTreeDeep)
      [Action.FAIL] = [] ∧
    executePlanModel exTreeDeep
      (plan_install noIgnore emptyDest noMatcher exTreeDeep) =
      Except.error (ExecErr.alreadyExists ["a", "b"]) := ⟨rfl, rfl⟩

/-- C4: the spec claims `Exists` wins the triple overlap (existing
destination + rename child + always-create match).  That holds whenever the
existing destination is not a regular file — proven in general — but when it
is a regular file the first pass marks the entry `FAIL` instead, as the
counterexample shows. -/
theorem C4_exists_wins (ignore : RelPath → Bool) (fs : DestFS) (m : Matcher)
    (tree : List FSObj) (hwf : wfTree tree = true) (hig : ignore [] = false) :
    ∀ x n, (plan_install ignore fs m tree).find? x = some n →
      n.is_dir = true → fs.existsAt (destOfPath x) = true →
      fs.isFile (destOfPath x) = false → n.action = Action.EXISTS := by
  intro x n hfind hdir hex hnf
  have hspec := plan_install_spec ignore fs m tree hwf hig
  rw [hspec x] at hfind
  by_cases hc : x ≠ [] ∧ planDom ignore tree x = true
  · rw [if_pos hc] at hfind
    have hn : n = baseNode tree x (finalActB ignore fs m tree x) := by
      injection hfind with h
      exact h.symm
    subst hn
    simp only [baseNode] at hdir ⊢
    have hfb : failedByB fs x = false := by simp [failedByB, hex, hnf]
    have hown : ownActB ignore fs m tree x = Action.EXISTS := by
      simp [ownActB, hex]
    simp [finalActB, hfb, hdir, hown]
  · rw [if_neg hc] at hfind
    exact absurd hfind (by simp)

theorem C4_witness : ∃ n,
    (plan_install noIgnore (destWithD false) acMatcherD exTreeD).find?
      ["d"] = some n ∧ n.action = Action.EXISTS := by
  refine ⟨_, rfl, ?_⟩
  exact C4_exists_wins noIgnore (destWithD false) acMatcherD exTreeD
    (by decide) rfl ["d"] _ rfl rfl (by decide) (by decide)

theorem C4_counterexample :
    (destWithD true).existsAt (destOfPath ["d"]) = true ∧
    (destWithD true).isFile (destOfPath ["d"]) = true ∧
    planChildRenameB noIgnore exTreeD ["d"] = true ∧
    matchesAlwaysCreateAtExactDepth acMatcherD (destOfPath ["d"]) = true ∧
    planActionAt (plan_install noIgnore (destWithD true) acMatcherD exTreeD)
      ["d"] = some Action.FAIL := ⟨rfl, rfl, rfl, rfl, rfl⟩

/-- C5: an always-create pattern forces `Create` only at its exact depth: a
matcher whose only pattern has depth 1 never makes
`_matches_always_create_at_exact_depth` hold at any other depth, the loaded
`.config` pattern matches `.config/subapp` as a whole-spec sub-path yet the
exact-depth test rejects it, and the scenario package `dot-config/app.conf`
gets `{dot-config : CREATE, app.conf : LINK}`. -/
theorem C5_exact_depth :
    (∀ (mm : Matcher) (p : RelPath),
      (∀ pat ∈ mm.patterns, pat.parts.length ≠ p.length) →
      matchesAlwaysCreateAtExactDepth mm p = false) ∧
    acMatcherConfig.fullMatch [".config", "subapp"] = true ∧
    matchesAlwaysCreateAtExactDepth acMatcherConfig [".config", "subapp"] =
      false ∧
    matchesAlwaysCreateAtExactDepth acMatcherConfig [".config"] = true ∧
    planActionAt
      (plan_install noIgnore emptyDest acMatcherConfig exTreeConfig)
      ["dot-config"] = some Action.CREATE ∧
    planActionAt
      (plan_install noIgnore emptyDest acMatcherConfig exTreeConfig)
      ["dot-config", "app.conf"] = some Action.LINK := by
  refine ⟨?_, rfl, rfl, rfl, rfl, rfl⟩
  intro mm p hlen
  unfold matchesAlwaysCreateAtExactDepth
  have hany : (mm.patterns.any (fun pat =>
      !pat.parts.isEmpty && pat.parts.length == p.length &&
        pat.singleMatch p)) = false := by
    apply List.any_eq_false.mpr
    intro pat hpat
    simp only [Bool.and_eq_true, beq_iff_eq, not_and]
    intro h
    exact absurd h.2 (hlen pat hpat)
  simp [hany]

theorem C5_witness :
    matchesAlwaysCreateAtExactDepth acMatcherConfig
      [".config", "subapp", "deep"] = false :=
  C5_exact_depth.1 acMatcherConfig [".config", "subapp", "deep"]
    (by decide)

/-- C6: the spec claims a `dot-` name maps to `"."` plus the stripped name —
with a source named exactly `dot-` mapping to the name `"."`.  The first part
is proven for every non-degenerate name (and unrenamed names are unchanged),
but for `dot-` itself the `"."` component collapses under the `pathlib` join,
so the destination path loses the component entirely, as the counterexample
shows. -/
theorem C6_rename_last_component :
    (∀ (xs : RelPath) (n : String), requiresRenameName n = true →
      n.data.drop 4 ≠ [] →
      lastName (destOfPath (xs ++ [n])) = "." ++ String.mk (n.data.drop 4)) ∧
    (∀ (xs : RelPath) (n : String), requiresRenameName n = false →
      wfName n = true → lastName (destOfPath (xs ++ [n])) = n) := by
  constructor
  · intro xs n hpre hne
    rw [destOfPath_concat]
    have hdn : destName n = "." ++ String.mk (n.data.drop 4) := by
      simp [destName, hpre]
    rw [hdn]
    have h1 : ("." : String).length = 1 := rfl
    have h2 : (String.mk (n.data.drop 4)).length = (n.data.drop 4).length := rfl
    have hlen : ("." ++ String.mk (n.data.drop 4)).length =
        1 + (n.data.drop 4).length := by
      rw [String.length_append, h1, h2]
    have hne1 : "." ++ String.mk (n.data.drop 4) ≠ "." := by
      intro h
      have hc := congrArg String.length h
      rw [hlen, h1] at hc
      have h0 : (n.data.drop 4).length = 0 := by omega
      exact hne (List.length_eq_zero.mp h0)
    have hne2 : "." ++ String.mk (n.data.drop 4) ≠ "" := by
      intro h
      have hc := congrArg String.length h
      have h3 : ("" : String).length = 0 := rfl
      rw [hlen, h3] at hc
      omega
    rw [show pathChild (destOfPath xs) ("." ++ String.mk (n.data.drop 4)) =
      destOfPath xs ++ ["." ++ String.mk (n.data.drop 4)] from by
        simp [pathChild, hne1, hne2]]
    exact lastName_concat _ _
  · intro xs n hpre hwfn
    rw [destOfPath_concat]
    have hdn : destName n = n := by simp [destName, hpre]
    rw [hdn, pathChild_of_wf _ hwfn]
    exact lastName_concat _ _

theorem C6_witness :
    lastName (destOfPath (["a"] ++ ["dot-x"])) =
      "." ++ String.mk ("dot-x".data.drop 4) :=
  C6_rename_last_component.1 ["a"] "dot-x" (by decide) (by decide)

theorem C6_counterexample :
    requiresRenameName "dot-" = true ∧
    ((plan_install_paths noIgnore exTreeDotDash).find? ["a", "dot-"]).map
      (fun nd => nd.relative_destination_path) = some ["a"] ∧
    lastName ["a"] ≠ "." := ⟨rfl, rfl, by decide⟩

/-- C7: the spec claims every directory entry of a `plan_uninstall` plan
whose destination is a symlink gets `Unlink` with every descendant `Skip`.
Proven when the symlink resolves (`exists` follows links) and no ancestor
took a decision first; descendants become `Skip` except immediate file
children whose own destination is a symlink, which keep the `Unlink` set by
the file loop.  The counterexample shows a dangling symlink gets `Skip`, not
`Unlink`, and a symlinked file child stays `Unlink`, not `Skip`. -/
theorem C7_uninstall_symlinked_dir (ignore : RelPath → Bool) (fs : DestFS)
    (tree : List FSObj) (hwf : wfTree tree = true) (hig : ignore [] = false) :
    ∀ x n, (plan_uninstall ignore fs tree).find? x = some n →
      n.is_dir = true → fs.existsAt (destOfPath x) = true →
      fs.isSymlink (destOfPath x) = true → blockedB fs x = false →
      n.action = Action.UNLINK ∧
      (∀ s ny, s ≠ [] →
        (plan_uninstall ignore fs tree).find? (x ++ s) = some ny →
        ny.action = (if s.length = 1 ∧ ny.is_dir = false ∧
            fs.isSymlink (destOfPath (x ++ s)) = true then Action.UNLINK
          else Action.SKIP)) := by
  intro x n hfind hdir hex hsym hbl
  have hspec := plan_uninstall_spec ignore fs tree hwf hig
  rw [hspec x] at hfind
  by_cases hc : x ≠ [] ∧ planDom ignore tree x = true
  case neg =>
    rw [if_neg hc] at hfind
    exact absurd hfind (by simp)
  rw [if_pos hc] at hfind
  have hn : n = baseNode tree x (unFinalActB fs tree x) := by
    injection hfind with h
    exact h.symm
  subst hn
  simp only [baseNode] at hdir ⊢
  have hown : ownUnActB fs x = some Action.UNLINK := by
    simp [ownUnActB, hex, hsym]
  have hsome : (ownUnActB fs x).isSome = true := by simp [hown]
  constructor
  · simp [unFinalActB, hdir, hbl, hown]
  · intro s ny hs hfy
    rw [hspec (x ++ s)] at hfy
    by_cases hcy : x ++ s ≠ [] ∧ planDom ignore tree (x ++ s) = true
    case neg =>
      rw [if_neg hcy] at hfy
      exact absurd hfy (by simp)
    rw [if_pos hcy] at hfy
    have hny : ny = baseNode tree (x ++ s) (unFinalActB fs tree (x ++ s)) := by
      injection hfy with h
      exact h.symm
    subst hny
    simp only [baseNode]
    by_cases hyd : isDirAtB tree (x ++ s) = true
    · have hbly : blockedB fs (x ++ s) = true :=
        blockedB_true_of_mem (mem_parentsOf_append x s hs) hsome
      simp [unFinalActB, hyd, hbly]
    · have hydf : isDirAtB tree (x ++ s) = false := by simpa using hyd
      cases s with
      | nil => exact absurd rfl hs
      | cons q t =>
        cases t with
        | nil =>
          by_cases hsl : fs.isSymlink (destOfPath (x ++ [q])) = true
          · simp [unFinalActB, hydf, List.dropLast_concat, hbl, hsl]
          · have hslf : fs.isSymlink (destOfPath (x ++ [q])) = false := by
              simpa using hsl
            simp [unFinalActB, hydf, List.dropLast_concat, hbl, hslf, hsome]
        | cons b u =>
          have hne2 : (q :: (b :: u).dropLast : List String) ≠ [] := by simp
          have hbl2 : blockedB fs (x ++ q :: (b :: u).dropLast) = true :=
            blockedB_true_of_mem (mem_parentsOf_append x _ hne2) hsome
          simp [unFinalActB, hydf, hbl2]

theorem C7_witness : ∃ n,
    (plan_uninstall noIgnore liveLinkDest exTreeUn).find? ["d"] = some n ∧
    n.action = Action.UNLINK ∧
    (∀ ny, (plan_uninstall noIgnore liveLinkDest exTreeUn).find?
      (["d"] ++ ["sub", "g"]) = some ny → ny.action = Action.SKIP) := by
  refine ⟨_, rfl, ?_, ?_⟩
  · exact (C7_uninstall_symlinked_dir noIgnore liveLinkDest exTreeUn
      (by decide) rfl ["d"] _ rfl rfl (by decide) (by decide) (by decide)).1
  · intro ny hny
    have h2 := (C7_uninstall_symlinked_dir noIgnore liveLinkDest exTreeUn
      (by decide) rfl ["d"] _ rfl rfl (by decide) (by decide) (by decide)).2
      ["sub", "g"] ny (by decide) hny
    simpa using h2

theorem C7_counterexample :
    (brokenLinkDest.isSymlink (destOfPath ["d"]) = true ∧
      planActionAt (plan_uninstall noIgnore brokenLinkDest exTreeUn) ["d"] =
        some Action.SKIP) ∧
    (liveLinkDest.isSymlink (destOfPath ["d"]) = true ∧
      planActionAt (plan_uninstall noIgnore liveLinkDest exTreeUn)
        ["d", "f"] = some Action.UNLINK ∧ Action.UNLINK ≠ Action.SKIP) :=
  ⟨⟨rfl, rfl⟩, ⟨rfl, rfl, by decide⟩⟩

/-- C8: the install command computes every package's plan first and executes
only when no package's plan extracts any `FAIL` entry, refusing the whole
batch otherwise. -/
theorem C8_all_or_nothing (ignore : RelPath → Bool) (fs : DestFS)
    (m : Matcher) (sources : List (List FSObj)) :
    ((∃ s ∈ sources,
        extract_plan (plan_install ignore fs m s) [Action.FAIL] ≠ []) →
      installCmdExecuted ignore fs m sources = []) ∧
    ((∀ s ∈ sources,
        extract_plan (plan_install ignore fs m s) [Action.FAIL] = []) →
      installCmdExecuted ignore fs m sources =
        sources.map (fun s => (s, plan_install ignore fs m s))) := by
  constructor
  · rintro ⟨s, hs, hne⟩
    unfold installCmdExecuted
    have hall : ((sources.map (fun s => (s, plan_install ignore fs m s))).all
        (fun sp => (extract_plan sp.2 [Action.FAIL]).isEmpty)) = false := by
      apply List.all_eq_false.mpr
      refine ⟨(s, plan_install ignore fs m s),
        List.mem_map.mpr ⟨s, hs, rfl⟩, ?_⟩
      simpa using hne
    simp [hall]
  · intro hall
    unfold installCmdExecuted
    have h2 : ((sources.map (fun s => (s, plan_install ignore fs m s))).all
        (fun sp => (extract_plan sp.2 [Action.FAIL]).isEmpty)) = true := by
      apply List.all_eq_true.mpr
      intro sp hsp
      rcases List.mem_map.mp hsp with ⟨s, hs, rfl⟩
      simpa using hall s hs
    simp [h2]

theorem C8_witness :
    installCmdExecuted noIgnore conflictDest noMatcher
      [exTreeSimple, exTreeD] = [] :=
  (C8_all_or_nothing noIgnore conflictDest noMatcher
    [exTreeSimple, exTreeD]).1
    ⟨exTreeSimple, by simp, by decide⟩

/-- C9: the spec claims all three planning functions strip the synthetic
root entry `.` before returning.  `plan_install` and `plan_uninstall` do
(proven for every input), but `plan_install_paths` returns the bootstrap
root entry to its caller, as the counterexample shows. -/
theorem C9_root_stripped :
    (∀ (ignore : RelPath → Bool) (fs : DestFS) (m : Matcher)
      (tree : List FSObj), (plan_install ignore fs m tree).find? [] = none) ∧
    (∀ (ignore : RelPath → Bool) (fs : DestFS) (tree : List FSObj),
      (plan_uninstall ignore fs tree).find? [] = none) := by
  constructor
  · intro ignore fs m tree
    unfold plan_install
    exact Plan.find?_eraseKey_self _ _
  · intro ignore fs tree
    unfold plan_uninstall
    exact Plan.find?_eraseKey_self _ _

theorem C9_counterexample :
    (plan_install_paths noIgnore exTreeD).find? [] = some rootNode := rfl

/-- C10: `plan_install_paths` calls `IgnoreRules(source_package_root)` even
though `IgnoreRules.__init__` takes no argument besides `self`, so every call
raises `TypeError` before any plan entry is produced. -/
theorem C10_arity_type_error (ignore : RelPath → Bool) (tree : List FSObj) :
    plan_install_paths_run ignore tree = Except.error PyError.typeError := rfl

end Dotx
